import Mathlib

/-! # Left alignment of indels (vcflib, `src/LeftAlign.cpp`)

A shallow embedding of `leftAlign` and `stablyLeftAlign` together with the
properties of the left-alignment specification.

Modelling conventions.

* A C++ `string` is a `List Char`; a `Cigar` (`vector<pair<int, char>>`) is a
  list of pairs of a length and a kind character.
* `int` cursors and positions are `Int`; operation lengths are `Nat`.  All
  quantities are taken to stay inside the range of `int`, so that machine
  arithmetic is exact (the sequences live in memory, so cursors that index
  them do).
* `std::string::substr`, `at` and `insert` throw `std::out_of_range`; the
  reconstruction calls `exit(1)` on an "impossible" indel order; the
  homopolymer tests dereference the begin iterator of their argument, which
  is undefined on an empty string.  These three ways of not returning are the
  three constructors of `Fault`, and every fallible function returns
  `Except Fault _`.
* `while` loops are structural recursions on a counter that bounds the number
  of iterations the loop can make from its start state; for each loop an
  exit lemma shows that the recursion stops because the loop condition is
  false, never because the counter ran out.
-/

namespace vcflib

/-- Ways in which the C++ code does not return. -/
inductive Fault where
  /-- The exception `std::out_of_range` escapes (`substr`, `at`, `insert`). -/
  | outOfRange
  /-- The branch "impossibility?: indel realigned left of another indel", `exit(1)`. -/
  | impossibility
  /-- The homopolymer test reads the first character of an empty string. -/
  | emptyString
  deriving DecidableEq, Repr

deriving instance DecidableEq for Except

/-- A `Cigar` is `vector<pair<int, char>>`: operation length and kind. -/
abbrev Cigar := List (Nat × Char)

/-- The class `VCFIndelAllele`: one insertion or deletion. -/
structure VCFIndelAllele where
  /-- True for an insertion, false for a deletion. -/
  insertion : Bool
  /-- Number of inserted or deleted bases. -/
  length : Nat
  /-- Offset in the reference. -/
  position : Int
  /-- Offset in the read. -/
  readPosition : Int
  /-- The inserted or deleted bases. -/
  sequence : List Char
  deriving DecidableEq, Repr

/-- The call `s.substr(pos, len)`: throws when `pos > s.size()` (a negative `int` converts
to a huge `size_t`), otherwise at most `len` characters from `pos` on. -/
def substr (s : List Char) (pos : Int) (len : Nat) : Except Fault (List Char) :=
  if 0 ≤ pos ∧ pos ≤ (s.length : Int) then .ok ((s.drop pos.toNat).take len)
  else .error .outOfRange

/-- The call `s.at(pos)`: throws when `pos >= s.size()`. -/
def charAt (s : List Char) (pos : Int) : Except Fault Char :=
  if 0 ≤ pos then
    match s.get? pos.toNat with
    | some c => .ok c
    | none => .error .outOfRange
  else .error .outOfRange

/-- The call `s.insert(pos, t)`: throws when `pos > s.size()`. -/
def strInsert (s : List Char) (pos : Int) (t : List Char) : Except Fault (List Char) :=
  if 0 ≤ pos ∧ pos ≤ (s.length : Int) then
    .ok (s.take pos.toNat ++ t ++ s.drop pos.toNat)
  else .error .outOfRange

/-- The loop of `FBhomopolymer`: `while (s != end) if (c != *s++) return false; return true`. -/
def sameAs (c : Char) : List Char → Bool
  | [] => true
  | x :: s => if c ≠ x then false else sameAs c s

/-- The function `FBhomopolymer` (and, on the indel sequence, `VCFIndelAllele::homopolymer`,
which has the same body): `char c = *s++` reads the first character. -/
def FBhomopolymer (sequence : List Char) : Except Fault Bool :=
  match sequence with
  | [] => .error .emptyString
  | c :: s => .ok (sameAs c s)

/-- The method `VCFIndelAllele::homopolymer`. -/
def VCFIndelAllele.homopolymer (a : VCFIndelAllele) : Except Fault Bool :=
  FBhomopolymer a.sequence

/-- Decimal digits of an `unsigned int` as `ostream << l` writes them. -/
def decimal (l : Nat) : List Char := Nat.toDigits 10 l

/-- The text `cigar_before` / `cigar_after`: every operation written as `l` then `t`. -/
def cigarString : Cigar → List Char
  | [] => []
  | c :: cs => decimal c.1 ++ c.2 :: cigarString cs

/-- The local variables of the first loop of `leftAlign`. -/
structure Extraction where
  /-- Offset `arsOffset`. -/
  arsOffset : Int
  /-- The padded reference `alignedReferenceSequence`. -/
  alignedReferenceSequence : List Char
  /-- Offset `aabOffset`. -/
  aabOffset : Int
  /-- The padded read `alignmentAlignedBases`. -/
  alignmentAlignedBases : List Char
  /-- The indels found so far. -/
  indels : List VCFIndelAllele
  /-- Read cursor `rp`. -/
  rp : Int
  /-- Reference cursor `sp`. -/
  sp : Int
  /-- Leading soft clip `softBegin`. -/
  softBegin : List Char
  /-- Trailing soft clip `softEnd`. -/
  softEnd : List Char
  deriving DecidableEq, Repr

/-- The variables before the first loop of `leftAlign`. -/
def Extraction.start (alternateSequence referenceSequence : List Char) : Extraction where
  arsOffset := 0
  alignedReferenceSequence := referenceSequence
  aabOffset := 0
  alignmentAlignedBases := alternateSequence
  indels := []
  rp := 0
  sp := 0
  softBegin := []
  softEnd := []

/-- One iteration of the first loop of `leftAlign`, on the operation `(l, t)`. -/
def extractOp (alternateSequence referenceSequence : List Char) (st : Extraction)
    (c : Nat × Char) : Except Fault Extraction :=
  let l := c.1
  let t := c.2
  if t = 'M' then
    .ok { st with sp := st.sp + l, rp := st.rp + l }
  else if t = 'D' then do
    let seq ← substr referenceSequence st.sp l
    let aab ← strInsert st.alignmentAlignedBases (st.rp + st.aabOffset) (List.replicate l '-')
    .ok { st with
      indels := st.indels ++ [⟨false, l, st.sp, st.rp, seq⟩]
      alignmentAlignedBases := aab
      aabOffset := st.aabOffset + l
      sp := st.sp + l }
  else if t = 'I' then do
    let seq ← substr alternateSequence st.rp l
    let ars ← strInsert st.alignedReferenceSequence
      (st.sp + st.softBegin.length + st.arsOffset) (List.replicate l '-')
    .ok { st with
      indels := st.indels ++ [⟨true, l, st.sp, st.rp, seq⟩]
      alignedReferenceSequence := ars
      arsOffset := st.arsOffset + l
      rp := st.rp + l }
  else if t = 'S' then
    if st.rp = 0 then do
      let sb ← substr st.alignmentAlignedBases 0 l
      .ok { st with
        alignedReferenceSequence := List.replicate l '*' ++ st.alignedReferenceSequence
        softBegin := sb
        rp := st.rp + l }
    else do
      let se ← substr st.alignmentAlignedBases ((st.alignmentAlignedBases.length : Int) - l) l
      .ok { st with
        alignedReferenceSequence := st.alignedReferenceSequence ++ List.replicate l '*'
        softEnd := se
        rp := st.rp + l }
  else if t = 'H' then
    .ok st
  else if t = 'N' then
    .ok { st with sp := st.sp + l }
  else
    .ok st

/-- The first loop of `leftAlign`, over the operations of the cigar. -/
def extract (alternateSequence referenceSequence : List Char) :
    Extraction → Cigar → Except Fault Extraction
  | st, [] => .ok st
  | st, c :: cs => do
    let st' ← extractOp alternateSequence referenceSequence st c
    extract alternateSequence referenceSequence st' cs

/-- The last conjunct of both left-shift loop conditions: the indel is the first one
(`previous = none`), or the candidate position `steppos` does not pass the previous indel. -/
def leftBound (previous : Option VCFIndelAllele) (steppos : Int) : Bool :=
  match previous with
  | none => true
  | some p =>
    (p.insertion && decide (steppos ≥ p.position))
      || (!p.insertion && decide (steppos ≥ p.position + p.length))

/-- The condition of the repeat-shift `while`, evaluated left to right with `&&`. -/
def shiftCond (alternateSequence referenceSequence : List Char)
    (previous : Option VCFIndelAllele) (indel : VCFIndelAllele) (steppos readsteppos : Int) :
    Except Fault Bool :=
  if steppos ≥ 0 ∧ readsteppos ≥ 0 then do
    let w ← substr referenceSequence steppos indel.length
    if indel.sequence = w then do
      let v ← substr alternateSequence readsteppos indel.length
      if indel.sequence = v then .ok (leftBound previous steppos) else .ok false
    else .ok false
  else .ok false

/-- The repeat-shift `while` for a fixed step `i`; the counter bounds the iterations
(each one lowers `position` by `i` and needs `position - i >= 0`). -/
def shiftWhile (alternateSequence referenceSequence : List Char)
    (previous : Option VCFIndelAllele) (i : Nat) : Nat → VCFIndelAllele → Except Fault VCFIndelAllele
  | 0, indel => .ok indel
  | n + 1, indel => do
    let go ← shiftCond alternateSequence referenceSequence previous indel
      (indel.position - i) (indel.readPosition - i)
    if go then
      shiftWhile alternateSequence referenceSequence previous i n
        { indel with position := indel.position - i, readPosition := indel.readPosition - i }
    else .ok indel

/-- The loop `do ++i; while (i <= length && length % i != 0)`; the counter bounds the
iterations. -/
def nextStep (length : Nat) : Nat → Nat → Nat
  | 0, i => i + 1
  | n + 1, i =>
    if i + 1 ≤ length ∧ length % (i + 1) ≠ 0 then nextStep length n (i + 1) else i + 1

/-- The loop `while (i <= indel.length)` of the repeat shift; the counter bounds the
iterations (`i` grows in each one). -/
def repeatShift (alternateSequence referenceSequence : List Char)
    (previous : Option VCFIndelAllele) : Nat → Nat → VCFIndelAllele → Except Fault VCFIndelAllele
  | 0, _, indel => .ok indel
  | n + 1, i, indel =>
    if i ≤ indel.length then do
      let indel' ← shiftWhile alternateSequence referenceSequence previous i
        indel.position.toNat indel
      repeatShift alternateSequence referenceSequence previous n
        (nextStep indel.length indel.length i) indel'
    else .ok indel

/-- The condition of the flank-exchange `while`, evaluated left to right with `&&`. -/
def exchangeCond (alternateSequence referenceSequence : List Char)
    (previous : Option VCFIndelAllele) (indel : VCFIndelAllele) : Except Fault Bool :=
  let steppos := indel.position - 1
  let readsteppos := indel.readPosition - 1
  if steppos ≥ 0 ∧ readsteppos ≥ 0 then do
    let a ← charAt alternateSequence readsteppos
    let r ← charAt referenceSequence steppos
    if a = r then do
      let e ← charAt indel.sequence ((indel.sequence.length : Int) - 1)
      if a = e then .ok (leftBound previous (indel.position - 1)) else .ok false
    else .ok false
  else .ok false

/-- The body of the flank-exchange `while`: rotate the sequence right by one and move
one base left. -/
def exchangeStep (indel : VCFIndelAllele) : Except Fault VCFIndelAllele := do
  let e ← charAt indel.sequence ((indel.sequence.length : Int) - 1)
  let front ← substr indel.sequence 0 (indel.sequence.length - 1)
  .ok { indel with
    sequence := e :: front
    position := indel.position - 1
    readPosition := indel.readPosition - 1 }

/-- The flank-exchange `while`; the counter bounds the iterations. -/
def exchangeWhile (alternateSequence referenceSequence : List Char)
    (previous : Option VCFIndelAllele) : Nat → VCFIndelAllele → Except Fault VCFIndelAllele
  | 0, indel => .ok indel
  | n + 1, indel => do
    let go ← exchangeCond alternateSequence referenceSequence previous indel
    if go then do
      let indel' ← exchangeStep indel
      exchangeWhile alternateSequence referenceSequence previous n indel'
    else .ok indel

/-- The body of the left-shift `for` loop for one indel: repeat shift, then flank
exchange. -/
def shiftIndel (alternateSequence referenceSequence : List Char)
    (previous : Option VCFIndelAllele) (indel : VCFIndelAllele) : Except Fault VCFIndelAllele := do
  let shifted ← repeatShift alternateSequence referenceSequence previous indel.length 1 indel
  exchangeWhile alternateSequence referenceSequence previous shifted.position.toNat shifted

/-- The left-shift `for` loop: `previous` is the indel before `id`, as it was left by its
own shift (`none` when `id == indels.begin()`). -/
def leftShift (alternateSequence referenceSequence : List Char) :
    Option VCFIndelAllele → List VCFIndelAllele → Except Fault (List VCFIndelAllele)
  | _, [] => .ok []
  | previous, indel :: rest => do
    let indel' ← shiftIndel alternateSequence referenceSequence previous indel
    let rest' ← leftShift alternateSequence referenceSequence (some indel') rest
    .ok (indel' :: rest')

/-- The guard of the right-shift: same kind, and `previous` strictly left of `indel`. -/
def mergeGuard (previous indel : VCFIndelAllele) : Bool :=
  (previous.insertion == indel.insertion)
    && ((previous.insertion
          && (decide (previous.position < indel.position)
          && decide (previous.readPosition + previous.readPosition < indel.readPosition)))
        || (!previous.insertion
          && decide (previous.position + previous.length < indel.position)
          && decide (previous.readPosition < indel.readPosition)))

/-- The condition of the tandem-repeat `while`. -/
def tandemCond (referenceSequence : List Char) (previous indel : VCFIndelAllele) (pos : Int) :
    Except Fault Bool :=
  if pos < (referenceSequence.length : Int) then
    if (previous.insertion && decide (pos + previous.length ≤ indel.position))
        || (!previous.insertion && decide (pos + previous.length < indel.position)) then do
      let w ← substr referenceSequence (pos + previous.length) previous.length
      .ok (decide (previous.sequence = w))
    else .ok false
  else .ok false

/-- The tandem-repeat `while`: `pos += previous->length`; the counter bounds the
iterations. -/
def tandemWhile (referenceSequence : List Char) (previous indel : VCFIndelAllele) :
    Nat → Int → Except Fault Int
  | 0, pos => .ok pos
  | n + 1, pos => do
    let go ← tandemCond referenceSequence previous indel pos
    if go then tandemWhile referenceSequence previous indel n (pos + previous.length)
    else .ok pos

/-- The body of the right-shift `for` loop: the value of `*previous` after the
iteration for the pair (`previous`, `indel`). -/
def rightShiftPair (alternateSequence referenceSequence : List Char)
    (previous indel : VCFIndelAllele) : Except Fault VCFIndelAllele :=
  let prev_end_ref : Int :=
    if previous.insertion then previous.position else previous.position + previous.length
  let prev_end_read : Int :=
    if !previous.insertion then previous.readPosition
    else previous.readPosition + previous.length
  if mergeGuard previous indel then do
    let homo ← previous.homopolymer
    if homo then do
      let seq ← substr referenceSequence prev_end_ref (indel.position - prev_end_ref).toNat
      let readseq ← substr alternateSequence prev_end_read (indel.position - prev_end_ref).toNat
      let p0 ← charAt previous.sequence 0
      let s0 ← charAt seq 0
      if p0 = s0 then do
        let h1 ← FBhomopolymer seq
        if h1 then do
          let h2 ← FBhomopolymer readseq
          if h2 then
            .ok { previous with
              position :=
                if indel.insertion then indel.position else indel.position - previous.length }
          else .ok previous
        else .ok previous
      else .ok previous
    else do
      let pos ← tandemWhile referenceSequence previous indel
        ((referenceSequence.length : Int) - previous.position).toNat previous.position
      if pos < previous.position
          ∧ ((previous.insertion ∧ pos + previous.length = indel.position)
            ∨ (¬ previous.insertion ∧ pos = indel.position - previous.length)) then
        .ok { previous with position := pos }
      else .ok previous
  else .ok previous

/-- The right-shift `for` loop from `indels.begin() + 1` on (nothing to do for fewer than
two indels). -/
def rightShift (alternateSequence referenceSequence : List Char) :
    List VCFIndelAllele → Except Fault (List VCFIndelAllele)
  | previous :: indel :: rest => do
    let previous' ← rightShiftPair alternateSequence referenceSequence previous indel
    let rest' ← rightShift alternateSequence referenceSequence (indel :: rest)
    .ok (previous' :: rest')
  | indels => .ok indels

/-- The value `lastend` for the indel `last`. -/
def indelEnd (last : VCFIndelAllele) : Int :=
  if last.insertion then last.position else last.position + last.length

/-- The kind character of an indel. -/
def indelKind (a : VCFIndelAllele) : Char := if a.insertion then 'I' else 'D'

/-- The statement `newCigar.back().first += n`. -/
def extendBack (newCigar : Cigar) (n : Nat) : Cigar :=
  match newCigar.getLast? with
  | some op => newCigar.dropLast ++ [(op.1 + n, op.2)]
  | none => newCigar

/-- The reconstruction `for` loop over the indels after the first. -/
def rebuild : Cigar → VCFIndelAllele → List VCFIndelAllele → Except Fault (Cigar × Int)
  | newCigar, last, [] => .ok (newCigar, indelEnd last)
  | newCigar, last, indel :: rest =>
    if indel.position < indelEnd last then .error .impossibility
    else if indel.position = indelEnd last ∧ indel.insertion = last.insertion then
      rebuild (extendBack newCigar indel.length) indel rest
    else if indel.position ≥ indelEnd last then
      rebuild (newCigar ++ [((indel.position - indelEnd last).toNat, 'M'),
        (indel.length, indelKind indel)]) indel rest
    else rebuild newCigar indel rest

/-- The construction of `newCigar` from the shifted indels. -/
def reconstruct (softBegin softEnd : List Char) (alignedLength : Int) :
    List VCFIndelAllele → Except Fault Cigar
  | [] => .ok []
  | last :: rest => do
    let c0 : Cigar := if softBegin ≠ [] then [(softBegin.length, 'S')] else []
    let c1 : Cigar :=
      if last.position > 0 then
        c0 ++ [(last.position.toNat, 'M'), (last.length, indelKind last)]
      else c0 ++ [(last.length, indelKind last)]
    let (c2, lastend) ← rebuild c1 last rest
    let c3 : Cigar :=
      if lastend < alignedLength then c2 ++ [((alignedLength - lastend).toNat, 'M')] else c2
    .ok (if softEnd ≠ [] then c3 ++ [(softEnd.length, 'S')] else c3)

/-- The function `leftAlign`: the returned flag and the value of `cigar` on return. -/
def leftAlign (alternateSequence : List Char) (cigar : Cigar) (referenceSequence : List Char) :
    Except Fault (Bool × Cigar) := do
  let st ← extract alternateSequence referenceSequence
    (Extraction.start alternateSequence referenceSequence) cigar
  let alignedLength := st.sp
  if st.indels = [] then .ok (false, cigar)
  else do
    let shifted ← leftShift alternateSequence referenceSequence none st.indels
    let merged ← rightShift alternateSequence referenceSequence shifted
    let newCigar ← reconstruct st.softBegin st.softEnd alignedLength merged
    if cigarString newCigar = cigarString cigar then .ok (false, newCigar)
    else .ok (true, newCigar)

/-- What a call of `stablyLeftAlign` leaves: the returned flag, the final cigar, and the
flags returned by the calls of `leftAlign` it made, in order. -/
structure Stabilized where
  /-- The value returned by `stablyLeftAlign`. -/
  result : Bool
  /-- The value of `cigar` on return. -/
  cigar : Cigar
  /-- The flags returned by the passes made, first pass first. -/
  passes : List Bool
  deriving DecidableEq, Repr

/-- The loop `while ((result = leftAlign(...)) && --maxiterations > 0) {}` followed by the
test of `maxiterations`; `passes` collects the flags; the counter bounds the iterations. -/
def stablyWhile (alternateSequence referenceSequence : List Char) :
    Nat → Int → Cigar → List Bool → Except Fault Stabilized
  | fuel, maxiterations, cigar, passes => do
    let (result, cigar') ← leftAlign alternateSequence cigar referenceSequence
    if result then
      if maxiterations - 1 > 0 then
        match fuel with
        | 0 => .ok ⟨decide (¬ maxiterations - 1 ≤ 0), cigar', passes ++ [result]⟩
        | n + 1 =>
          stablyWhile alternateSequence referenceSequence n (maxiterations - 1) cigar'
            (passes ++ [result])
      else .ok ⟨decide (¬ maxiterations - 1 ≤ 0), cigar', passes ++ [result]⟩
    else .ok ⟨decide (¬ maxiterations ≤ 0), cigar', passes ++ [result]⟩

/-- The function `stablyLeftAlign`. -/
def stablyLeftAlign (alternateSequence referenceSequence : List Char) (cigar : Cigar)
    (maxiterations : Int) : Except Fault Stabilized := do
  let (changed, cigar') ← leftAlign alternateSequence cigar referenceSequence
  if !changed then .ok ⟨true, cigar', [changed]⟩
  else
    stablyWhile alternateSequence referenceSequence maxiterations.toNat maxiterations cigar'
      [changed]

/-- Value of a decimal digit character. -/
def digitValue (c : Char) : Nat := c.toNat - 48

/-- Value of a text of decimal digits, most significant first. -/
def decimalValue (s : List Char) : Nat := s.foldl (fun a c => a * 10 + digitValue c) 0

/-- The six operation kinds of the data model. -/
def opKinds : List Char := ['M', 'I', 'D', 'S', 'H', 'N']

/-- The first `n` passes of `leftAlign` from `cigar` all return and all report "changed". -/
def keepsChanging (alternateSequence referenceSequence : List Char) : Nat → Cigar → Bool
  | 0, _ => true
  | n + 1, cigar =>
    match leftAlign alternateSequence cigar referenceSequence with
    | .ok (true, cigar') => keepsChanging alternateSequence referenceSequence n cigar'
    | _ => false

/-- Kinds that the reconstruction writes. -/
def OutKinds (c : Cigar) : Prop := ∀ op ∈ c, op.2 = 'S' ∨ op.2 = 'M' ∨ op.2 = 'I' ∨ op.2 = 'D'

/-- The end of the previous indel, below which the current one may not go; `0` for the
first indel. -/
def boundOf (previous : Option VCFIndelAllele) : Int :=
  match previous with
  | none => 0
  | some p => indelEnd p

/-- The indels lie in order from `e` on: each position is at least the end of the indel
before it (`e` for the first). -/
def Ordered : Int → List VCFIndelAllele → Prop
  | _, [] => True
  | e, a :: rest => e ≤ a.position ∧ Ordered (indelEnd a) rest

/-- The indel `b` is the indel `a` moved left: same kind and length, and the read position
moved along with the reference position. -/
def MovedLeft (a b : VCFIndelAllele) : Prop :=
  b.insertion = a.insertion ∧ b.length = a.length ∧ b.position ≤ a.position ∧
    b.readPosition - b.position = a.readPosition - a.position ∧
    b.sequence.length = a.sequence.length

/-- The end of the last indel of the list (`e` for the empty list): the final value of
`lastend`. -/
def endOf : Int → List VCFIndelAllele → Int
  | e, [] => e
  | _, a :: rest => endOf (indelEnd a) rest

/-- The indel `b` is the indel `a` moved right: same kind, length, read position and
sequence. -/
def MovedRight (a b : VCFIndelAllele) : Prop :=
  b.insertion = a.insertion ∧ b.length = a.length ∧ a.position ≤ b.position ∧
    b.readPosition = a.readPosition ∧ b.sequence = a.sequence

/-- Sum of the lengths of the operations of kind `t`. -/
def kindTotal (t : Char) : Cigar → Nat
  | [] => 0
  | c :: cs => (if c.2 = t then c.1 else 0) + kindTotal t cs

/-- Reference-consuming length of a cigar: Match + Deletion + Skip. -/
def refLength (c : Cigar) : Nat := kindTotal 'M' c + kindTotal 'D' c + kindTotal 'N' c

/-- Read-consuming length of a cigar: Match + Insertion + SoftClip. -/
def readLength (c : Cigar) : Nat := kindTotal 'M' c + kindTotal 'I' c + kindTotal 'S' c

/-- Sum of the lengths of the insertions (`ins = true`) or deletions (`ins = false`). -/
def indelTotal (ins : Bool) : List VCFIndelAllele → Nat
  | [] => 0
  | a :: rest => (if a.insertion = ins then a.length else 0) + indelTotal ins rest

/-- The computation does not take the "impossibility" exit. -/
def NoExit {α : Type} (x : Except Fault α) : Prop := x ≠ .error .impossibility

/-- The soft clips of the cigar are at most its first and its last operation. -/
def ClipsAtEnds (cigar : Cigar) : Prop :=
  ∃ lead body trail, cigar = lead ++ body ++ trail ∧
    (lead = [] ∨ ∃ n, lead = [(n, 'S')]) ∧ (∀ op ∈ body, op.2 ≠ 'S') ∧
    (trail = [] ∨ ∃ n, trail = [(n, 'S')])

/-- The `len` characters of `s` from offset `q` on. -/
def window (s : List Char) (q len : Nat) : List Char := (s.drop q).take len

/-- The sequence `s` without its `len` characters from offset `q` on. -/
def removeWindow (s : List Char) (q len : Nat) : List Char := s.take q ++ s.drop (q + len)

/-- A Match operation of length `n`, omitted when `n = 0`. -/
def matchOp (n : Nat) : Cigar := if n = 0 then [] else [(n, 'M')]

/-- The cigar `kM L(t) mM` of an alignment with one indel, zero-length Match omitted. -/
def oneIndel (k len : Nat) (t : Char) (m : Nat) : Cigar := matchOp k ++ [(len, t)] ++ matchOp m

/-- The indel `a` of kind `ins` and length `len` sits at an offset `q ≤ k` of the sequence
`long` at which removing `len` characters from `long` gives `short`; its read position is
`q` too and its sequence is the window of `long` at `q`. -/
def Placed (long short : List Char) (ins : Bool) (len k : Nat) (a : VCFIndelAllele) : Prop :=
  a.insertion = ins ∧ a.length = len ∧
    ∃ q : Nat, q ≤ k ∧ a.position = q ∧ a.readPosition = q ∧ a.sequence = window long q len ∧
      removeWindow long q len = short

/-- The character of `s` at the `int` offset `x`, if there is one. -/
def getAt (s : List Char) (x : Int) : Option Char := if 0 ≤ x then s[x.toNat]? else none

/-- The `len` read bases from `re` on equal the `len` reference bases from `e` on. -/
def Matches (read ref : List Char) (re e len : Int) : Prop :=
  ∀ j : Int, 0 ≤ j → j < len → getAt read (re + j) = getAt ref (e + j)

/-- Number of read bases an indel consumes. -/
def insLength (a : VCFIndelAllele) : Int := if a.insertion then (a.length : Int) else 0

/-- The indels, placed by their reference positions, describe a mismatch-free alignment of
the read from read offset `re` and reference offset `e` on: the bases between consecutive
indels match, the matches after the last indel reach the aligned length `al`, and `tail`
read bases (the trailing soft clip) remain. -/
def Aligned (read ref : List Char) (al tail : Int) : Int → Int → List VCFIndelAllele → Prop
  | e, re, [] => e ≤ al ∧ Matches read ref re e (al - e) ∧ re + (al - e) + tail = read.length
  | e, re, a :: rest =>
    e ≤ a.position ∧ Matches read ref re e (a.position - e) ∧
      Aligned read ref al tail (indelEnd a) (re + (a.position - e) + insLength a) rest

/-- The sequence of the indel is what the read (insertion) or the reference (deletion)
holds at its position. -/
def SeqOK (read ref : List Char) (a : VCFIndelAllele) : Prop :=
  1 ≤ a.length ∧ a.sequence.length = a.length ∧
    ∀ j : Nat, j < a.length →
      ∃ c, a.sequence[j]? = some c ∧
        getAt (if a.insertion then read else ref)
          ((if a.insertion then a.readPosition else a.position) + j) = some c

/-- The read positions and sequences recorded in the indels agree with their reference
positions. -/
def Synced (read ref : List Char) : Int → Int → List VCFIndelAllele → Prop
  | _, _, [] => True
  | e, re, a :: rest =>
    a.readPosition = re + (a.position - e) ∧ SeqOK read ref a ∧
      Synced read ref (indelEnd a) (re + (a.position - e) + insLength a) rest

/-- The `n` read bases from `rp` on and the `n` reference bases from `sp` on exist and are
equal, column by column. -/
def matchRun (read ref : List Char) (rp sp : Int) : Nat → Bool
  | 0 => true
  | n + 1 =>
    matchRun read ref rp sp n &&
      (match getAt read (rp + n), getAt ref (sp + n) with
       | some x, some y => x == y
       | _, _ => false)

/-- The cigar, read from the read cursor `rp` and the reference cursor `sp` on, is consistent
with the read and the reference and free of mismatches: Match, Insertion and SoftClip
consume read bases, Match, Deletion and Skip consume reference bases, every Match column
pairs equal bases, the read-consuming lengths end at the end of the read, and the
reference-consuming lengths end inside the reference. -/
def consistentFrom (read ref : List Char) : Int → Int → Cigar → Bool
  | rp, sp, [] => decide (rp = (read.length : Int)) && decide (sp ≤ (ref.length : Int))
  | rp, sp, (l, t) :: cs =>
    if t = 'M' then matchRun read ref rp sp l && consistentFrom read ref (rp + l) (sp + l) cs
    else if t = 'I' ∨ t = 'S' then consistentFrom read ref (rp + l) sp cs
    else if t = 'D' ∨ t = 'N' then consistentFrom read ref rp (sp + l) cs
    else consistentFrom read ref rp sp cs

/-- The cigar is consistent with the read and the reference and free of mismatches. -/
def Consistent (read ref : List Char) (cigar : Cigar) : Prop :=
  consistentFrom read ref 0 0 cigar = true

/-- Every consistent continuation of the cigar `c` from the cursors `rp`, `sp` makes a
consistent cigar: `c` is a mismatch-free start that ends at these cursors. -/
def Reaches (read ref : List Char) (c : Cigar) (rp sp : Int) : Prop :=
  ∀ d, consistentFrom read ref rp sp d = true → consistentFrom read ref 0 0 (c ++ d) = true

/-- The indels of a cigar made of Match, Insertion and Deletion operations, read from the
cursors `rp`, `sp` on: what the extraction loop appends to `indels`. -/
def indelsFrom (read ref : List Char) : Int → Int → Cigar → List VCFIndelAllele
  | _, _, [] => []
  | rp, sp, (l, t) :: cs =>
    if t = 'M' then indelsFrom read ref (rp + l) (sp + l) cs
    else if t = 'D' then
      ⟨false, l, sp, rp, (ref.drop sp.toNat).take l⟩ :: indelsFrom read ref rp (sp + l) cs
    else if t = 'I' then
      ⟨true, l, sp, rp, (read.drop rp.toNat).take l⟩ :: indelsFrom read ref (rp + l) sp cs
    else indelsFrom read ref rp sp cs

/-- The padded sequences of the extraction loop have the lengths that keep its `insert`
calls in range. -/
def Padded (read ref : List Char) (st : Extraction) : Prop :=
  0 ≤ st.rp ∧ 0 ≤ st.sp ∧ 0 ≤ st.aabOffset ∧
    (st.alignmentAlignedBases.length : Int) = read.length + st.aabOffset ∧
    0 ≤ st.arsOffset ∧
    (ref.length : Int) + st.arsOffset + st.softBegin.length
      ≤ (st.alignedReferenceSequence.length : Int)

/-- No two consecutive operations of the cigar have the same kind. -/
def Compact (c : Cigar) : Prop := List.Chain' (fun x y : Nat × Char => x.2 ≠ y.2) c

/-- The text `ostream << x` writes for an `int`. -/
def intText (x : Int) : List Char :=
  if x < 0 then '-' :: decimal (-x).toNat else decimal x.toNat

/-- The function `operator<<` on indels: the printed form
`<i|d>:<position>:<readPosition>:<sequence>`. -/
def operatorOut (indel : VCFIndelAllele) : List Char :=
  (if indel.insertion then 'i' else 'd') :: ':' ::
    (intText indel.position ++ ':' :: (intText indel.readPosition ++ ':' :: indel.sequence))

/-- The function `operator==` on indels. -/
def operatorEq (a b : VCFIndelAllele) : Bool :=
  a.insertion == b.insertion && a.length == b.length && a.position == b.position
    && a.sequence == b.sequence

/-- The comparison `operator<` of `std::string`: lexicographic, a proper prefix first. -/
def stringLt : List Char → List Char → Bool
  | _, [] => false
  | [], _ :: _ => true
  | a :: as, b :: bs => if a < b then true else if b < a then false else stringLt as bs

/-- The function `operator<` on indels: the comparison of the printed forms. -/
def operatorLt (a b : VCFIndelAllele) : Bool := stringLt (operatorOut a) (operatorOut b)

/-- Length of the leading SoftClip of a cigar: the length of its first operation if that is a
SoftClip, and 0 otherwise. -/
def leadClip (c : Cigar) : Nat :=
  match c.head? with
  | some op => if op.2 = 'S' then op.1 else 0
  | none => 0

/-- Length of the trailing SoftClip of a cigar: the length of its last operation if that is a
SoftClip, and 0 otherwise. -/
def trailClip (c : Cigar) : Nat :=
  match c.getLast? with
  | some op => if op.2 = 'S' then op.1 else 0
  | none => 0

/-- Number of SoftClip operations of the cigar that are met after a read base has been
consumed, where `rp` read bases are consumed before the cigar (Match, Insertion and SoftClip
consume read bases). -/
def lateClips : Nat → Cigar → Nat
  | _, [] => 0
  | rp, (l, t) :: cs =>
    (if t = 'S' ∧ rp ≠ 0 then 1 else 0)
      + lateClips (rp + (if t = 'M' ∨ t = 'I' ∨ t = 'S' then l else 0)) cs

/-! # Proofs -/

/-! ## Printing of cigars is injective -/

theorem digitValue_digitChar (k : Nat) (h : k < 10) : digitValue (Nat.digitChar k) = k := by
  interval_cases k <;> rfl

theorem isDigit_digitChar (k : Nat) (h : k < 10) : (Nat.digitChar k).isDigit = true := by
  interval_cases k <;> rfl

theorem decimalValue_append (s : List Char) (c : Char) :
    decimalValue (s ++ [c]) = decimalValue s * 10 + digitValue c := by
  simp [decimalValue, List.foldl_append]

theorem toDigitsCore_spec (fuel : Nat) : ∀ (n : Nat) (ds : List Char), n < fuel →
    ∃ pre, Nat.toDigitsCore 10 fuel n ds = pre ++ ds ∧ decimalValue pre = n
      ∧ ∀ c ∈ pre, c.isDigit = true := by
  induction fuel with
  | zero => intro n ds h; omega
  | succ f ih =>
    intro n ds h
    simp only [Nat.toDigitsCore]
    by_cases h0 : n / 10 = 0
    · refine ⟨[Nat.digitChar (n % 10)], by simp [h0], ?_, ?_⟩
      · have h1 : n % 10 = n := by omega
        have h2 := digitValue_digitChar (n % 10) (Nat.mod_lt _ (by decide))
        simp only [decimalValue, List.foldl, Nat.zero_mul, Nat.zero_add, h2]
        exact h1
      · intro c hc
        simp at hc
        subst hc
        exact isDigit_digitChar _ (Nat.mod_lt _ (by decide))
    · obtain ⟨pre, hpre, hval, hdig⟩ := ih (n / 10) (Nat.digitChar (n % 10) :: ds) (by omega)
      refine ⟨pre ++ [Nat.digitChar (n % 10)], by simp [h0, hpre], ?_, ?_⟩
      · rw [decimalValue_append, hval, digitValue_digitChar _ (Nat.mod_lt _ (by decide))]
        omega
      · intro c hc
        rcases List.mem_append.1 hc with hc | hc
        · exact hdig c hc
        · simp at hc
          subst hc
          exact isDigit_digitChar _ (Nat.mod_lt _ (by decide))

theorem decimalValue_decimal (n : Nat) : decimalValue (decimal n) = n := by
  obtain ⟨pre, hpre, hval, -⟩ := toDigitsCore_spec (n + 1) n [] (by omega)
  simp only [decimal, Nat.toDigits, hpre, List.append_nil, hval]

theorem decimal_isDigit (n : Nat) : ∀ c ∈ decimal n, c.isDigit = true := by
  obtain ⟨pre, hpre, -, hdig⟩ := toDigitsCore_spec (n + 1) n [] (by omega)
  simpa only [decimal, Nat.toDigits, hpre, List.append_nil] using hdig

theorem decimal_injective {a b : Nat} (h : decimal a = decimal b) : a = b := by
  rw [← decimalValue_decimal a, ← decimalValue_decimal b, h]

/-- Two texts that agree, each a run of digits followed by a non-digit, split alike. -/
theorem digits_split {xs ys r s : List Char} {a b : Char}
    (hx : ∀ c ∈ xs, c.isDigit = true) (hy : ∀ c ∈ ys, c.isDigit = true)
    (ha : a.isDigit = false) (hb : b.isDigit = false)
    (h : xs ++ a :: r = ys ++ b :: s) : xs = ys ∧ a = b ∧ r = s := by
  induction xs generalizing ys with
  | nil =>
    cases ys with
    | nil => simpa using h
    | cons y ys =>
      simp at h
      have := hy y (by simp)
      rw [← h.1, ha] at this
      cases this
  | cons x xs ih =>
    cases ys with
    | nil =>
      simp at h
      have := hx x (by simp)
      rw [h.1, hb] at this
      cases this
    | cons y ys =>
      simp at h
      obtain ⟨h1, h2, h3⟩ := ih (fun c hc => hx c (by simp [hc])) (fun c hc => hy c (by simp [hc])) h.2
      exact ⟨by rw [h.1, h1], h2, h3⟩

theorem cigarString_injective : ∀ (c d : Cigar),
    (∀ op ∈ c, op.2.isDigit = false) → (∀ op ∈ d, op.2.isDigit = false) →
    cigarString c = cigarString d → c = d := by
  intro c
  induction c with
  | nil =>
    intro d _ _ h
    cases d with
    | nil => rfl
    | cons y ys => simp [cigarString] at h
  | cons x xs ih =>
    intro d hc hd h
    cases d with
    | nil => simp [cigarString] at h
    | cons y ys =>
      simp only [cigarString] at h
      obtain ⟨h1, h2, h3⟩ := digits_split (decimal_isDigit _) (decimal_isDigit _)
        (hc x (by simp)) (hd y (by simp)) h
      have := ih ys (fun op ho => hc op (by simp [ho])) (fun op ho => hd op (by simp [ho])) h3
      rw [this]
      congr 1
      exact Prod.ext (decimal_injective h1) h2

theorem bind_ok {α β : Type} {x : Except Fault α} {f : α → Except Fault β} {b : β} :
    (x >>= f) = .ok b ↔ ∃ a, x = .ok a ∧ f a = .ok b := by
  cases x with
  | error e => simp [bind, Except.bind]
  | ok a => simp [bind, Except.bind]

theorem bind_error {α β : Type} {x : Except Fault α} {f : α → Except Fault β} {e : Fault} :
    (x >>= f) = .error e ↔ x = .error e ∨ ∃ a, x = .ok a ∧ f a = .error e := by
  cases x with
  | error e => simp [bind, Except.bind]
  | ok a => simp [bind, Except.bind]

/-! ## Kinds written by the reconstruction -/


theorem OutKinds.append {c d : Cigar} (hc : OutKinds c) (hd : OutKinds d) : OutKinds (c ++ d) := by
  intro op h
  rcases List.mem_append.1 h with h | h
  · exact hc op h
  · exact hd op h

theorem OutKinds.nil : OutKinds [] := by
  intro op h; cases h

theorem indelKind_cases (a : VCFIndelAllele) : indelKind a = 'I' ∨ indelKind a = 'D' := by
  unfold indelKind; split <;> simp

theorem OutKinds.indel (n : Nat) (a : VCFIndelAllele) : OutKinds [(n, indelKind a)] := by
  intro op h
  simp at h
  subst h
  rcases indelKind_cases a with h | h <;> simp [h]

theorem OutKinds.match' (n : Nat) : OutKinds [(n, 'M')] := by
  intro op h; simp at h; subst h; simp

theorem OutKinds.clip (n : Nat) : OutKinds [(n, 'S')] := by
  intro op h; simp at h; subst h; simp

theorem extendBack_eq (c : Cigar) (n : Nat) :
    extendBack c n = [] ∧ c = [] ∨
      ∃ init op, c = init ++ [op] ∧ extendBack c n = init ++ [(op.1 + n, op.2)] := by
  rcases List.eq_nil_or_concat c with h | ⟨init, op, h⟩
  · subst h; left; simp [extendBack]
  · right
    refine ⟨init, op, by simpa using h, ?_⟩
    subst h
    simp [extendBack]

theorem OutKinds.extendBack {c : Cigar} (hc : OutKinds c) (n : Nat) : OutKinds (extendBack c n) := by
  rcases extendBack_eq c n with ⟨h, -⟩ | ⟨init, op, h1, h2⟩
  · rw [h]; exact OutKinds.nil
  · rw [h2]
    subst h1
    intro o ho
    rcases List.mem_append.1 ho with ho | ho
    · exact hc o (List.mem_append.2 (Or.inl ho))
    · simp at ho
      subst ho
      exact hc op (by simp)

theorem rebuild_kinds : ∀ (rest : List VCFIndelAllele) (c : Cigar) (last : VCFIndelAllele)
    (c' : Cigar) (e : Int), OutKinds c → rebuild c last rest = .ok (c', e) → OutKinds c' := by
  intro rest
  induction rest with
  | nil =>
    intro c last c' e hc h
    simp [rebuild] at h
    rw [← h.1]; exact hc
  | cons indel rest ih =>
    intro c last c' e hc h
    unfold rebuild at h
    split at h
    · cases h
    · split at h
      · exact ih _ _ _ _ (hc.extendBack _) h
      · split at h
        · refine ih _ _ _ _ (hc.append ?_) h
          exact (OutKinds.match' _).append (OutKinds.indel _ _)
        · exact ih _ _ _ _ hc h

theorem reconstruct_kinds (sb se : List Char) (al : Int) (indels : List VCFIndelAllele)
    (c : Cigar) (h : reconstruct sb se al indels = .ok c) : OutKinds c := by
  cases indels with
  | nil => simp [reconstruct] at h; subst h; exact OutKinds.nil
  | cons last rest =>
    simp only [reconstruct] at h
    rw [bind_ok] at h
    obtain ⟨⟨c2, e⟩, h1, h2⟩ := h
    have hc0 : OutKinds (if sb ≠ [] then [(sb.length, 'S')] else []) := by
      split
      · exact OutKinds.clip _
      · exact OutKinds.nil
    have hc2 : OutKinds c2 := by
      refine rebuild_kinds _ _ _ _ _ ?_ h1
      split
      · exact hc0.append ((OutKinds.match' _).append (OutKinds.indel _ _))
      · exact hc0.append (OutKinds.indel _ _)
    simp only at h2
    cases h2
    have hc3 : OutKinds (if e < al then c2 ++ [((al - e).toNat, 'M')] else c2) := by
      split
      · exact hc2.append (OutKinds.match' _)
      · exact hc2
    split
    · exact hc3.append (OutKinds.clip _)
    · exact hc3

theorem OutKinds.notDigit {c : Cigar} (h : OutKinds c) : ∀ op ∈ c, op.2.isDigit = false := by
  intro op ho
  rcases h op ho with h | h | h | h <;> rw [h] <;> rfl

theorem opKinds_notDigit {c : Cigar} (h : ∀ op ∈ c, op.2 ∈ opKinds) :
    ∀ op ∈ c, op.2.isDigit = false := by
  intro op ho
  have := h op ho
  simp [opKinds] at this
  rcases this with h | h | h | h | h | h <;> rw [h] <;> rfl

/-! ## The structure of one pass -/

/-- What `leftAlign` returns, phase by phase. -/
theorem leftAlign_ok_iff (read : List Char) (cigar : Cigar) (ref : List Char) (b : Bool)
    (c' : Cigar) :
    leftAlign read cigar ref = .ok (b, c') ↔
      ∃ st, extract read ref (Extraction.start read ref) cigar = .ok st ∧
        ((st.indels = [] ∧ b = false ∧ c' = cigar) ∨
         (st.indels ≠ [] ∧ ∃ shifted merged,
            leftShift read ref none st.indels = .ok shifted ∧
            rightShift read ref shifted = .ok merged ∧
            reconstruct st.softBegin st.softEnd st.sp merged = .ok c' ∧
            b = decide (cigarString c' ≠ cigarString cigar))) := by
  unfold leftAlign
  rw [bind_ok]
  constructor
  · rintro ⟨st, h1, h2⟩
    refine ⟨st, h1, ?_⟩
    by_cases hi : st.indels = []
    · left
      simp [hi] at h2
      exact ⟨hi, h2.1, h2.2.symm⟩
    · right
      simp only [hi, if_false] at h2
      rw [bind_ok] at h2
      obtain ⟨shifted, h3, h2⟩ := h2
      rw [bind_ok] at h2
      obtain ⟨merged, h4, h2⟩ := h2
      rw [bind_ok] at h2
      obtain ⟨nc, h5, h2⟩ := h2
      refine ⟨hi, shifted, merged, h3, h4, ?_⟩
      split at h2
      · cases h2
        refine ⟨h5, ?_⟩
        simp [*]
      · cases h2
        refine ⟨h5, ?_⟩
        simp [*]
  · rintro ⟨st, h1, h2⟩
    refine ⟨st, h1, ?_⟩
    rcases h2 with ⟨hi, hb, hc⟩ | ⟨hi, shifted, merged, h3, h4, h5, hb⟩
    · simp [hi, hb, hc]
    · simp only [hi, if_false]
      rw [bind_ok]
      refine ⟨shifted, h3, ?_⟩
      rw [bind_ok]
      refine ⟨merged, h4, ?_⟩
      rw [bind_ok]
      refine ⟨c', h5, ?_⟩
      by_cases hs : cigarString c' = cigarString cigar
      · simp [hs, hb]
      · simp [hs, hb]

/-- The flag is exact: "unchanged" is returned exactly when the cigar is left as it was. -/
theorem leftAlign_flag {read ref : List Char} {cigar c' : Cigar} {b : Bool}
    (hk : ∀ op ∈ cigar, op.2.isDigit = false)
    (h : leftAlign read cigar ref = .ok (b, c')) : b = false ↔ c' = cigar := by
  rw [leftAlign_ok_iff] at h
  obtain ⟨st, -, h⟩ := h
  rcases h with ⟨-, hb, hc⟩ | ⟨-, shifted, merged, -, -, h5, hb⟩
  · simp [hb, hc]
  · have hout := (reconstruct_kinds _ _ _ _ _ h5).notDigit
    rw [hb]
    constructor
    · intro h
      simp at h
      exact cigarString_injective _ _ hout hk h
    · intro h
      simp [h]

/-- The cigar left by a pass has no digit among its kinds when the input has none. -/
theorem leftAlign_notDigit {read ref : List Char} {cigar c' : Cigar} {b : Bool}
    (hk : ∀ op ∈ cigar, op.2.isDigit = false)
    (h : leftAlign read cigar ref = .ok (b, c')) : ∀ op ∈ c', op.2.isDigit = false := by
  rw [leftAlign_ok_iff] at h
  obtain ⟨st, -, h⟩ := h
  rcases h with ⟨-, hb, hc⟩ | ⟨-, shifted, merged, -, -, h5, hb⟩
  · rw [hc]; exact hk
  · exact (reconstruct_kinds _ _ _ _ _ h5).notDigit

/-- A pass that reports "unchanged" is a fixed point of the pass. -/
theorem leftAlign_fixed {read ref : List Char} {cigar c' : Cigar}
    (hk : ∀ op ∈ cigar, op.2.isDigit = false)
    (h : leftAlign read cigar ref = .ok (false, c')) :
    leftAlign read c' ref = .ok (false, c') := by
  have := (leftAlign_flag hk h).1 rfl
  rw [this] at h ⊢
  exact h

/-! ## The stabilization driver -/

/-- One iteration of the driver loop, case by case. -/
theorem stablyWhile_cases {read ref : List Char} {fuel : Nat} {m : Int} {c : Cigar}
    {ps : List Bool} {s : Stabilized} (hf : m.toNat ≤ fuel)
    (h : stablyWhile read ref fuel m c ps = .ok s) :
    ∃ b c', leftAlign read c ref = .ok (b, c') ∧
      ((b = false ∧ s = ⟨decide (0 < m), c', ps ++ [false]⟩) ∨
       (b = true ∧ m ≤ 1 ∧ s = ⟨false, c', ps ++ [true]⟩) ∨
       (b = true ∧ 1 < m ∧ ∃ n, fuel = n + 1 ∧ (m - 1).toNat ≤ n ∧
          stablyWhile read ref n (m - 1) c' (ps ++ [true]) = .ok s)) := by
  unfold stablyWhile at h
  rw [bind_ok] at h
  obtain ⟨⟨b, c'⟩, h1, h2⟩ := h
  refine ⟨b, c', h1, ?_⟩
  simp only at h2
  cases b with
  | false =>
    left
    simp at h2
    refine ⟨rfl, ?_⟩
    rw [← h2]
  | true =>
    right
    by_cases hm : m - 1 > 0
    · right
      simp only [if_true, hm] at h2
      cases fuel with
      | zero => omega
      | succ n =>
        simp only at h2
        exact ⟨rfl, by omega, n, rfl, by omega, h2⟩
    · left
      simp only [if_true, hm, if_false] at h2
      refine ⟨rfl, by omega, ?_⟩
      cases h2
      simp
      omega

/-- The driver loop stops because its condition is false: the last pass reported
"unchanged", or the iteration budget is used up and the result is `false`. -/
theorem stablyWhile_exit (read ref : List Char) : ∀ (fuel : Nat) (m : Int) (c : Cigar)
    (ps : List Bool) (s : Stabilized), m.toNat ≤ fuel →
    stablyWhile read ref fuel m c ps = .ok s →
    s.passes.getLast? = some false ∨ s.result = false := by
  intro fuel
  induction fuel with
  | zero =>
    intro m c ps s hf h
    obtain ⟨b, c', -, h | h | h⟩ := stablyWhile_cases hf h
    · left; rw [h.2]; simp
    · right; rw [h.2.2]
    · obtain ⟨-, -, n, hn, -⟩ := h; cases hn
  | succ k ih =>
    intro m c ps s hf h
    obtain ⟨b, c', -, h | h | h⟩ := stablyWhile_cases hf h
    · left; rw [h.2]; simp
    · right; rw [h.2.2]
    · obtain ⟨-, -, n, hn, hle, h⟩ := h
      cases hn
      exact ih _ _ _ _ hle h

/-- The flags recorded by the driver loop extend the flags recorded before it. -/
theorem stablyWhile_passes (read ref : List Char) : ∀ (fuel : Nat) (m : Int) (c : Cigar)
    (ps : List Bool) (s : Stabilized), m.toNat ≤ fuel →
    stablyWhile read ref fuel m c ps = .ok s →
    ∃ flags, s.passes = ps ++ flags ∧ flags.length ≤ max 1 m.toNat ∧
      (1 ≤ m → s.result = false → ∀ b ∈ flags, b = true) := by
  intro fuel
  induction fuel with
  | zero =>
    intro m c ps s hf h
    obtain ⟨b, c', -, h | h | h⟩ := stablyWhile_cases hf h
    · refine ⟨[false], by rw [h.2], by simp, ?_⟩
      intro hm hr
      rw [h.2] at hr
      simp at hr
      omega
    · refine ⟨[true], by rw [h.2.2], by simp, ?_⟩
      intro _ _ b hb
      simpa using hb
    · obtain ⟨-, -, n, hn, -⟩ := h; cases hn
  | succ k ih =>
    intro m c ps s hf h
    obtain ⟨b, c', -, h | h | h⟩ := stablyWhile_cases hf h
    · refine ⟨[false], by rw [h.2], by simp, ?_⟩
      intro hm hr
      rw [h.2] at hr
      simp at hr
      omega
    · refine ⟨[true], by rw [h.2.2], by simp, ?_⟩
      intro _ _ b hb
      simpa using hb
    · obtain ⟨-, hm, n, hn, hle, h⟩ := h
      cases hn
      obtain ⟨flags, h1, h2, h3⟩ := ih _ _ _ _ hle h
      refine ⟨true :: flags, by rw [h1]; simp, ?_, ?_⟩
      · simp only [List.length_cons]
        omega
      · intro _ hr b hb
        rcases List.mem_cons.1 hb with hb | hb
        · exact hb
        · exact h3 (by omega) hr b hb

/-- When the driver loop returns `true`, the cigar it leaves is a fixed point of the pass. -/
theorem stablyWhile_fixed (read ref : List Char) : ∀ (fuel : Nat) (m : Int) (c : Cigar)
    (ps : List Bool) (s : Stabilized), m.toNat ≤ fuel →
    (∀ op ∈ c, op.2.isDigit = false) →
    stablyWhile read ref fuel m c ps = .ok s → s.result = true →
    leftAlign read s.cigar ref = .ok (false, s.cigar) := by
  intro fuel
  induction fuel with
  | zero =>
    intro m c ps s hf hk h hr
    obtain ⟨b, c', hp, h | h | h⟩ := stablyWhile_cases hf h
    · rw [h.1] at hp
      rw [h.2]
      exact leftAlign_fixed hk hp
    · rw [h.2.2] at hr; cases hr
    · obtain ⟨-, -, n, hn, -⟩ := h; cases hn
  | succ k ih =>
    intro m c ps s hf hk h hr
    obtain ⟨b, c', hp, h | h | h⟩ := stablyWhile_cases hf h
    · rw [h.1] at hp
      rw [h.2]
      exact leftAlign_fixed hk hp
    · rw [h.2.2] at hr; cases hr
    · obtain ⟨-, -, n, hn, hle, h⟩ := h
      cases hn
      exact ih _ _ _ _ hle (leftAlign_notDigit hk hp) h hr

/-- While the passes keep reporting "changed", the driver loop runs `max 1 m` passes and
returns `false`. -/
theorem stablyWhile_keepsChanging (read ref : List Char) : ∀ (fuel : Nat) (m : Int) (c : Cigar)
    (ps : List Bool), m.toNat ≤ fuel →
    keepsChanging read ref (max 1 m.toNat) c = true →
    ∃ s, stablyWhile read ref fuel m c ps = .ok s ∧ s.result = false ∧
      s.passes = ps ++ List.replicate (max 1 m.toNat) true := by
  intro fuel
  induction fuel with
  | zero =>
    intro m c ps hf hk
    have hm : max 1 m.toNat = 1 := by omega
    rw [hm] at hk ⊢
    simp only [keepsChanging] at hk
    split at hk
    · rename_i c' hp
      unfold stablyWhile
      rw [hp]
      have : ¬ (m - 1 > 0) := by omega
      simp [bind, Except.bind, this]
      omega
    · cases hk
  | succ k ih =>
    intro m c ps hf hk
    by_cases hm : m ≤ 1
    · have hm1 : max 1 m.toNat = 1 := by omega
      rw [hm1] at hk ⊢
      simp only [keepsChanging] at hk
      split at hk
      · rename_i c' hp
        unfold stablyWhile
        rw [hp]
        have : ¬ (m - 1 > 0) := by omega
        simp [bind, Except.bind, this]
        omega
      · cases hk
    · have hm1 : max 1 m.toNat = max 1 (m - 1).toNat + 1 := by omega
      rw [hm1] at hk ⊢
      simp only [keepsChanging] at hk
      split at hk
      · rename_i c' hp
        obtain ⟨s, h1, h2, h3⟩ := ih (m - 1) c' (ps ++ [true]) (by omega) hk
        refine ⟨s, ?_, h2, ?_⟩
        · rw [stablyWhile, hp]
          have : m - 1 > 0 := by omega
          simp only [bind, Except.bind, if_true, this]
          exact h1
        · rw [h3, List.replicate_succ]
          simp
      · cases hk
/-! ## Passes without indels -/

theorem substr_ok {s : List Char} {pos : Int} {len : Nat} (h0 : 0 ≤ pos)
    (h1 : pos ≤ (s.length : Int)) : substr s pos len = .ok ((s.drop pos.toNat).take len) := by
  simp [substr, h0, h1]

/-- Without insertion and deletion the extraction finds no indel, provided no soft clip is
longer than the read. -/
theorem extract_noIndel (read ref : List Char) : ∀ (cigar : Cigar) (st : Extraction),
    st.indels = [] → st.alignmentAlignedBases = read →
    (∀ op ∈ cigar, op.2 ≠ 'I' ∧ op.2 ≠ 'D') →
    (∀ op ∈ cigar, op.2 = 'S' → op.1 ≤ read.length) →
    ∃ st', extract read ref st cigar = .ok st' ∧ st'.indels = [] := by
  intro cigar
  induction cigar with
  | nil => intro st hi _ _ _; exact ⟨st, rfl, hi⟩
  | cons op rest ih =>
    intro st hi ha hk hs
    have hop := hk op (by simp)
    have hrest := fun st1 h2 h3 => ih st1 h2 h3
      (fun o ho => hk o (List.mem_cons_of_mem _ ho)) (fun o ho => hs o (List.mem_cons_of_mem _ ho))
    have key : ∃ st1, extractOp read ref st op = .ok st1 ∧ st1.indels = [] ∧
        st1.alignmentAlignedBases = read := by
      unfold extractOp
      by_cases hM : op.2 = 'M'
      · simp [hM, hi, ha]
      · by_cases hS : op.2 = 'S'
        · have hl := hs op (by simp) hS
          by_cases hrp : st.rp = 0
          · simp [hS, hrp, substr, bind, Except.bind, hi, ha]
          · have h1 : (0 : Int) ≤ (read.length : Int) - (op.1 : Int) := by omega
            have h2 : (read.length : Int) - (op.1 : Int) ≤ (read.length : Int) := by omega
            simp [hS, hrp, ha, substr_ok h1 h2, bind, Except.bind, hi]
        · by_cases hH : op.2 = 'H'
          · simp [hH, hi, ha]
          · by_cases hN : op.2 = 'N'
            · simp [hN, hi, ha]
            · simp [hM, hS, hH, hN, hop.1, hop.2, hi, ha]
    obtain ⟨st1, h1, h2, h3⟩ := key
    obtain ⟨st', h4, h5⟩ := hrest st1 h2 h3
    refine ⟨st', ?_, h5⟩
    simp only [extract, h1, bind, Except.bind]
    exact h4
/-! ## Claims about the flag, passes without indels, and the driver -/

/-- C5: the flag returned by `leftAlign` is exact, and unchanged results are idempotent.
For every cigar whose kinds are among M, I, D, S, H, N, a pass that returns reports
"unchanged" (`false`) exactly when the cigar it leaves equals the input cigar pair for pair;
and when it reports "unchanged", a second pass on the result again reports "unchanged" and
leaves the same cigar. -/
theorem leftAlign_flag_exact (read ref : List Char) (cigar c' : Cigar) (b : Bool)
    (hk : ∀ op ∈ cigar, op.2 ∈ opKinds)
    (h : leftAlign read cigar ref = .ok (b, c')) :
    (b = false ↔ c' = cigar) ∧ (b = false → leftAlign read c' ref = .ok (false, c')) := by
  refine ⟨leftAlign_flag (opKinds_notDigit hk) h, ?_⟩
  intro hb
  subst hb
  exact leftAlign_fixed (opKinds_notDigit hk) h

/-- Instance of C5 on the read `AAAAAAAA` aligned as `4M1D4M` to `AAAATAAAA`. -/
theorem leftAlign_flag_exact_witness :
    (false = false ↔ [(4, 'M'), (1, 'D'), (4, 'M')] = ([(4, 'M'), (1, 'D'), (4, 'M')] : Cigar)) ∧
    (false = false → leftAlign "AAAAAAAA".toList [(4, 'M'), (1, 'D'), (4, 'M')] "AAAATAAAA".toList
      = .ok (false, [(4, 'M'), (1, 'D'), (4, 'M')])) :=
  leftAlign_flag_exact "AAAAAAAA".toList "AAAATAAAA".toList [(4, 'M'), (1, 'D'), (4, 'M')]
    [(4, 'M'), (1, 'D'), (4, 'M')] false (by decide) (by decide)

/-- C6 fails as stated: the cigar `1M5S` has no insertion and no deletion, yet on the read
`A` the pass does not return: the trailing soft clip is longer than the read and
`substr` throws. -/
theorem leftAlign_noIndel_counterexample :
    leftAlign "A".toList [(1, 'M'), (5, 'S')] "A".toList = .error .outOfRange := by
  decide

/-- C6, amended: for every cigar that contains no insertion and no deletion and whose soft
clips are no longer than the read, `leftAlign` returns `false` and leaves the cigar as it
was. -/
theorem leftAlign_noIndel (read ref : List Char) (cigar : Cigar)
    (hk : ∀ op ∈ cigar, op.2 ≠ 'I' ∧ op.2 ≠ 'D')
    (hs : ∀ op ∈ cigar, op.2 = 'S' → op.1 ≤ read.length) :
    leftAlign read cigar ref = .ok (false, cigar) := by
  obtain ⟨st, h1, h2⟩ := extract_noIndel read ref cigar (Extraction.start read ref) rfl rfl hk hs
  rw [leftAlign_ok_iff]
  exact ⟨st, h1, Or.inl ⟨h2, rfl, rfl⟩⟩

/-- Instance of the amended C6 on the cigar `1S2M1N1M1H` and the read `ACGT`. -/
theorem leftAlign_noIndel_witness :
    leftAlign "ACGT".toList [(1, 'S'), (2, 'M'), (1, 'N'), (1, 'M'), (1, 'H')] "CGAT".toList
      = .ok (false, [(1, 'S'), (2, 'M'), (1, 'N'), (1, 'M'), (1, 'H')]) :=
  leftAlign_noIndel "ACGT".toList "CGAT".toList [(1, 'S'), (2, 'M'), (1, 'N'), (1, 'M'), (1, 'H')]
    (by decide) (by decide)

/-- C7: success means a fixed point.  If `stablyLeftAlign` returns `true`, then `leftAlign`
applied to the cigar it leaves returns `false` and leaves that cigar identical (the kinds
of the input cigar are among M, I, D, S, H, N). -/
theorem stablyLeftAlign_true_fixed (read ref : List Char) (cigar : Cigar) (maxiterations : Int)
    (s : Stabilized) (hk : ∀ op ∈ cigar, op.2 ∈ opKinds)
    (h : stablyLeftAlign read ref cigar maxiterations = .ok s) (hr : s.result = true) :
    leftAlign read s.cigar ref = .ok (false, s.cigar) := by
  unfold stablyLeftAlign at h
  rw [bind_ok] at h
  obtain ⟨⟨b, c'⟩, h1, h2⟩ := h
  simp only at h2
  cases b with
  | false =>
    simp at h2
    rw [← h2]
    exact leftAlign_fixed (opKinds_notDigit hk) h1
  | true =>
    simp at h2
    exact stablyWhile_fixed read ref _ _ _ _ _ (le_refl _)
      (leftAlign_notDigit (opKinds_notDigit hk) h1) h2 hr

/-- Instance of C7: the read `A` aligned as `1M1D` to `AA` stabilizes at `1D1M`. -/
theorem stablyLeftAlign_true_fixed_witness :
    leftAlign "A".toList [(1, 'D'), (1, 'M')] "AA".toList = .ok (false, [(1, 'D'), (1, 'M')]) :=
  stablyLeftAlign_true_fixed "A".toList "AA".toList [(1, 'M'), (1, 'D')] 5
    ⟨true, [(1, 'D'), (1, 'M')], [true, false]⟩ (by decide) (by decide) rfl

/-- C8 fails as stated: with `maxiterations = 0` the second pass reports "unchanged" (the
flags are `true`, `false`) and yet `stablyLeftAlign` returns `false`. -/
theorem stablyLeftAlign_zero_counterexample :
    stablyLeftAlign "A".toList "AA".toList [(1, 'M'), (1, 'D')] 0
      = .ok ⟨false, [(1, 'D'), (1, 'M')], [true, false]⟩ := by
  decide

/-- C8, amended: for `maxiterations >= 1`, `stablyLeftAlign` returns `false` only if none of
the passes it made reported "unchanged", and whenever some pass it made reports "unchanged"
the result is `true`; for `maxiterations <= 0` the result is `true` exactly when the first
pass reports "unchanged" and no further pass is made. -/
theorem stablyLeftAlign_false_only (read ref : List Char) (cigar : Cigar) (maxiterations : Int)
    (s : Stabilized) (h : stablyLeftAlign read ref cigar maxiterations = .ok s) :
    (1 ≤ maxiterations → ((s.result = false → ∀ b ∈ s.passes, b = true) ∧
        ((∃ b ∈ s.passes, b = false) → s.result = true))) ∧
    (maxiterations ≤ 0 → (s.result = true ↔ s.passes = [false])) := by
  unfold stablyLeftAlign at h
  rw [bind_ok] at h
  obtain ⟨⟨b, c'⟩, h1, h2⟩ := h
  simp only at h2
  cases b with
  | false =>
    simp at h2
    subst h2
    simp
  | true =>
    simp at h2
    obtain ⟨flags, hp, -, hall⟩ := stablyWhile_passes read ref _ _ _ _ _ (le_refl _) h2
    have hexit := stablyWhile_exit read ref _ _ _ _ _ (le_refl _) h2
    have key : 1 ≤ maxiterations → s.result = false → ∀ b ∈ s.passes, b = true := by
      intro hm hr b hb
      rw [hp] at hb
      rcases List.mem_append.1 hb with hb | hb
      · simpa using hb
      · exact hall hm hr b hb
    refine ⟨fun hm => ⟨key hm, ?_⟩, ?_⟩
    · rintro ⟨b, hb, hf⟩
      by_contra hr
      have := key hm (by simpa using hr) b hb
      rw [hf] at this
      cases this
    · intro hm
      obtain ⟨b2, c2, -, hc | hc | hc⟩ := stablyWhile_cases (le_refl _) h2
      · rw [hc.2]
        simp
        omega
      · rw [hc.2.2]
        simp
      · omega

/-- Instance of the amended C8 with `maxiterations = 1`: the flags are `true`, `false` and
the result is `true`. -/
theorem stablyLeftAlign_false_only_witness :
    ((1 : Int) ≤ 1 → ((true = false → ∀ b ∈ [true, false], b = true) ∧
        ((∃ b ∈ [true, false], b = false) → true = true))) ∧
    ((1 : Int) ≤ 0 → (true = true ↔ [true, false] = [false])) :=
  stablyLeftAlign_false_only "A".toList "AA".toList [(1, 'M'), (1, 'D')] 1
    ⟨true, [(1, 'D'), (1, 'M')], [true, false]⟩ (by decide)

/-- C9: non-convergence is reported and bounded.  For `maxiterations >= 1`, if the first
`maxiterations + 1` passes all report "changed", then `stablyLeftAlign` returns after
exactly those `maxiterations + 1` passes, with result `false`; with `maxiterations = 1`
this is the case of the first two passes both reporting "changed". -/
theorem stablyLeftAlign_nonconvergence (read ref : List Char) (cigar : Cigar)
    (maxiterations : Int) (hm : 1 ≤ maxiterations)
    (hk : keepsChanging read ref (maxiterations.toNat + 1) cigar = true) :
    ∃ s, stablyLeftAlign read ref cigar maxiterations = .ok s ∧ s.result = false ∧
      s.passes = List.replicate (maxiterations.toNat + 1) true := by
  simp only [keepsChanging] at hk
  split at hk
  · rename_i c' hp
    have hmax : max 1 maxiterations.toNat = maxiterations.toNat := by omega
    rw [← hmax] at hk
    obtain ⟨s, h1, h2, h3⟩ :=
      stablyWhile_keepsChanging read ref maxiterations.toNat maxiterations c' [true] (le_refl _) hk
    refine ⟨s, ?_, h2, ?_⟩
    · unfold stablyLeftAlign
      rw [hp]
      simp only [bind, Except.bind]
      exact h1
    · rw [h3, hmax, List.replicate_succ]
      simp
  · cases hk

/-- Instance of C9 with `maxiterations = 1`: on the read `ACA` aligned as `1M1I1I` to `A`
the first two passes both report "changed". -/
theorem stablyLeftAlign_nonconvergence_witness :
    keepsChanging "ACA".toList "A".toList 2 [(1, 'M'), (1, 'I'), (1, 'I')] = true ∧
    ∃ s, stablyLeftAlign "ACA".toList "A".toList [(1, 'M'), (1, 'I'), (1, 'I')] 1 = .ok s ∧
      s.result = false ∧ s.passes = List.replicate 2 true :=
  ⟨by decide, stablyLeftAlign_nonconvergence "ACA".toList "A".toList
    [(1, 'M'), (1, 'I'), (1, 'I')] 1 (by decide) (by decide)⟩

/-- C10 fails as stated: with `maxiterations = 1` the call below makes two passes. -/
theorem stablyLeftAlign_passes_counterexample :
    ∃ s, stablyLeftAlign "A".toList "AA".toList [(1, 'M'), (1, 'D')] 1 = .ok s ∧
      ¬ (s.passes.length : Int) ≤ 1 :=
  ⟨⟨true, [(1, 'D'), (1, 'M')], [true, false]⟩, by decide, by decide⟩

/-- C10, amended: for `maxiterations >= 1`, one call of `stablyLeftAlign` makes at most
`maxiterations + 1` passes: the first one, and at most `maxiterations` in the loop. -/
theorem stablyLeftAlign_passes_bound (read ref : List Char) (cigar : Cigar)
    (maxiterations : Int) (s : Stabilized) (hm : 1 ≤ maxiterations)
    (h : stablyLeftAlign read ref cigar maxiterations = .ok s) :
    (s.passes.length : Int) ≤ maxiterations + 1 := by
  unfold stablyLeftAlign at h
  rw [bind_ok] at h
  obtain ⟨⟨b, c'⟩, h1, h2⟩ := h
  simp only at h2
  cases b with
  | false =>
    simp at h2
    subst h2
    simp
    omega
  | true =>
    simp at h2
    obtain ⟨flags, hp, hlen, -⟩ := stablyWhile_passes read ref _ _ _ _ _ (le_refl _) h2
    rw [hp]
    simp only [List.length_append, List.length_singleton]
    omega

/-- Instance of the amended C10: two passes with `maxiterations = 1`. -/
theorem stablyLeftAlign_passes_bound_witness :
    (([true, false] : List Bool).length : Int) ≤ 1 + 1 :=
  stablyLeftAlign_passes_bound "A".toList "AA".toList [(1, 'M'), (1, 'D')] 1
    ⟨true, [(1, 'D'), (1, 'M')], [true, false]⟩ (by decide) (by decide)
/-! ## The left-shift loops -/

theorem substr_eq_ok {s : List Char} {pos : Int} {len : Nat} {w : List Char}
    (h : substr s pos len = .ok w) :
    0 ≤ pos ∧ pos ≤ (s.length : Int) ∧ w = (s.drop pos.toNat).take len := by
  unfold substr at h
  split at h
  · rename_i hc
    cases h
    exact ⟨hc.1, hc.2, rfl⟩
  · cases h

theorem charAt_eq_ok {s : List Char} {pos : Int} {c : Char} (h : charAt s pos = .ok c) :
    0 ≤ pos ∧ s.get? pos.toNat = some c := by
  unfold charAt at h
  split at h
  · rename_i hc
    split at h
    · rename_i c' hg
      cases h
      exact ⟨hc, hg⟩
    · cases h
  · cases h

theorem leftBound_le {previous : Option VCFIndelAllele} {x : Int}
    (h : leftBound previous x = true) (h0 : 0 ≤ x) : boundOf previous ≤ x := by
  cases previous with
  | none => simpa [boundOf] using h0
  | some p =>
    simp only [leftBound, boundOf, indelEnd] at h ⊢
    cases hp : p.insertion <;> simp [hp] at h ⊢ <;> omega

/-- What the repeat-shift condition has checked when it holds. -/
theorem shiftCond_true {read ref : List Char} {previous : Option VCFIndelAllele}
    {a : VCFIndelAllele} {sp rsp : Int} (h : shiftCond read ref previous a sp rsp = .ok true) :
    0 ≤ sp ∧ 0 ≤ rsp ∧ substr ref sp a.length = .ok a.sequence ∧
      substr read rsp a.length = .ok a.sequence ∧ leftBound previous sp = true := by
  unfold shiftCond at h
  split at h
  · rename_i hc
    rw [bind_ok] at h
    obtain ⟨w, hw, h⟩ := h
    split at h
    · rename_i hw'
      rw [bind_ok] at h
      obtain ⟨v, hv, h⟩ := h
      split at h
      · rename_i hv'
        simp at h
        rw [← hw'] at hw
        rw [← hv'] at hv
        exact ⟨hc.1, hc.2, hw, hv, h⟩
      · simp at h
    · simp at h
  · simp at h

/-- What the flank-exchange condition has checked when it holds. -/
theorem exchangeCond_true {read ref : List Char} {previous : Option VCFIndelAllele}
    {a : VCFIndelAllele} (h : exchangeCond read ref previous a = .ok true) :
    0 ≤ a.position - 1 ∧ 0 ≤ a.readPosition - 1 ∧
      ∃ c, charAt read (a.readPosition - 1) = .ok c ∧ charAt ref (a.position - 1) = .ok c ∧
        charAt a.sequence ((a.sequence.length : Int) - 1) = .ok c ∧
        leftBound previous (a.position - 1) = true := by
  unfold exchangeCond at h
  simp only at h
  split at h
  · rename_i hc
    rw [bind_ok] at h
    obtain ⟨x, hx, h⟩ := h
    rw [bind_ok] at h
    obtain ⟨r, hr, h⟩ := h
    split at h
    · rename_i hxr
      rw [bind_ok] at h
      obtain ⟨e, he, h⟩ := h
      split at h
      · rename_i hxe
        simp at h
        refine ⟨hc.1, hc.2, x, hx, ?_, ?_, h⟩
        · rw [hxr]; exact hr
        · rw [hxe]; exact he
      · simp at h
    · simp at h
  · simp at h

/-- A property kept by every step of the repeat-shift `while` holds when it ends. -/
theorem shiftWhile_induct {read ref : List Char} {previous : Option VCFIndelAllele} {i : Nat}
    (P : VCFIndelAllele → Prop)
    (hstep : ∀ a, P a →
      shiftCond read ref previous a (a.position - i) (a.readPosition - i) = .ok true →
      P { a with position := a.position - i, readPosition := a.readPosition - i }) :
    ∀ (fuel : Nat) (a b : VCFIndelAllele), P a →
      shiftWhile read ref previous i fuel a = .ok b → P b := by
  intro fuel
  induction fuel with
  | zero =>
    intro a b ha h
    simp [shiftWhile] at h
    rw [← h]; exact ha
  | succ n ih =>
    intro a b ha h
    simp only [shiftWhile] at h
    rw [bind_ok] at h
    obtain ⟨go, hgo, h⟩ := h
    cases go with
    | false =>
      simp at h
      rw [← h]; exact ha
    | true =>
      simp only [if_true] at h
      exact ih _ _ (hstep a ha hgo) h

/-- The repeat-shift `while` ends because its condition is false. -/
theorem shiftWhile_exit {read ref : List Char} {previous : Option VCFIndelAllele} {i : Nat}
    (hi : 1 ≤ i) : ∀ (fuel : Nat) (a b : VCFIndelAllele), a.position.toNat ≤ fuel →
      shiftWhile read ref previous i fuel a = .ok b →
      shiftCond read ref previous b (b.position - i) (b.readPosition - i) = .ok false := by
  intro fuel
  induction fuel with
  | zero =>
    intro a b hf h
    simp [shiftWhile] at h
    subst h
    have : ¬ (a.position - (i : Int) ≥ 0 ∧ a.readPosition - (i : Int) ≥ 0) := by omega
    unfold shiftCond
    rw [if_neg this]
  | succ n ih =>
    intro a b hf h
    simp only [shiftWhile] at h
    rw [bind_ok] at h
    obtain ⟨go, hgo, h⟩ := h
    cases go with
    | false =>
      simp at h
      rw [← h]; exact hgo
    | true =>
      simp only [if_true] at h
      have := (shiftCond_true hgo).1
      exact ih _ _ (by simp only; omega) h

/-- The loop `do ++i while (...)` ends at the next divisor of `length`, or above `length`. -/
theorem nextStep_spec (length : Nat) : ∀ (fuel i : Nat), length ≤ i + fuel →
    i < nextStep length fuel i ∧
      (nextStep length fuel i ≤ length → length % nextStep length fuel i = 0) ∧
      ∀ k, i < k → k < nextStep length fuel i → length % k ≠ 0 := by
  intro fuel
  induction fuel with
  | zero =>
    intro i h
    simp only [nextStep]
    refine ⟨by omega, by omega, by omega⟩
  | succ n ih =>
    intro i h
    simp only [nextStep]
    split
    · rename_i hc
      obtain ⟨h1, h2, h3⟩ := ih (i + 1) (by omega)
      refine ⟨by omega, h2, ?_⟩
      intro k hk1 hk2
      by_cases hk : k = i + 1
      · rw [hk]; exact hc.2
      · exact h3 k (by omega) hk2
    · rename_i hc
      refine ⟨by omega, ?_, by omega⟩
      intro hle
      by_contra hne
      exact hc ⟨hle, hne⟩

/-- A property kept by every repeat-shift step, for every step size that is `1` or a
divisor of the length, holds at the end of the repeat shift. -/
theorem repeatShift_induct {read ref : List Char} {previous : Option VCFIndelAllele}
    (len : Nat) (P : VCFIndelAllele → Prop) (hlen : ∀ a, P a → a.length = len)
    (hstep : ∀ (i : Nat) (a : VCFIndelAllele), 1 ≤ i → i ≤ len → len % i = 0 → P a →
      shiftCond read ref previous a (a.position - i) (a.readPosition - i) = .ok true →
      P { a with position := a.position - i, readPosition := a.readPosition - i }) :
    ∀ (fuel i : Nat) (a b : VCFIndelAllele), 1 ≤ i → len % i = 0 ∨ len < i → P a →
      repeatShift read ref previous fuel i a = .ok b → P b := by
  intro fuel
  induction fuel with
  | zero =>
    intro i a b _ _ ha h
    simp [repeatShift] at h
    rw [← h]; exact ha
  | succ n ih =>
    intro i a b hi hdiv ha h
    simp only [repeatShift] at h
    split at h
    · rename_i hle
      rw [bind_ok] at h
      obtain ⟨a', ha', h⟩ := h
      have hl := hlen a ha
      rw [hl] at hle
      have hd : len % i = 0 := by
        rcases hdiv with hd | hd
        · exact hd
        · omega
      have hPa' : P a' :=
        shiftWhile_induct P (fun x hx hc => hstep i x hi hle hd hx hc) _ _ _ ha ha'
      obtain ⟨h1, h2, -⟩ := nextStep_spec a.length a.length i (by omega)
      rw [hl] at h1 h2 h
      refine ih _ _ _ (by omega) ?_ hPa' h
      by_cases hx : nextStep len len i ≤ len
      · exact Or.inl (h2 hx)
      · exact Or.inr (by omega)
    · simp at h
      rw [← h]; exact ha

/-- A property kept by every step of the flank-exchange `while` holds when it ends. -/
theorem exchangeWhile_induct {read ref : List Char} {previous : Option VCFIndelAllele}
    (P : VCFIndelAllele → Prop)
    (hstep : ∀ a a', P a → exchangeCond read ref previous a = .ok true →
      exchangeStep a = .ok a' → P a') :
    ∀ (fuel : Nat) (a b : VCFIndelAllele), P a →
      exchangeWhile read ref previous fuel a = .ok b → P b := by
  intro fuel
  induction fuel with
  | zero =>
    intro a b ha h
    simp [exchangeWhile] at h
    rw [← h]; exact ha
  | succ n ih =>
    intro a b ha h
    simp only [exchangeWhile] at h
    rw [bind_ok] at h
    obtain ⟨go, hgo, h⟩ := h
    cases go with
    | false =>
      simp at h
      rw [← h]; exact ha
    | true =>
      simp only [if_true] at h
      rw [bind_ok] at h
      obtain ⟨a', ha', h⟩ := h
      exact ih _ _ (hstep a a' ha hgo ha') h

/-- The flank-exchange step moves one base left and keeps the length of the sequence. -/
theorem exchangeStep_ok {a a' : VCFIndelAllele} (h : exchangeStep a = .ok a') :
    ∃ e, charAt a.sequence ((a.sequence.length : Int) - 1) = .ok e ∧
      a' = { a with sequence := e :: a.sequence.take (a.sequence.length - 1),
                    position := a.position - 1, readPosition := a.readPosition - 1 } := by
  unfold exchangeStep at h
  rw [bind_ok] at h
  obtain ⟨e, he, h⟩ := h
  rw [bind_ok] at h
  obtain ⟨front, hf, h⟩ := h
  obtain ⟨-, -, hf⟩ := substr_eq_ok hf
  simp at hf
  cases h
  exact ⟨e, he, by rw [hf]⟩

/-- The flank-exchange `while` ends because its condition is false. -/
theorem exchangeWhile_exit {read ref : List Char} {previous : Option VCFIndelAllele} :
    ∀ (fuel : Nat) (a b : VCFIndelAllele), a.position.toNat ≤ fuel →
      exchangeWhile read ref previous fuel a = .ok b →
      exchangeCond read ref previous b = .ok false := by
  intro fuel
  induction fuel with
  | zero =>
    intro a b hf h
    simp [exchangeWhile] at h
    subst h
    have : ¬ (a.position - 1 ≥ 0 ∧ a.readPosition - 1 ≥ 0) := by omega
    unfold exchangeCond
    simp only
    rw [if_neg this]
  | succ n ih =>
    intro a b hf h
    simp only [exchangeWhile] at h
    rw [bind_ok] at h
    obtain ⟨go, hgo, h⟩ := h
    cases go with
    | false =>
      simp at h
      rw [← h]; exact hgo
    | true =>
      simp only [if_true] at h
      rw [bind_ok] at h
      obtain ⟨a', ha', h⟩ := h
      obtain ⟨e, -, hs⟩ := exchangeStep_ok ha'
      have := (exchangeCond_true hgo).1
      refine ih _ _ ?_ h
      rw [hs]
      simp only
      omega
/-! ## Order of the indels -/

theorem Ordered.mono {e e' : Int} {l : List VCFIndelAllele} (h : Ordered e l) (he : e' ≤ e) :
    Ordered e' l := by
  cases l with
  | nil => trivial
  | cons a rest => exact ⟨le_trans he h.1, h.2⟩

theorem position_le_indelEnd (a : VCFIndelAllele) : a.position ≤ indelEnd a := by
  unfold indelEnd
  split <;> omega

theorem MovedLeft.indelEnd_le {a b : VCFIndelAllele} (h : MovedLeft a b) :
    indelEnd b ≤ indelEnd a := by
  obtain ⟨h1, h2, h3, -⟩ := h
  unfold indelEnd
  rw [h1, h2]
  split <;> omega

theorem MovedLeft.refl (a : VCFIndelAllele) : MovedLeft a a :=
  ⟨rfl, rfl, le_refl _, rfl, rfl⟩

theorem Ordered.append_iff (e : Int) (l : List VCFIndelAllele) (a : VCFIndelAllele) :
    Ordered e (l ++ [a]) ↔ Ordered e l ∧ endOf e l ≤ a.position := by
  induction l generalizing e with
  | nil => simp [Ordered, endOf]
  | cons b rest ih =>
    show Ordered e (b :: (rest ++ [a])) ↔ _
    simp only [Ordered, endOf]
    rw [ih]
    tauto

theorem endOf_append (e : Int) (l : List VCFIndelAllele) (a : VCFIndelAllele) :
    endOf e (l ++ [a]) = indelEnd a := by
  induction l generalizing e with
  | nil => simp [endOf]
  | cons b rest ih =>
    show endOf e (b :: (rest ++ [a])) = _
    simp only [endOf]
    exact ih _

theorem Ordered.le_endOf {e : Int} {l : List VCFIndelAllele} (h : Ordered e l) :
    e ≤ endOf e l := by
  induction l generalizing e with
  | nil => simp [endOf]
  | cons a rest ih =>
    simp only [endOf]
    exact le_trans (le_trans h.1 (position_le_indelEnd a)) (ih h.2)

/-- One shifted indel: it has moved left, not below zero and not below the end of the
previous indel. -/
theorem shiftIndel_moved {read ref : List Char} {previous : Option VCFIndelAllele}
    {a b : VCFIndelAllele} (h : shiftIndel read ref previous a = .ok b)
    (hb : boundOf previous ≤ a.position) (h0 : 0 ≤ a.position) :
    MovedLeft a b ∧ boundOf previous ≤ b.position ∧ 0 ≤ b.position := by
  unfold shiftIndel at h
  rw [bind_ok] at h
  obtain ⟨s, hs, h⟩ := h
  have h1 : MovedLeft a s ∧ boundOf previous ≤ s.position ∧ 0 ≤ s.position := by
    refine repeatShift_induct a.length
      (fun x => MovedLeft a x ∧ boundOf previous ≤ x.position ∧ 0 ≤ x.position)
      (fun x hx => hx.1.2.1) ?_ a.length 1 a s (le_refl _) (Or.inl (Nat.mod_one _))
      ⟨MovedLeft.refl a, hb, h0⟩ hs
    intro i x hi _ _ hx hc
    obtain ⟨⟨m1, m2, m3, m4, m5⟩, -, -⟩ := hx
    obtain ⟨c1, -, -, -, c5⟩ := shiftCond_true hc
    refine ⟨⟨m1, m2, ?_, ?_, m5⟩, leftBound_le c5 c1, c1⟩
    · simp only; omega
    · simp only; omega
  refine exchangeWhile_induct
    (fun x => MovedLeft a x ∧ boundOf previous ≤ x.position ∧ 0 ≤ x.position) ?_ _ s b h1 h
  intro x x' hx hc hst
  obtain ⟨⟨m1, m2, m3, m4, m5⟩, -, -⟩ := hx
  obtain ⟨c1, -, c, -, -, c4, c5⟩ := exchangeCond_true hc
  obtain ⟨e, he, hx'⟩ := exchangeStep_ok hst
  subst hx'
  obtain ⟨c6, c7⟩ := charAt_eq_ok c4
  have hlen : 1 ≤ x.sequence.length := by
    by_contra hn
    have : x.sequence.length = 0 := by omega
    rw [this] at c6
    omega
  refine ⟨⟨m1, m2, ?_, ?_, ?_⟩, leftBound_le c5 c1, c1⟩
  · simp only; omega
  · simp only; omega
  · simp only [List.length_cons, List.length_take]
    omega

/-- The left-shift phase keeps the indels in order. -/
theorem leftShift_ordered {read ref : List Char} : ∀ (indels : List VCFIndelAllele)
    (previous : Option VCFIndelAllele) (out : List VCFIndelAllele),
    leftShift read ref previous indels = .ok out → 0 ≤ boundOf previous →
    Ordered (boundOf previous) indels →
    Ordered (boundOf previous) out ∧ List.Forall₂ MovedLeft indels out := by
  intro indels
  induction indels with
  | nil =>
    intro previous out h _ _
    simp [leftShift] at h
    subst h
    exact ⟨trivial, List.Forall₂.nil⟩
  | cons a rest ih =>
    intro previous out h h0 ho
    simp only [leftShift] at h
    rw [bind_ok] at h
    obtain ⟨b, hb, h⟩ := h
    rw [bind_ok] at h
    obtain ⟨rest', hr, h⟩ := h
    cases h
    obtain ⟨hm, hbd, hpos⟩ := shiftIndel_moved hb ho.1 (le_trans h0 ho.1)
    have hend : 0 ≤ indelEnd b := le_trans hpos (position_le_indelEnd b)
    obtain ⟨h1, h2⟩ := ih (some b) rest' hr hend (ho.2.mono hm.indelEnd_le)
    exact ⟨⟨hbd, h1⟩, List.Forall₂.cons hm h2⟩

theorem endOf_movedLeft {l l' : List VCFIndelAllele} (h : List.Forall₂ MovedLeft l l') :
    ∀ e e', e' ≤ e → endOf e' l' ≤ endOf e l := by
  induction h with
  | nil => intro e e' he; simpa [endOf] using he
  | cons hab _ ih =>
    intro e e' _
    simp only [endOf]
    exact ih _ _ hab.indelEnd_le

/-- The tandem-repeat `while` never lowers `pos`. -/
theorem tandemWhile_ge {ref : List Char} {previous indel : VCFIndelAllele} :
    ∀ (fuel : Nat) (pos pos' : Int), tandemWhile ref previous indel fuel pos = .ok pos' →
      pos ≤ pos' := by
  intro fuel
  induction fuel with
  | zero =>
    intro pos pos' h
    simp [tandemWhile] at h
    omega
  | succ n ih =>
    intro pos pos' h
    simp only [tandemWhile] at h
    rw [bind_ok] at h
    obtain ⟨go, -, h⟩ := h
    cases go with
    | false => simp at h; omega
    | true =>
      simp only [if_true] at h
      have := ih _ _ h
      omega

/-- The right-shift step leaves `previous` as it is, or moves it right until its end
touches `indel`. -/
theorem rightShiftPair_spec {read ref : List Char} {previous indel p' : VCFIndelAllele}
    (h : rightShiftPair read ref previous indel = .ok p') :
    p' = previous ∨
      (mergeGuard previous indel = true ∧
       p' = { previous with position :=
          if indel.insertion then indel.position else indel.position - previous.length }) := by
  unfold rightShiftPair at h
  simp only at h
  split at h
  · rename_i hg
    rw [bind_ok] at h
    obtain ⟨homo, -, h⟩ := h
    cases homo with
    | true =>
      simp only [if_true] at h
      rw [bind_ok] at h
      obtain ⟨seq, -, h⟩ := h
      rw [bind_ok] at h
      obtain ⟨readseq, -, h⟩ := h
      rw [bind_ok] at h
      obtain ⟨p0, -, h⟩ := h
      rw [bind_ok] at h
      obtain ⟨s0, -, h⟩ := h
      split at h
      · rw [bind_ok] at h
        obtain ⟨h1, -, h⟩ := h
        cases h1 with
        | true =>
          simp only [if_true] at h
          rw [bind_ok] at h
          obtain ⟨h2, -, h⟩ := h
          cases h2 with
          | true =>
            simp only [if_true] at h
            cases h
            exact Or.inr ⟨hg, rfl⟩
          | false => simp at h; exact Or.inl h.symm
        | false => simp at h; exact Or.inl h.symm
      · simp at h; exact Or.inl h.symm
    | false =>
      simp only [Bool.false_eq_true, if_false] at h
      rw [bind_ok] at h
      obtain ⟨pos, hpos, h⟩ := h
      have := tandemWhile_ge _ _ _ hpos
      split at h
      · omega
      · simp at h; exact Or.inl h.symm
  · simp at h; exact Or.inl h.symm

theorem mergeGuard_true {previous indel : VCFIndelAllele}
    (h : mergeGuard previous indel = true) :
    previous.insertion = indel.insertion ∧
      ((previous.insertion = true ∧ previous.position < indel.position ∧
          previous.readPosition + previous.readPosition < indel.readPosition) ∨
       (previous.insertion = false ∧ previous.position + previous.length < indel.position ∧
          previous.readPosition < indel.readPosition)) := by
  unfold mergeGuard at h
  cases hp : previous.insertion <;> cases hi : indel.insertion <;> simp [hp, hi] at h ⊢ <;>
    exact h

/-- The right-shift step moves `previous` right, and not beyond `indel`. -/
theorem rightShiftPair_moved {read ref : List Char} {previous indel p' : VCFIndelAllele}
    (h : rightShiftPair read ref previous indel = .ok p') :
    MovedRight previous p' ∧ (indelEnd previous ≤ indel.position → indelEnd p' ≤ indel.position) := by
  rcases rightShiftPair_spec h with h | ⟨hg, h⟩
  · subst h
    exact ⟨⟨rfl, rfl, le_refl _, rfl, rfl⟩, fun h => h⟩
  · obtain ⟨hk, hg⟩ := mergeGuard_true hg
    subst h
    rcases hg with ⟨h1, h2, -⟩ | ⟨h1, h2, -⟩
    · rw [h1] at hk
      refine ⟨⟨rfl, rfl, ?_, rfl, rfl⟩, fun _ => ?_⟩
      · simp only [← hk, if_true]; omega
      · simp only [indelEnd, h1, ← hk, if_true]; omega
    · rw [h1] at hk
      refine ⟨⟨rfl, rfl, ?_, rfl, rfl⟩, fun _ => ?_⟩
      · simp only [← hk, Bool.false_eq_true, if_false]; omega
      · simp only [indelEnd, h1, ← hk, Bool.false_eq_true, if_false]; omega

theorem MovedRight.le_indelEnd {a b : VCFIndelAllele} (h : MovedRight a b) :
    indelEnd a ≤ indelEnd b := by
  obtain ⟨h1, h2, h3, -⟩ := h
  unfold indelEnd
  rw [h1, h2]
  split <;> omega

/-- The right-shift phase keeps the indels in order and does not touch the last one. -/
theorem rightShift_ordered {read ref : List Char} : ∀ (n : Nat) (l : List VCFIndelAllele)
    (e : Int) (l' : List VCFIndelAllele), l.length = n → rightShift read ref l = .ok l' →
    Ordered e l →
    Ordered e l' ∧ List.Forall₂ MovedRight l l' ∧ (l ≠ [] → endOf e l' = endOf e l) := by
  intro n
  induction n with
  | zero =>
    intro l e l' hn h _
    have : l = [] := List.length_eq_zero.1 hn
    subst this
    simp [rightShift] at h
    subst h
    exact ⟨trivial, List.Forall₂.nil, fun h => absurd rfl h⟩
  | succ k ih =>
    intro l e l' hn h ho
    match l, hn, h, ho with
    | [a], _, h, ho =>
      simp [rightShift] at h
      subst h
      exact ⟨ho, List.Forall₂.cons ⟨rfl, rfl, le_refl _, rfl, rfl⟩ List.Forall₂.nil, fun _ => rfl⟩
    | p :: a :: rest, hn, h, ho =>
      simp only [rightShift] at h
      rw [bind_ok] at h
      obtain ⟨p', hp, h⟩ := h
      rw [bind_ok] at h
      obtain ⟨rest', hr, h⟩ := h
      cases h
      obtain ⟨hm, hend⟩ := rightShiftPair_moved hp
      obtain ⟨h1, h2, h3⟩ := ih (a :: rest) (indelEnd p) rest' (by simpa using hn) hr ho.2
      cases rest' with
      | nil => cases h2
      | cons a' rest'' =>
        cases h2 with
        | cons haa hrr =>
          refine ⟨⟨le_trans ho.1 hm.2.2.1, ?_, h1.2⟩, List.Forall₂.cons hm (List.Forall₂.cons haa hrr), ?_⟩
          · exact le_trans (hend ho.2.1) haa.2.2.1
          · intro _
            have := h3 (by simp)
            simpa [endOf] using this
/-! ## Lengths through extraction and reconstruction -/

theorem kindTotal_append (t : Char) (c d : Cigar) :
    kindTotal t (c ++ d) = kindTotal t c + kindTotal t d := by
  induction c with
  | nil => simp [kindTotal]
  | cons x xs ih =>
    show kindTotal t (x :: (xs ++ d)) = _
    simp only [kindTotal, ih]
    omega

theorem indelTotal_append (ins : Bool) (l m : List VCFIndelAllele) :
    indelTotal ins (l ++ m) = indelTotal ins l + indelTotal ins m := by
  induction l with
  | nil => simp [indelTotal]
  | cons x xs ih =>
    show indelTotal ins (x :: (xs ++ m)) = _
    simp only [indelTotal, ih]
    omega

theorem Ordered.glue {e : Int} {l m : List VCFIndelAllele} (hl : Ordered e l)
    (hm : Ordered (endOf e l) m) : Ordered e (l ++ m) := by
  induction l generalizing e with
  | nil => simpa [endOf] using hm
  | cons a rest ih =>
    show Ordered e (a :: (rest ++ m))
    exact ⟨hl.1, ih hl.2 hm⟩

theorem endOf_append_list (e : Int) (l m : List VCFIndelAllele) :
    endOf e (l ++ m) = endOf (endOf e l) m := by
  induction l generalizing e with
  | nil => simp [endOf]
  | cons a rest ih =>
    show endOf e (a :: (rest ++ m)) = _
    simp only [endOf]
    exact ih _

theorem endOf_mono {e e' : Int} (l : List VCFIndelAllele) (h : e ≤ e') :
    endOf e l ≤ endOf e' l := by
  cases l with
  | nil => simpa [endOf] using h
  | cons a rest => simp [endOf]

/-- One extraction step: the cursors advance by the length of the operation, and an
insertion or deletion adds one indel at the reference cursor. -/
theorem extractOp_spec {read ref : List Char} {st st' : Extraction} {op : Nat × Char}
    (h : extractOp read ref st op = .ok st') :
    st'.sp = st.sp + (kindTotal 'M' [op] + kindTotal 'D' [op] + kindTotal 'N' [op] : Nat) ∧
    st'.rp = st.rp + (kindTotal 'M' [op] + kindTotal 'I' [op] + kindTotal 'S' [op] : Nat) ∧
    ∃ new, st'.indels = st.indels ++ new ∧
      indelTotal true new = kindTotal 'I' [op] ∧ indelTotal false new = kindTotal 'D' [op] ∧
      Ordered st.sp new ∧ endOf st.sp new ≤ st'.sp := by
  unfold extractOp at h
  simp only at h
  split at h
  · rename_i hM
    cases h
    refine ⟨by simp [kindTotal, hM], by simp [kindTotal, hM], [], by simp, ?_, ?_, trivial, ?_⟩
    · simp [kindTotal, hM, indelTotal]
    · simp [kindTotal, hM, indelTotal]
    · simp [endOf]
  · split at h
    · rename_i hM hD
      rw [bind_ok] at h
      obtain ⟨seq, -, h⟩ := h
      rw [bind_ok] at h
      obtain ⟨aab, -, h⟩ := h
      cases h
      refine ⟨by simp [kindTotal, hD], by simp [kindTotal, hD], [⟨false, op.1, st.sp, st.rp, seq⟩],
        rfl, ?_, ?_, ?_, ?_⟩
      · simp [kindTotal, hD, indelTotal]
      · simp [kindTotal, hD, indelTotal]
      · simp [Ordered]
      · simp [endOf, indelEnd]
    · split at h
      · rename_i hM hD hI
        rw [bind_ok] at h
        obtain ⟨seq, -, h⟩ := h
        rw [bind_ok] at h
        obtain ⟨ars, -, h⟩ := h
        cases h
        refine ⟨by simp [kindTotal, hI], by simp [kindTotal, hI],
          [⟨true, op.1, st.sp, st.rp, seq⟩], rfl, ?_, ?_, ?_, ?_⟩
        · simp [kindTotal, hI, indelTotal]
        · simp [kindTotal, hI, indelTotal]
        · simp [Ordered]
        · simp [endOf, indelEnd]
      · split at h
        · rename_i hM hD hI hS
          split at h
          · rw [bind_ok] at h
            obtain ⟨sb, -, h⟩ := h
            cases h
            refine ⟨by simp [kindTotal, hS], by simp [kindTotal, hS], [], by simp, ?_, ?_,
              trivial, ?_⟩
            · simp [kindTotal, hS, indelTotal]
            · simp [kindTotal, hS, indelTotal]
            · simp [endOf]
          · rw [bind_ok] at h
            obtain ⟨se, -, h⟩ := h
            cases h
            refine ⟨by simp [kindTotal, hS], by simp [kindTotal, hS], [], by simp, ?_, ?_,
              trivial, ?_⟩
            · simp [kindTotal, hS, indelTotal]
            · simp [kindTotal, hS, indelTotal]
            · simp [endOf]
        · split at h
          · rename_i hM hD hI hS hH
            cases h
            refine ⟨by simp [kindTotal, hH], by simp [kindTotal, hH], [], by simp, ?_, ?_,
              trivial, ?_⟩
            · simp [kindTotal, hH, indelTotal]
            · simp [kindTotal, hH, indelTotal]
            · simp [endOf]
          · split at h
            · rename_i hM hD hI hS hH hN
              cases h
              refine ⟨by simp [kindTotal, hN], by simp [kindTotal, hN], [], by simp, ?_, ?_,
                trivial, ?_⟩
              · simp [kindTotal, hN, indelTotal]
              · simp [kindTotal, hN, indelTotal]
              · simp [endOf]
            · rename_i hM hD hI hS hH hN
              cases h
              refine ⟨by simp [kindTotal, hM, hD, hN], by simp [kindTotal, hM, hI, hS], [],
                by simp, ?_, ?_, trivial, ?_⟩
              · simp [kindTotal, hI, indelTotal]
              · simp [kindTotal, hD, indelTotal]
              · simp [endOf]

theorem kindTotal_cons (t : Char) (op : Nat × Char) (c : Cigar) :
    kindTotal t (op :: c) = kindTotal t [op] + kindTotal t c := by
  simp [kindTotal]

/-- The extraction loop: cursors, and the indels it adds, in order from the start cursor. -/
theorem extract_spec {read ref : List Char} : ∀ (cigar : Cigar) (st st' : Extraction),
    extract read ref st cigar = .ok st' →
    st'.sp = st.sp + (kindTotal 'M' cigar + kindTotal 'D' cigar + kindTotal 'N' cigar : Nat) ∧
    st'.rp = st.rp + (kindTotal 'M' cigar + kindTotal 'I' cigar + kindTotal 'S' cigar : Nat) ∧
    ∃ new, st'.indels = st.indels ++ new ∧
      indelTotal true new = kindTotal 'I' cigar ∧ indelTotal false new = kindTotal 'D' cigar ∧
      Ordered st.sp new ∧ endOf st.sp new ≤ st'.sp := by
  intro cigar
  induction cigar with
  | nil =>
    intro st st' h
    simp [extract] at h
    subst h
    exact ⟨by simp [kindTotal], by simp [kindTotal], [], by simp, rfl, rfl, trivial,
      by simp [endOf]⟩
  | cons op rest ih =>
    intro st st' h
    simp only [extract] at h
    rw [bind_ok] at h
    obtain ⟨st1, h1, h⟩ := h
    obtain ⟨a1, a2, n1, a3, a4, a5, a6, a7⟩ := extractOp_spec h1
    obtain ⟨b1, b2, n2, b3, b4, b5, b6, b7⟩ := ih st1 st' h
    have hsp : st.sp ≤ st1.sp := by omega
    refine ⟨?_, ?_, n1 ++ n2, ?_, ?_, ?_, ?_, ?_⟩
    · rw [kindTotal_cons 'M', kindTotal_cons 'D', kindTotal_cons 'N']
      push_cast at a1 b1 ⊢
      omega
    · rw [kindTotal_cons 'M', kindTotal_cons 'I', kindTotal_cons 'S']
      push_cast at a2 b2 ⊢
      omega
    · rw [b3, a3, List.append_assoc]
    · rw [indelTotal_append, a4, b4]
      exact (kindTotal_cons 'I' op rest).symm
    · rw [indelTotal_append, a5, b5]
      exact (kindTotal_cons 'D' op rest).symm
    · exact a6.glue (b6.mono a7)
    · rw [endOf_append_list]
      exact le_trans (endOf_mono _ a7) b7
theorem kindTotal_indel (t : Char) (n : Nat) (a : VCFIndelAllele) :
    kindTotal t [(n, indelKind a)] =
      if t = 'I' then (if a.insertion then n else 0)
      else if t = 'D' then (if a.insertion then 0 else n) else 0 := by
  cases ha : a.insertion
  · by_cases h1 : t = 'I'
    · subst h1; simp [kindTotal, indelKind, ha]
    · by_cases h2 : t = 'D'
      · subst h2; simp [kindTotal, indelKind, ha]
      · simp [kindTotal, indelKind, ha, h1, h2, Ne.symm h2]
  · by_cases h1 : t = 'I'
    · subst h1; simp [kindTotal, indelKind, ha]
    · by_cases h2 : t = 'D'
      · subst h2; simp [kindTotal, indelKind, ha]
      · simp [kindTotal, indelKind, ha, h1, h2, Ne.symm h1]

theorem kindTotal_single (t : Char) (n : Nat) (k : Char) :
    kindTotal t [(n, k)] = if k = t then n else 0 := by
  simp [kindTotal]

theorem extendBack_concat (init : Cigar) (op : Nat × Char) (n : Nat) :
    extendBack (init ++ [op]) n = init ++ [(op.1 + n, op.2)] := by
  simp [extendBack]

/-- The reconstruction loop after the first indel: it fails only on an indel left of the end
of the one before; otherwise `lastend` is the end of the last indel, the Match length grows
by the gaps and the Insertion and Deletion lengths by the lengths of the indels. -/
theorem rebuild_spec : ∀ (rest : List VCFIndelAllele) (init : Cigar) (n : Nat)
    (last : VCFIndelAllele) (c' : Cigar) (e : Int),
    rebuild (init ++ [(n, indelKind last)]) last rest = .ok (c', e) →
    e = endOf (indelEnd last) rest ∧ Ordered (indelEnd last) rest ∧
    (kindTotal 'M' c' : Int) = kindTotal 'M' (init ++ [(n, indelKind last)])
        + (e - indelEnd last) - indelTotal false rest ∧
    kindTotal 'D' c' = kindTotal 'D' (init ++ [(n, indelKind last)]) + indelTotal false rest ∧
    kindTotal 'I' c' = kindTotal 'I' (init ++ [(n, indelKind last)]) + indelTotal true rest ∧
    ∀ t, t ≠ 'M' → t ≠ 'D' → t ≠ 'I' →
      kindTotal t c' = kindTotal t (init ++ [(n, indelKind last)]) := by
  intro rest
  induction rest with
  | nil =>
    intro init n last c' e h
    simp only [rebuild] at h
    cases h
    refine ⟨rfl, trivial, ?_, ?_, ?_, ?_⟩
    · simp [indelTotal]
    · simp [indelTotal]
    · simp [indelTotal]
    · intro t _ _ _; rfl
  | cons a rest ih =>
    intro init n last c' e h
    unfold rebuild at h
    split at h
    · cases h
    · rename_i h1
      split at h
      · rename_i h2
        rw [extendBack_concat] at h
        have hk : indelKind last = indelKind a := by simp [indelKind, h2.2]
        simp only at h
        rw [hk] at h
        obtain ⟨r1, r2, r3, r4, r5, r6⟩ := ih init (n + a.length) a c' e h
        refine ⟨r1, ⟨by omega, r2⟩, ?_, ?_, ?_, ?_⟩
        · rw [r3, hk]
          simp only [kindTotal_append, kindTotal_indel, indelTotal]
          obtain ⟨h2, h3⟩ := h2
          simp only [indelEnd, ← h3] at h2 ⊢
          by_cases ha : a.insertion = true
          · simp [ha] at h2 ⊢
            omega
          · simp [ha] at h2 ⊢
            omega
        · rw [r4, hk]
          simp only [kindTotal_append, kindTotal_indel, indelTotal]
          by_cases ha : a.insertion = true
          · simp [ha]
          · simp [ha]
            omega
        · rw [r5, hk]
          simp only [kindTotal_append, kindTotal_indel, indelTotal]
          by_cases ha : a.insertion = true
          · simp [ha]
            omega
          · simp [ha]
        · intro t t1 t2 t3
          rw [r6 t t1 t2 t3, hk]
          simp only [kindTotal_append, kindTotal_indel, t2, t3, if_false]
      · rename_i h2
        split at h
        · rename_i h3
          have hc : init ++ [(n, indelKind last)]
              ++ [((a.position - indelEnd last).toNat, 'M'), (a.length, indelKind a)]
              = (init ++ [(n, indelKind last)] ++ [((a.position - indelEnd last).toNat, 'M')])
                ++ [(a.length, indelKind a)] := by simp
          rw [hc] at h
          obtain ⟨r1, r2, r3, r4, r5, r6⟩ := ih _ a.length a c' e h
          refine ⟨r1, ⟨by omega, r2⟩, ?_, ?_, ?_, ?_⟩
          · rw [r3]
            simp only [kindTotal_append, kindTotal_indel]
            simp only [kindTotal_single, indelTotal]
            have hg : ((a.position - indelEnd last).toNat : Int) = a.position - indelEnd last := by
              omega
            generalize (a.position - indelEnd last).toNat = g at hg ⊢
            have hEa : indelEnd a = if a.insertion = true then a.position
                else a.position + a.length := rfl
            rw [hEa]
            by_cases ha : a.insertion = true
            · simp [ha]
              omega
            · simp [ha]
              omega
          · rw [r4]
            simp only [kindTotal_append, kindTotal_indel]
            simp only [kindTotal_single, indelTotal]
            by_cases ha : a.insertion = true
            · simp [ha]
            · simp [ha]
              omega
          · rw [r5]
            simp only [kindTotal_append, kindTotal_indel]
            simp only [kindTotal_single, indelTotal]
            by_cases ha : a.insertion = true
            · simp [ha]
              omega
            · simp [ha]
          · intro t t1 t2 t3
            rw [r6 t t1 t2 t3]
            simp only [kindTotal_append, kindTotal_indel]
            simp only [kindTotal_single, t2, t3, if_false, Ne.symm t1]
        · omega

/-- With the indels in order the reconstruction loop returns. -/
theorem rebuild_ok : ∀ (rest : List VCFIndelAllele) (c : Cigar) (last : VCFIndelAllele),
    Ordered (indelEnd last) rest → ∃ r, rebuild c last rest = .ok r := by
  intro rest
  induction rest with
  | nil => intro c last _; exact ⟨_, rfl⟩
  | cons a rest ih =>
    intro c last ho
    unfold rebuild
    have h1 : ¬ a.position < indelEnd last := by have := ho.1; omega
    rw [if_neg h1]
    split
    · exact ih _ _ ho.2
    · split
      · exact ih _ _ ho.2
      · exact ih _ _ ho.2

/-- With the indels in order the reconstruction returns. -/
theorem reconstruct_ok (sb se : List Char) (al e : Int) (indels : List VCFIndelAllele)
    (ho : Ordered e indels) : ∃ c, reconstruct sb se al indels = .ok c := by
  cases indels with
  | nil => exact ⟨_, rfl⟩
  | cons last rest =>
    simp only [reconstruct]
    obtain ⟨r, hr⟩ := rebuild_ok rest
      (if last.position > 0 then
        (if sb ≠ [] then [(sb.length, 'S')] else [])
          ++ [(last.position.toNat, 'M'), (last.length, indelKind last)]
      else (if sb ≠ [] then [(sb.length, 'S')] else []) ++ [(last.length, indelKind last)])
      last ho.2
    rw [hr]
    exact ⟨_, rfl⟩

/-- The reconstruction fails only by the "impossibility" exit. -/
theorem reconstruct_error (sb se : List Char) (al : Int) (indels : List VCFIndelAllele)
    (f : Fault) (h : reconstruct sb se al indels = .error f) : ¬ Ordered 0 indels := by
  intro ho
  obtain ⟨c, hc⟩ := reconstruct_ok sb se al 0 indels ho
  rw [hc] at h
  cases h

/-- Lengths written by the reconstruction. -/
theorem reconstruct_spec {sb se : List Char} {al : Int} {last : VCFIndelAllele}
    {rest : List VCFIndelAllele} {c : Cigar}
    (h : reconstruct sb se al (last :: rest) = .ok c) (h0 : 0 ≤ last.position)
    (hal : endOf 0 (last :: rest) ≤ al) :
    Ordered 0 (last :: rest) ∧
    (kindTotal 'M' c : Int) = al - indelTotal false (last :: rest) ∧
    kindTotal 'D' c = indelTotal false (last :: rest) ∧
    kindTotal 'I' c = indelTotal true (last :: rest) ∧
    kindTotal 'S' c = sb.length + se.length ∧
    ∀ t, t ≠ 'M' → t ≠ 'D' → t ≠ 'I' → t ≠ 'S' → kindTotal t c = 0 := by
  simp only [reconstruct] at h
  rw [bind_ok] at h
  obtain ⟨⟨c2, e⟩, h1, h2⟩ := h
  simp only at h2
  have hc0 : ∀ t, kindTotal t (if sb ≠ [] then [(sb.length, 'S')] else [])
      = if t = 'S' then sb.length else 0 := by
    intro t
    by_cases hsb : sb = []
    · simp [hsb, kindTotal]
    · simp only [hsb, ne_eq, not_false_eq_true, if_true, kindTotal_single]
      by_cases ht : t = 'S'
      · simp [ht]
      · simp [ht, Ne.symm ht]
  have hc1 : ∃ init, (if last.position > 0 then
        (if sb ≠ [] then [(sb.length, 'S')] else [])
          ++ [(last.position.toNat, 'M'), (last.length, indelKind last)]
      else (if sb ≠ [] then [(sb.length, 'S')] else []) ++ [(last.length, indelKind last)])
      = init ++ [(last.length, indelKind last)] ∧
      ∀ t, kindTotal t init = (if t = 'S' then sb.length else 0)
        + (if t = 'M' then last.position.toNat else 0) := by
    by_cases hp : last.position > 0
    · refine ⟨(if sb ≠ [] then [(sb.length, 'S')] else []) ++ [(last.position.toNat, 'M')], ?_, ?_⟩
      · simp [hp]
      · intro t
        rw [kindTotal_append, hc0, kindTotal_single]
        by_cases ht : t = 'M'
        · simp [ht]
        · simp [ht, Ne.symm ht]
    · refine ⟨(if sb ≠ [] then [(sb.length, 'S')] else []), ?_, ?_⟩
      · simp [hp]
      · intro t
        rw [hc0]
        have : last.position.toNat = 0 := by omega
        simp [this]
  obtain ⟨init, hinit, hk⟩ := hc1
  rw [hinit] at h1
  obtain ⟨r1, r2, r3, r4, r5, r6⟩ := rebuild_spec rest init last.length last c2 e h1
  have hend : e ≤ al := by rw [r1]; simpa [endOf] using hal
  have htail : ∀ t, kindTotal t c = kindTotal t c2
      + (if t = 'M' then (al - e).toNat else 0) + (if t = 'S' then se.length else 0) := by
    intro t
    cases h2
    by_cases hse : se = [] <;> by_cases hlt : e < al
    · simp only [hse, hlt, ne_eq, not_true_eq_false, if_false, if_true, kindTotal_append,
        kindTotal_single, List.length_nil]
      by_cases ht : t = 'M'
      · simp [ht]
      · simp [ht, Ne.symm ht]
    · have : (al - e).toNat = 0 := by omega
      simp [hse, hlt, this]
    · simp only [hse, hlt, ne_eq, not_false_eq_true, if_true, kindTotal_append,
        kindTotal_single]
      by_cases ht : t = 'M'
      · subst ht; simp
      · by_cases ht2 : t = 'S'
        · subst ht2; simp
        · simp [ht, ht2, Ne.symm ht, Ne.symm ht2]
    · have : (al - e).toNat = 0 := by omega
      simp only [hse, hlt, ne_eq, not_false_eq_true, if_true, if_false, kindTotal_append,
        kindTotal_single, this]
      by_cases ht2 : t = 'S'
      · subst ht2; simp
      · simp [ht2, Ne.symm ht2]
  refine ⟨⟨h0, r2⟩, ?_, ?_, ?_, ?_, ?_⟩
  · rw [htail]
    push_cast
    rw [r3, kindTotal_append, hk, kindTotal_indel]
    simp only [indelTotal, indelEnd]
    by_cases ha : last.insertion = true
    · simp [ha]
      omega
    · simp [ha]
      omega
  · rw [htail, r4, kindTotal_append, hk, kindTotal_indel]
    simp only [indelTotal]
    by_cases ha : last.insertion = true
    · simp [ha]
    · simp [ha]
  · rw [htail, r5, kindTotal_append, hk, kindTotal_indel]
    simp only [indelTotal]
    by_cases ha : last.insertion = true
    · simp [ha]
    · simp [ha]
  · rw [htail, r6 'S' (by decide) (by decide) (by decide), kindTotal_append, hk, kindTotal_indel]
    simp
  · intro t t1 t2 t3 t4
    rw [htail, r6 t t1 t2 t3, kindTotal_append, hk, kindTotal_indel]
    simp [t1, t2, t3, t4]
/-! ## Only the reconstruction can take the "impossibility" exit -/

theorem NoExit.ok {α : Type} (a : α) : NoExit (.ok a : Except Fault α) := by
  intro h; cases h

theorem NoExit.pure {α : Type} (a : α) : NoExit (pure a : Except Fault α) := by
  intro h; cases h

theorem NoExit.outOfRange {α : Type} : NoExit (.error .outOfRange : Except Fault α) := by
  intro h; cases h

theorem NoExit.emptyString {α : Type} : NoExit (.error .emptyString : Except Fault α) := by
  intro h; cases h

theorem NoExit.bind {α β : Type} {x : Except Fault α} {f : α → Except Fault β}
    (hx : NoExit x) (hf : ∀ a, NoExit (f a)) : NoExit (x >>= f) := by
  intro h
  rcases bind_error.1 h with h | ⟨a, -, h⟩
  · exact hx h
  · exact hf a h

theorem NoExit.substr (s : List Char) (pos : Int) (len : Nat) : NoExit (substr s pos len) := by
  unfold vcflib.substr
  split
  · exact NoExit.ok _
  · exact NoExit.outOfRange

theorem NoExit.charAt (s : List Char) (pos : Int) : NoExit (charAt s pos) := by
  unfold vcflib.charAt
  split
  · split
    · exact NoExit.ok _
    · exact NoExit.outOfRange
  · exact NoExit.outOfRange

theorem NoExit.strInsert (s : List Char) (pos : Int) (t : List Char) :
    NoExit (strInsert s pos t) := by
  unfold vcflib.strInsert
  split
  · exact NoExit.ok _
  · exact NoExit.outOfRange

theorem NoExit.FBhomopolymer (s : List Char) : NoExit (FBhomopolymer s) := by
  unfold vcflib.FBhomopolymer
  split
  · exact NoExit.emptyString
  · exact NoExit.ok _

theorem NoExit.extractOp (read ref : List Char) (st : Extraction) (op : Nat × Char) :
    NoExit (extractOp read ref st op) := by
  unfold vcflib.extractOp
  simp only
  split
  · exact NoExit.ok _
  split
  · exact NoExit.bind (NoExit.substr _ _ _)
      (fun _ => NoExit.bind (NoExit.strInsert _ _ _) (fun _ => NoExit.ok _))
  split
  · exact NoExit.bind (NoExit.substr _ _ _)
      (fun _ => NoExit.bind (NoExit.strInsert _ _ _) (fun _ => NoExit.ok _))
  split
  · split
    · exact NoExit.bind (NoExit.substr _ _ _) (fun _ => NoExit.ok _)
    · exact NoExit.bind (NoExit.substr _ _ _) (fun _ => NoExit.ok _)
  split
  · exact NoExit.ok _
  split
  · exact NoExit.ok _
  · exact NoExit.ok _

theorem NoExit.extract (read ref : List Char) : ∀ (cigar : Cigar) (st : Extraction),
    NoExit (extract read ref st cigar) := by
  intro cigar
  induction cigar with
  | nil => intro st; exact NoExit.ok _
  | cons op rest ih =>
    intro st
    simp only [vcflib.extract]
    exact NoExit.bind (NoExit.extractOp _ _ _ _) (fun a => ih a)

theorem NoExit.shiftCond (read ref : List Char) (previous : Option VCFIndelAllele)
    (a : VCFIndelAllele) (sp rsp : Int) : NoExit (shiftCond read ref previous a sp rsp) := by
  unfold vcflib.shiftCond
  split
  · refine NoExit.bind (NoExit.substr _ _ _) (fun w => ?_)
    split
    · refine NoExit.bind (NoExit.substr _ _ _) (fun v => ?_)
      split
      · exact NoExit.ok _
      · exact NoExit.ok _
    · exact NoExit.ok _
  · exact NoExit.ok _

theorem NoExit.shiftWhile (read ref : List Char) (previous : Option VCFIndelAllele) (i : Nat) :
    ∀ (fuel : Nat) (a : VCFIndelAllele), NoExit (shiftWhile read ref previous i fuel a) := by
  intro fuel
  induction fuel with
  | zero => intro a; exact NoExit.ok _
  | succ n ih =>
    intro a
    simp only [vcflib.shiftWhile]
    refine NoExit.bind (NoExit.shiftCond _ _ _ _ _ _) (fun go => ?_)
    split
    · exact ih _
    · exact NoExit.ok _

theorem NoExit.repeatShift (read ref : List Char) (previous : Option VCFIndelAllele) :
    ∀ (fuel i : Nat) (a : VCFIndelAllele), NoExit (repeatShift read ref previous fuel i a) := by
  intro fuel
  induction fuel with
  | zero => intro i a; exact NoExit.ok _
  | succ n ih =>
    intro i a
    simp only [vcflib.repeatShift]
    split
    · exact NoExit.bind (NoExit.shiftWhile _ _ _ _ _ _) (fun a' => ih _ _)
    · exact NoExit.ok _

theorem NoExit.exchangeCond (read ref : List Char) (previous : Option VCFIndelAllele)
    (a : VCFIndelAllele) : NoExit (exchangeCond read ref previous a) := by
  unfold vcflib.exchangeCond
  simp only
  split
  · refine NoExit.bind (NoExit.charAt _ _) (fun x => ?_)
    refine NoExit.bind (NoExit.charAt _ _) (fun r => ?_)
    split
    · refine NoExit.bind (NoExit.charAt _ _) (fun e => ?_)
      split
      · exact NoExit.ok _
      · exact NoExit.ok _
    · exact NoExit.ok _
  · exact NoExit.ok _

theorem NoExit.exchangeStep (a : VCFIndelAllele) : NoExit (exchangeStep a) := by
  unfold vcflib.exchangeStep
  exact NoExit.bind (NoExit.charAt _ _)
    (fun _ => NoExit.bind (NoExit.substr _ _ _) (fun _ => NoExit.ok _))

theorem NoExit.exchangeWhile (read ref : List Char) (previous : Option VCFIndelAllele) :
    ∀ (fuel : Nat) (a : VCFIndelAllele), NoExit (exchangeWhile read ref previous fuel a) := by
  intro fuel
  induction fuel with
  | zero => intro a; exact NoExit.ok _
  | succ n ih =>
    intro a
    simp only [vcflib.exchangeWhile]
    refine NoExit.bind (NoExit.exchangeCond _ _ _ _) (fun go => ?_)
    split
    · exact NoExit.bind (NoExit.exchangeStep _) (fun a' => ih _)
    · exact NoExit.ok _

theorem NoExit.shiftIndel (read ref : List Char) (previous : Option VCFIndelAllele)
    (a : VCFIndelAllele) : NoExit (shiftIndel read ref previous a) := by
  unfold vcflib.shiftIndel
  exact NoExit.bind (NoExit.repeatShift _ _ _ _ _ _) (fun s => NoExit.exchangeWhile _ _ _ _ _)

theorem NoExit.leftShift (read ref : List Char) : ∀ (indels : List VCFIndelAllele)
    (previous : Option VCFIndelAllele), NoExit (leftShift read ref previous indels) := by
  intro indels
  induction indels with
  | nil => intro previous; exact NoExit.ok _
  | cons a rest ih =>
    intro previous
    simp only [vcflib.leftShift]
    refine NoExit.bind (NoExit.shiftIndel _ _ _ _) (fun a' => ?_)
    exact NoExit.bind (ih _) (fun r => NoExit.ok _)

theorem NoExit.tandemCond (ref : List Char) (previous indel : VCFIndelAllele) (pos : Int) :
    NoExit (tandemCond ref previous indel pos) := by
  unfold vcflib.tandemCond
  split
  · split
    · exact NoExit.bind (NoExit.substr _ _ _) (fun _ => NoExit.ok _)
    · exact NoExit.ok _
  · exact NoExit.ok _

theorem NoExit.tandemWhile (ref : List Char) (previous indel : VCFIndelAllele) :
    ∀ (fuel : Nat) (pos : Int), NoExit (tandemWhile ref previous indel fuel pos) := by
  intro fuel
  induction fuel with
  | zero => intro pos; exact NoExit.ok _
  | succ n ih =>
    intro pos
    simp only [vcflib.tandemWhile]
    refine NoExit.bind (NoExit.tandemCond _ _ _ _) (fun go => ?_)
    split
    · exact ih _
    · exact NoExit.ok _

theorem NoExit.rightShiftPair (read ref : List Char) (previous indel : VCFIndelAllele) :
    NoExit (rightShiftPair read ref previous indel) := by
  unfold vcflib.rightShiftPair
  simp only
  split
  · refine NoExit.bind (NoExit.FBhomopolymer _) (fun homo => ?_)
    split
    · refine NoExit.bind (NoExit.substr _ _ _) (fun seq => ?_)
      refine NoExit.bind (NoExit.substr _ _ _) (fun readseq => ?_)
      refine NoExit.bind (NoExit.charAt _ _) (fun p0 => ?_)
      refine NoExit.bind (NoExit.charAt _ _) (fun s0 => ?_)
      split
      · refine NoExit.bind (NoExit.FBhomopolymer _) (fun h1 => ?_)
        split
        · refine NoExit.bind (NoExit.FBhomopolymer _) (fun h2 => ?_)
          split
          · exact NoExit.ok _
          · exact NoExit.ok _
        · exact NoExit.ok _
      · exact NoExit.ok _
    · refine NoExit.bind (NoExit.tandemWhile _ _ _ _ _) (fun pos => ?_)
      split
      · exact NoExit.ok _
      · exact NoExit.ok _
  · exact NoExit.ok _

theorem NoExit.rightShift (read ref : List Char) : ∀ (n : Nat) (l : List VCFIndelAllele),
    l.length = n → NoExit (rightShift read ref l) := by
  intro n
  induction n with
  | zero =>
    intro l hl
    have : l = [] := List.length_eq_zero.1 hl
    subst this
    exact NoExit.ok _
  | succ k ih =>
    intro l hl
    match l, hl with
    | [a], _ => exact NoExit.ok _
    | p :: a :: rest, hl =>
      simp only [vcflib.rightShift]
      refine NoExit.bind (NoExit.rightShiftPair _ _ _ _) (fun p' => ?_)
      exact NoExit.bind (ih (a :: rest) (by simpa using hl)) (fun r => NoExit.ok _)
/-! ## Order preservation -/

/-- The indels after extraction, after the left shift and after the right shift lie in
order, and the last one ends at or before the aligned length. -/
theorem phases_ordered {read ref : List Char} {cigar : Cigar} {st : Extraction}
    {shifted merged : List VCFIndelAllele}
    (h1 : extract read ref (Extraction.start read ref) cigar = .ok st)
    (h2 : leftShift read ref none st.indels = .ok shifted)
    (h3 : rightShift read ref shifted = .ok merged) :
    Ordered 0 st.indels ∧ Ordered 0 shifted ∧ Ordered 0 merged ∧
      List.Forall₂ MovedLeft st.indels shifted ∧ List.Forall₂ MovedRight shifted merged ∧
      endOf 0 merged ≤ st.sp := by
  obtain ⟨-, -, new, e3, -, -, e6, e7⟩ := extract_spec cigar _ st h1
  have hnew : st.indels = new := by rw [e3]; rfl
  rw [← hnew] at e6 e7
  have hs : (Extraction.start read ref).sp = 0 := rfl
  rw [hs] at e6 e7
  obtain ⟨l1, l2⟩ := leftShift_ordered st.indels none shifted h2 (le_refl _) e6
  have l1' : Ordered 0 shifted := l1
  obtain ⟨r1, r2, r3⟩ := rightShift_ordered shifted.length shifted 0 merged rfl h3 l1'
  refine ⟨e6, l1', r1, l2, r2, ?_⟩
  by_cases hn : shifted = []
  · subst hn
    have hm : merged = [] := List.forall₂_nil_left_iff.1 r2
    subst hm
    simp only [endOf]
    have := e6.le_endOf
    omega
  · rw [r3 hn]
    exact le_trans (endOf_movedLeft l2 0 0 (le_refl _)) e7

/-- C4: order preservation.  For every input, after the left-shift phase and after the
right-shift merge phase the position of every indel is at least the end of the indel before
it (its position for an insertion, its position plus its length for a deletion), and
`leftAlign` never takes the "impossibility" exit of the reconstruction. -/
theorem leftAlign_order_preserved (read ref : List Char) (cigar : Cigar) :
    leftAlign read cigar ref ≠ .error .impossibility ∧
    ∀ (st : Extraction) (shifted merged : List VCFIndelAllele),
      extract read ref (Extraction.start read ref) cigar = .ok st →
      leftShift read ref none st.indels = .ok shifted →
      rightShift read ref shifted = .ok merged →
      Ordered 0 shifted ∧ Ordered 0 merged := by
  constructor
  · intro h
    unfold leftAlign at h
    rcases bind_error.1 h with h | ⟨st, h1, h⟩
    · exact NoExit.extract _ _ _ _ h
    · split at h
      · cases h
      · rcases bind_error.1 h with h | ⟨shifted, h2, h⟩
        · exact NoExit.leftShift _ _ _ _ h
        · rcases bind_error.1 h with h | ⟨merged, h3, h⟩
          · exact NoExit.rightShift _ _ _ _ rfl h
          · rcases bind_error.1 h with h | ⟨c, -, h⟩
            · exact reconstruct_error _ _ _ _ _ h (phases_ordered h1 h2 h3).2.2.1
            · split at h <;> cases h
  · intro st shifted merged h1 h2 h3
    exact ⟨(phases_ordered h1 h2 h3).2.1, (phases_ordered h1 h2 h3).2.2.1⟩
/-! ## Soft clips -/

theorem extract_append {read ref : List Char} : ∀ (c d : Cigar) (st : Extraction),
    extract read ref st (c ++ d) = (extract read ref st c >>= fun s => extract read ref s d) := by
  intro c
  induction c with
  | nil => intro d st; rfl
  | cons op rest ih =>
    intro d st
    show extract read ref st (op :: (rest ++ d)) = _
    simp only [extract]
    cases h : extractOp read ref st op with
    | error e => rfl
    | ok s => simp only [bind, Except.bind]; exact ih d s

theorem kindTotal_eq_zero {t : Char} {c : Cigar} (h : ∀ op ∈ c, op.2 ≠ t) : kindTotal t c = 0 := by
  induction c with
  | nil => rfl
  | cons op rest ih =>
    simp only [kindTotal]
    rw [if_neg (h op (by simp)), ih (fun o ho => h o (List.mem_cons_of_mem _ ho))]

theorem strInsert_length {s t r : List Char} {pos : Int} (h : strInsert s pos t = .ok r) :
    r.length = s.length + t.length := by
  unfold strInsert at h
  split at h
  · rename_i hc
    cases h
    simp only [List.length_append, List.length_take, List.length_drop]
    omega
  · cases h

/-- An operation other than a soft clip leaves the captured soft clips as they are and
does not shorten the padded read. -/
theorem extractOp_noClip {read ref : List Char} {st st' : Extraction} {op : Nat × Char}
    (hS : op.2 ≠ 'S') (h : extractOp read ref st op = .ok st') :
    st'.softBegin = st.softBegin ∧ st'.softEnd = st.softEnd ∧
      st.alignmentAlignedBases.length ≤ st'.alignmentAlignedBases.length := by
  unfold extractOp at h
  simp only at h
  split at h
  · cases h; exact ⟨rfl, rfl, le_refl _⟩
  split at h
  · rw [bind_ok] at h
    obtain ⟨seq, -, h⟩ := h
    rw [bind_ok] at h
    obtain ⟨aab, ha, h⟩ := h
    cases h
    refine ⟨rfl, rfl, ?_⟩
    simp only [strInsert_length ha]
    omega
  split at h
  · rw [bind_ok] at h
    obtain ⟨seq, -, h⟩ := h
    rw [bind_ok] at h
    obtain ⟨ars, -, h⟩ := h
    cases h
    exact ⟨rfl, rfl, le_refl _⟩
  split at h
  · cases h; exact ⟨rfl, rfl, le_refl _⟩
  split at h
  · cases h; exact ⟨rfl, rfl, le_refl _⟩
  · cases h; exact ⟨rfl, rfl, le_refl _⟩

theorem extract_noClip {read ref : List Char} : ∀ (c : Cigar) (st st' : Extraction),
    (∀ op ∈ c, op.2 ≠ 'S') → extract read ref st c = .ok st' →
    st'.softBegin = st.softBegin ∧ st'.softEnd = st.softEnd ∧
      st.alignmentAlignedBases.length ≤ st'.alignmentAlignedBases.length := by
  intro c
  induction c with
  | nil =>
    intro st st' _ h
    simp [extract] at h
    subst h
    exact ⟨rfl, rfl, le_refl _⟩
  | cons op rest ih =>
    intro st st' hS h
    simp only [extract] at h
    rw [bind_ok] at h
    obtain ⟨s1, h1, h⟩ := h
    obtain ⟨a1, a2, a3⟩ := extractOp_noClip (hS op (by simp)) h1
    obtain ⟨b1, b2, b3⟩ := ih s1 st' (fun o ho => hS o (List.mem_cons_of_mem _ ho)) h
    exact ⟨by rw [b1, a1], by rw [b2, a2], le_trans a3 b3⟩

/-- The extraction step for a soft clip. -/
theorem extractOp_clip (read ref : List Char) (st : Extraction) (l : Nat) :
    extractOp read ref st (l, 'S') =
      (if st.rp = 0 then
        (substr st.alignmentAlignedBases 0 l >>= fun sb =>
          .ok { st with
            alignedReferenceSequence := List.replicate l '*' ++ st.alignedReferenceSequence
            softBegin := sb
            rp := st.rp + l })
      else
        (substr st.alignmentAlignedBases ((st.alignmentAlignedBases.length : Int) - l) l
          >>= fun se =>
          .ok { st with
            alignedReferenceSequence := st.alignedReferenceSequence ++ List.replicate l '*'
            softEnd := se
            rp := st.rp + l })) := by
  rfl

/-- With soft clips only at the ends of a cigar that fits the read, the captured soft clips
have the lengths of the soft clips of the cigar. -/
theorem extract_clips {read ref : List Char} {cigar : Cigar} {st : Extraction}
    (hshape : ClipsAtEnds cigar) (hfit : readLength cigar ≤ read.length)
    (h : extract read ref (Extraction.start read ref) cigar = .ok st) :
    st.softBegin.length + st.softEnd.length = kindTotal 'S' cigar := by
  obtain ⟨lead, body, trail, hc, hlead, hbody, htrail⟩ := hshape
  subst hc
  rw [extract_append, bind_ok] at h
  obtain ⟨s2, h12, h3⟩ := h
  rw [extract_append, bind_ok] at h12
  obtain ⟨s1, h1, h2⟩ := h12
  have hfit' : kindTotal 'S' lead + kindTotal 'S' trail ≤ read.length := by
    unfold readLength at hfit
    simp only [kindTotal_append] at hfit
    omega
  have hb0 : kindTotal 'S' body = 0 := kindTotal_eq_zero hbody
  -- the leading clip
  have hs1 : s1.softBegin.length = kindTotal 'S' lead ∧ s1.softEnd = [] ∧
      s1.alignmentAlignedBases = read ∧ s1.rp = (kindTotal 'S' lead : Nat) := by
    rcases hlead with hl | ⟨n, hl⟩
    · subst hl
      simp [extract] at h1
      subst h1
      simp [Extraction.start, kindTotal]
    · subst hl
      simp only [extract, extractOp_clip, Extraction.start] at h1
      simp [substr, bind, Except.bind] at h1
      subst h1
      simp only [kindTotal] at hfit' ⊢
      simp at hfit' ⊢
      omega
  obtain ⟨a1, a2, a3, a4⟩ := hs1
  obtain ⟨b1, b2, b3⟩ := extract_noClip body s1 s2 hbody h2
  obtain ⟨-, b4, -⟩ := extract_spec body s1 s2 h2
  rw [a3] at b3
  simp only [kindTotal_append, hb0]
  rcases htrail with ht | ⟨k, ht⟩
  · subst ht
    simp [extract] at h3
    subst h3
    rw [b1, b2, a2, a1]
    simp [kindTotal]
  · subst ht
    have hk : k ≤ read.length := by
      simp only [kindTotal] at hfit'
      simp at hfit'
      omega
    simp only [extract, extractOp_clip] at h3
    simp only [bind_ok] at h3
    obtain ⟨s3, h3, h4⟩ := h3
    simp at h4
    subst h4
    by_cases hrp : s2.rp = 0
    · simp only [hrp, if_true] at h3
      simp [substr, bind, Except.bind] at h3
      subst h3
      have hl0 : kindTotal 'S' lead = 0 := by omega
      simp only [b2, a2, List.length_take, List.length_nil, kindTotal, hl0]
      simp
      omega
    · simp only [hrp, if_false] at h3
      rw [bind_ok] at h3
      obtain ⟨se, hse, h3⟩ := h3
      obtain ⟨c1, c2, c3⟩ := substr_eq_ok hse
      cases h3
      simp only [b1, a1, c3, List.length_take, List.length_drop, kindTotal]
      simp
      omega
/-! ## Coordinate conservation -/

theorem indelTotal_movedLeft {l l' : List VCFIndelAllele} (h : List.Forall₂ MovedLeft l l')
    (ins : Bool) : indelTotal ins l' = indelTotal ins l := by
  induction h with
  | nil => rfl
  | cons hab _ ih =>
    simp only [indelTotal, ih, hab.1, hab.2.1]

theorem indelTotal_movedRight {l l' : List VCFIndelAllele} (h : List.Forall₂ MovedRight l l')
    (ins : Bool) : indelTotal ins l' = indelTotal ins l := by
  induction h with
  | nil => rfl
  | cons hab _ ih =>
    simp only [indelTotal, ih, hab.1, hab.2.1]

/-- Lengths of the cigar written by a pass that rewrites the cigar, by kind. -/
theorem leftAlign_totals {read ref : List Char} {cigar c' : Cigar} {st : Extraction}
    {shifted merged : List VCFIndelAllele}
    (h1 : extract read ref (Extraction.start read ref) cigar = .ok st)
    (hne : st.indels ≠ [])
    (h2 : leftShift read ref none st.indels = .ok shifted)
    (h3 : rightShift read ref shifted = .ok merged)
    (h4 : reconstruct st.softBegin st.softEnd st.sp merged = .ok c') :
    kindTotal 'M' c' = kindTotal 'M' cigar + kindTotal 'N' cigar ∧
    kindTotal 'D' c' = kindTotal 'D' cigar ∧
    kindTotal 'I' c' = kindTotal 'I' cigar ∧
    kindTotal 'S' c' = st.softBegin.length + st.softEnd.length ∧
    ∀ t, t ≠ 'M' → t ≠ 'D' → t ≠ 'I' → t ≠ 'S' → kindTotal t c' = 0 := by
  obtain ⟨o1, o2, o3, m1, m2, hend⟩ := phases_ordered h1 h2 h3
  obtain ⟨e1, -, new, e3, e4, e5, -, -⟩ := extract_spec cigar _ st h1
  have hnew : st.indels = new := by rw [e3]; rfl
  rw [← hnew] at e4 e5
  have hs : (Extraction.start read ref).sp = 0 := rfl
  rw [hs] at e1
  cases merged with
  | nil =>
    have : shifted = [] := List.forall₂_nil_right_iff.1 m2
    subst this
    have : st.indels = [] := List.forall₂_nil_right_iff.1 m1
    exact absurd this hne
  | cons last rest =>
    obtain ⟨-, r1, r2, r3, r4, r5⟩ := reconstruct_spec h4 o3.1 hend
    have tD : indelTotal false (last :: rest) = kindTotal 'D' cigar := by
      rw [indelTotal_movedRight m2, indelTotal_movedLeft m1, e5]
    have tI : indelTotal true (last :: rest) = kindTotal 'I' cigar := by
      rw [indelTotal_movedRight m2, indelTotal_movedLeft m1, e4]
    refine ⟨?_, by rw [r2, tD], by rw [r3, tI], r4, r5⟩
    rw [tD, e1] at r1
    push_cast at r1
    omega

/-! ## Windows of a sequence -/

theorem window_getElem? (s : List Char) (q len t : Nat) :
    (window s q len)[t]? = if t < len then s[q + t]? else none := by
  unfold window
  rw [List.getElem?_take]
  split
  · rw [List.getElem?_drop]
  · rfl

theorem window_length (s : List Char) (q len : Nat) (h : q + len ≤ s.length) :
    (window s q len).length = len := by
  unfold window
  simp only [List.length_take, List.length_drop]
  omega

theorem removeWindow_getElem? (s : List Char) (q len j : Nat) (hq : q ≤ s.length) :
    (removeWindow s q len)[j]? = if j < q then s[j]? else s[j + len]? := by
  unfold removeWindow
  have hl : (s.take q).length = q := by simp; omega
  split
  · rename_i h
    rw [List.getElem?_append_left (by omega), List.getElem?_take]
    simp [h]
  · rename_i h
    rw [List.getElem?_append_right (by omega), hl, List.getElem?_drop]
    congr 1
    omega

theorem removeWindow_length (s : List Char) (q len : Nat) (h : q + len ≤ s.length) :
    (removeWindow s q len).length + len = s.length := by
  unfold removeWindow
  simp only [List.length_append, List.length_take, List.length_drop]
  omega

theorem window_eq_iff (s : List Char) (a b len : Nat) :
    window s a len = window s b len ↔ ∀ t, t < len → s[a + t]? = s[b + t]? := by
  constructor
  · intro h t ht
    have := congrArg (fun l => l[t]?) h
    simp only [window_getElem?, ht, if_true] at this
    exact this
  · intro h
    apply List.ext_getElem?
    intro t
    rw [window_getElem?, window_getElem?]
    split
    · rename_i ht; exact h t ht
    · rfl

theorem substr_window (s : List Char) (q len : Nat) (h : q ≤ s.length) :
    substr s (q : Int) len = .ok (window s q len) := by
  unfold substr window
  have : (0 : Int) ≤ (q : Int) ∧ (q : Int) ≤ (s.length : Int) := by omega
  rw [if_pos this]
  simp

theorem charAt_getElem (s : List Char) (q : Nat) (c : Char) (h : s[q]? = some c) :
    charAt s (q : Int) = .ok c := by
  unfold charAt
  have h0 : (0 : Int) ≤ (q : Int) := by omega
  rw [if_pos h0]
  simp only [Int.toNat_ofNat, List.get?_eq_getElem?, h]

theorem getElem?_isSome {s : List Char} {q : Nat} (h : q < s.length) : ∃ c, s[q]? = some c :=
  ⟨s[q], List.getElem?_eq_getElem h⟩

/-- A sequence that repeats with period `i` on a stretch repeats with every multiple of
`i` inside the stretch. -/
theorem periodic_multiple (s : List Char) (i lo hi : Nat)
    (h : ∀ x, lo ≤ x → x + i < hi → s[x]? = s[x + i]?) :
    ∀ (n x : Nat), lo ≤ x → x + n * i < hi → s[x]? = s[x + n * i]? := by
  intro n
  induction n with
  | zero => intro x _ _; simp
  | succ n ih =>
    intro x hx hb
    have e : x + (n + 1) * i = (x + n * i) + i := by ring
    rw [e] at hb ⊢
    rw [ih x hx (by omega)]
    exact h _ (by omega) hb
/-! ## The left-shift loops return -/

theorem charAt_ok {s : List Char} {pos : Int} (h0 : 0 ≤ pos) (h1 : pos < (s.length : Int)) :
    ∃ c, charAt s pos = .ok c ∧ s[pos.toNat]? = some c := by
  obtain ⟨c, hc⟩ := getElem?_isSome (s := s) (q := pos.toNat) (by omega)
  refine ⟨c, ?_, hc⟩
  unfold charAt
  rw [if_pos h0]
  simp only [List.get?_eq_getElem?, hc]

/-- The repeat-shift condition is evaluated without fault when the indel lies inside both
sequences. -/
theorem shiftCond_total (read ref : List Char) (previous : Option VCFIndelAllele)
    (a : VCFIndelAllele) (i : Nat) (hp : a.position ≤ (ref.length : Int))
    (hr : a.readPosition ≤ (read.length : Int)) :
    ∃ go, shiftCond read ref previous a (a.position - i) (a.readPosition - i) = .ok go := by
  unfold shiftCond
  split
  · rename_i hc
    rw [substr_ok hc.1 (by omega)]
    simp only [bind, Except.bind]
    split
    · rw [substr_ok hc.2 (by omega)]
      simp only [bind, Except.bind]
      split
      · exact ⟨_, rfl⟩
      · exact ⟨_, rfl⟩
    · exact ⟨_, rfl⟩
  · exact ⟨_, rfl⟩

/-- The flank-exchange condition is evaluated without fault when the indel lies inside both
sequences and its sequence is not empty. -/
theorem exchangeCond_total (read ref : List Char) (previous : Option VCFIndelAllele)
    (a : VCFIndelAllele) (hp : a.position ≤ (ref.length : Int))
    (hr : a.readPosition ≤ (read.length : Int)) (hs : 1 ≤ a.sequence.length) :
    ∃ go, exchangeCond read ref previous a = .ok go := by
  unfold exchangeCond
  simp only
  split
  · rename_i hc
    obtain ⟨x, hx, -⟩ := charAt_ok (s := read) hc.2 (by omega)
    obtain ⟨r, hr', -⟩ := charAt_ok (s := ref) hc.1 (by omega)
    obtain ⟨e, he, -⟩ := @charAt_ok a.sequence ((a.sequence.length : Int) - 1)
      (by omega) (by omega)
    rw [hx, hr']
    simp only [bind, Except.bind]
    split
    · rw [he]
      simp only
      split
      · exact ⟨_, rfl⟩
      · exact ⟨_, rfl⟩
    · exact ⟨_, rfl⟩
  · exact ⟨_, rfl⟩

theorem exchangeStep_total (a : VCFIndelAllele) (hs : 1 ≤ a.sequence.length) :
    ∃ a', exchangeStep a = .ok a' := by
  unfold exchangeStep
  obtain ⟨e, he, -⟩ := @charAt_ok a.sequence ((a.sequence.length : Int) - 1)
    (by omega) (by omega)
  rw [he, substr_ok (le_refl _) (by omega)]
  exact ⟨_, rfl⟩

/-- The repeat-shift `while` returns, and keeps a property kept by each of its steps, when
its condition is evaluated without fault wherever the property holds. -/
theorem shiftWhile_total {read ref : List Char} {previous : Option VCFIndelAllele} {i : Nat}
    (P : VCFIndelAllele → Prop)
    (hcond : ∀ a, P a →
      ∃ go, shiftCond read ref previous a (a.position - i) (a.readPosition - i) = .ok go)
    (hstep : ∀ a, P a →
      shiftCond read ref previous a (a.position - i) (a.readPosition - i) = .ok true →
      P { a with position := a.position - i, readPosition := a.readPosition - i }) :
    ∀ (fuel : Nat) (a : VCFIndelAllele), P a →
      ∃ b, shiftWhile read ref previous i fuel a = .ok b ∧ P b := by
  intro fuel
  induction fuel with
  | zero => intro a ha; exact ⟨a, rfl, ha⟩
  | succ n ih =>
    intro a ha
    obtain ⟨go, hgo⟩ := hcond a ha
    simp only [shiftWhile, hgo, bind, Except.bind]
    cases go with
    | false => exact ⟨a, by simp, ha⟩
    | true =>
      simp only [if_true]
      exact ih _ (hstep a ha hgo)

/-- The repeat shift returns, and keeps a property kept by each of its steps. -/
theorem repeatShift_total {read ref : List Char} {previous : Option VCFIndelAllele}
    (len : Nat) (P : VCFIndelAllele → Prop) (hlen : ∀ a, P a → a.length = len)
    (hcond : ∀ (i : Nat) (a : VCFIndelAllele), P a →
      ∃ go, shiftCond read ref previous a (a.position - i) (a.readPosition - i) = .ok go)
    (hstep : ∀ (i : Nat) (a : VCFIndelAllele), 1 ≤ i → i ≤ len → len % i = 0 → P a →
      shiftCond read ref previous a (a.position - i) (a.readPosition - i) = .ok true →
      P { a with position := a.position - i, readPosition := a.readPosition - i }) :
    ∀ (fuel i : Nat) (a : VCFIndelAllele), 1 ≤ i → len % i = 0 ∨ len < i → P a →
      ∃ b, repeatShift read ref previous fuel i a = .ok b ∧ P b := by
  intro fuel
  induction fuel with
  | zero => intro i a _ _ ha; exact ⟨a, rfl, ha⟩
  | succ n ih =>
    intro i a hi hdiv ha
    simp only [repeatShift]
    split
    · rename_i hle
      have hl := hlen a ha
      rw [hl] at hle
      have hd : len % i = 0 := by
        rcases hdiv with hd | hd
        · exact hd
        · omega
      obtain ⟨a', ha', hPa'⟩ := shiftWhile_total P (hcond i)
        (fun x hx hc => hstep i x hi hle hd hx hc) a.position.toNat a ha
      rw [ha']
      simp only [bind, Except.bind]
      obtain ⟨h1, h2, -⟩ := nextStep_spec a.length a.length i (by omega)
      rw [hl] at h1 h2 ⊢
      refine ih _ _ (by omega) ?_ hPa'
      by_cases hx : nextStep len len i ≤ len
      · exact Or.inl (h2 hx)
      · exact Or.inr (by omega)
    · exact ⟨a, rfl, ha⟩

/-- The flank-exchange `while` returns, and keeps a property kept by each of its steps. -/
theorem exchangeWhile_total {read ref : List Char} {previous : Option VCFIndelAllele}
    (P : VCFIndelAllele → Prop)
    (hcond : ∀ a, P a → ∃ go, exchangeCond read ref previous a = .ok go)
    (hstep : ∀ a, P a → exchangeCond read ref previous a = .ok true →
      ∃ a', exchangeStep a = .ok a' ∧ P a') :
    ∀ (fuel : Nat) (a : VCFIndelAllele), P a →
      ∃ b, exchangeWhile read ref previous fuel a = .ok b ∧ P b := by
  intro fuel
  induction fuel with
  | zero => intro a ha; exact ⟨a, rfl, ha⟩
  | succ n ih =>
    intro a ha
    obtain ⟨go, hgo⟩ := hcond a ha
    simp only [exchangeWhile, hgo, bind, Except.bind]
    cases go with
    | false => exact ⟨a, by simp, ha⟩
    | true =>
      simp only [if_true]
      obtain ⟨a', ha', hPa'⟩ := hstep a ha hgo
      rw [ha']
      simp only
      exact ih _ hPa'

/-- The shift of one indel returns, keeps a property kept by each step, and ends where the
flank-exchange condition is false. -/
theorem shiftIndel_total {read ref : List Char} {previous : Option VCFIndelAllele}
    (len : Nat) (P : VCFIndelAllele → Prop) (hlen : ∀ a, P a → a.length = len)
    (hcond : ∀ (i : Nat) (a : VCFIndelAllele), P a →
      ∃ go, shiftCond read ref previous a (a.position - i) (a.readPosition - i) = .ok go)
    (hstep : ∀ (i : Nat) (a : VCFIndelAllele), 1 ≤ i → i ≤ len → len % i = 0 → P a →
      shiftCond read ref previous a (a.position - i) (a.readPosition - i) = .ok true →
      P { a with position := a.position - i, readPosition := a.readPosition - i })
    (hcondx : ∀ a, P a → ∃ go, exchangeCond read ref previous a = .ok go)
    (hstepx : ∀ a, P a → exchangeCond read ref previous a = .ok true →
      ∃ a', exchangeStep a = .ok a' ∧ P a')
    (a : VCFIndelAllele) (ha : P a) :
    ∃ b, shiftIndel read ref previous a = .ok b ∧ P b ∧
      exchangeCond read ref previous b = .ok false := by
  obtain ⟨s, hs, hPs⟩ := repeatShift_total len P hlen hcond hstep a.length 1 a (le_refl _)
    (Or.inl (Nat.mod_one _)) ha
  obtain ⟨b, hb, hPb⟩ := exchangeWhile_total P hcondx hstepx s.position.toNat s hPs
  refine ⟨b, ?_, hPb, exchangeWhile_exit _ s b (le_refl _) hb⟩
  unfold shiftIndel
  rw [hs]
  exact hb
/-! ## One indel in a mismatch-free alignment -/

theorem placed_shift {long short : List Char} {ins : Bool} {len k m : Nat}
    (hlen : long.length = k + len + m)
    {read ref : List Char} (hside : (read = long ∧ ref = short) ∨ (read = short ∧ ref = long))
    {previous : Option VCFIndelAllele} {a : VCFIndelAllele} {i : Nat}
    (hi : 1 ≤ i) (hd : len % i = 0) (ha : Placed long short ins len k a)
    (hc : shiftCond read ref previous a (a.position - i) (a.readPosition - i) = .ok true) :
    Placed long short ins len k
      { a with position := a.position - i, readPosition := a.readPosition - i } := by
  obtain ⟨h1, h2, q, hq, hp, hr, hs, he⟩ := ha
  obtain ⟨c1, c2, c3, c4, -⟩ := shiftCond_true hc
  have hiq : i ≤ q := by omega
  have ecast : a.position - (i : Int) = ((q - i : Nat) : Int) := by omega
  have ecast' : a.readPosition - (i : Int) = ((q - i : Nat) : Int) := by omega
  have hw : window long (q - i) len = window long q len := by
    rcases hside with ⟨hrd, -⟩ | ⟨-, hrf⟩
    · rw [ecast', hrd, h2, substr_window long (q - i) len (by omega)] at c4
      rw [Except.ok.inj c4, hs]
    · rw [ecast, hrf, h2, substr_window long (q - i) len (by omega)] at c3
      rw [Except.ok.inj c3, hs]
  have hper := (window_eq_iff long (q - i) q len).1 hw
  refine ⟨h1, h2, q - i, by omega, ecast, ecast', by simp only [hs, hw], ?_⟩
  rw [← he]
  apply List.ext_getElem?
  intro j
  rw [removeWindow_getElem? long (q - i) len j (by omega),
    removeWindow_getElem? long q len j (by omega)]
  by_cases hj1 : j < q - i
  · have : j < q := by omega
    simp only [hj1, this, if_true]
  · by_cases hj2 : j < q
    · simp only [hj1, hj2, if_true, if_false]
      have hmul : len / i * i = len := Nat.div_mul_cancel (Nat.dvd_of_mod_eq_zero hd)
      have := periodic_multiple long i (q - i) (q + len)
        (fun x hx1 hx2 => by
          have := hper (x - (q - i)) (by omega)
          have e1 : q - i + (x - (q - i)) = x := by omega
          have e2 : q + (x - (q - i)) = x + i := by omega
          rw [e1, e2] at this
          exact this)
        (len / i) j (by omega) (by rw [hmul]; omega)
      rw [hmul] at this
      exact this.symm
    · simp only [hj1, hj2, if_false]

theorem placed_facts {long short : List Char} {ins : Bool} {len k m : Nat}
    (hL : 1 ≤ len) (hlen : long.length = k + len + m)
    {read ref : List Char} (hside : (read = long ∧ ref = short) ∨ (read = short ∧ ref = long))
    {a : VCFIndelAllele} (ha : Placed long short ins len k a) :
    a.position ≤ (ref.length : Int) ∧ a.readPosition ≤ (read.length : Int) ∧
      1 ≤ a.sequence.length ∧ short.length = k + m := by
  obtain ⟨h1, h2, q, hq, hp, hr, hs, he⟩ := ha
  have hsl : short.length = k + m := by
    have := removeWindow_length long q len (by omega)
    rw [he] at this
    omega
  have hwl := window_length long q len (by omega)
  rw [← hs] at hwl
  refine ⟨?_, ?_, by omega, hsl⟩
  · rcases hside with ⟨-, h⟩ | ⟨-, h⟩ <;> rw [h] <;> omega
  · rcases hside with ⟨h, -⟩ | ⟨h, -⟩ <;> rw [h] <;> omega

/-- The characters the flank-exchange condition compares, for a placed indel at `q ≥ 1`. -/
theorem placed_chars {long short : List Char} {ins : Bool} {len k m : Nat}
    (hL : 1 ≤ len) (hlen : long.length = k + len + m)
    {read ref : List Char} (hside : (read = long ∧ ref = short) ∨ (read = short ∧ ref = long))
    {a : VCFIndelAllele} (ha : Placed long short ins len k a) (hpos : 1 ≤ a.position) :
    ∃ (q : Nat) (c e : Char), 1 ≤ q ∧ q ≤ k ∧ a.position = q ∧ a.readPosition = q ∧
      a.sequence = window long q len ∧ removeWindow long q len = short ∧
      long[q - 1]? = some c ∧ long[q - 1 + len]? = some e ∧
      charAt read (a.readPosition - 1) = .ok c ∧ charAt ref (a.position - 1) = .ok c ∧
      charAt a.sequence ((a.sequence.length : Int) - 1) = .ok e := by
  obtain ⟨h1, h2, q, hq, hp, hr, hs, he⟩ := ha
  have hq1 : 1 ≤ q := by omega
  obtain ⟨c, hc⟩ := getElem?_isSome (s := long) (q := q - 1) (by omega)
  obtain ⟨e, hee⟩ := getElem?_isSome (s := long) (q := q - 1 + len) (by omega)
  have hshort : short[q - 1]? = some c := by
    rw [← he, removeWindow_getElem? long q len (q - 1) (by omega)]
    have : q - 1 < q := by omega
    simp only [this, if_true, hc]
  have hwl := window_length long q len (by omega)
  have ecast : a.position - 1 = ((q - 1 : Nat) : Int) := by omega
  have ecast' : a.readPosition - 1 = ((q - 1 : Nat) : Int) := by omega
  have eseq : ((a.sequence.length : Int) - 1) = ((len - 1 : Nat) : Int) := by
    rw [hs, hwl]; omega
  have hlast : a.sequence[len - 1]? = some e := by
    rw [hs, window_getElem?]
    have : len - 1 < len := by omega
    simp only [this, if_true]
    have e2 : q + (len - 1) = q - 1 + len := by omega
    rw [e2, hee]
  refine ⟨q, c, e, hq1, hq, hp, hr, hs, he, hc, hee, ?_, ?_, ?_⟩
  · rw [ecast']
    rcases hside with ⟨h, -⟩ | ⟨h, -⟩ <;> rw [h]
    · exact charAt_getElem _ _ _ hc
    · exact charAt_getElem _ _ _ hshort
  · rw [ecast]
    rcases hside with ⟨-, h⟩ | ⟨-, h⟩ <;> rw [h]
    · exact charAt_getElem _ _ _ hshort
    · exact charAt_getElem _ _ _ hc
  · rw [eseq]
    exact charAt_getElem _ _ _ hlast

theorem placed_exchange {long short : List Char} {ins : Bool} {len k m : Nat}
    (hL : 1 ≤ len) (hlen : long.length = k + len + m)
    {read ref : List Char} (hside : (read = long ∧ ref = short) ∨ (read = short ∧ ref = long))
    {previous : Option VCFIndelAllele} {a : VCFIndelAllele}
    (ha : Placed long short ins len k a)
    (hc : exchangeCond read ref previous a = .ok true) :
    ∃ a', exchangeStep a = .ok a' ∧ Placed long short ins len k a' := by
  obtain ⟨c1, -, x, x1, x2, x3, -⟩ := exchangeCond_true hc
  obtain ⟨q, c, e, hq1, hq, hp, hr, hs, he, hc', he', y1, y2, y3⟩ :=
    placed_chars hL hlen hside ha (by omega)
  rw [y1] at x1
  cases x1
  rw [y3] at x3
  cases x3
  obtain ⟨f1, f2, f3, f4⟩ := placed_facts hL hlen hside ha
  obtain ⟨a', ha'⟩ := exchangeStep_total a f3
  refine ⟨a', ha', ?_⟩
  obtain ⟨e', he2, hst⟩ := exchangeStep_ok ha'
  rw [y3] at he2
  cases he2
  subst hst
  have hwl := window_length long q len (by omega)
  refine ⟨ha.1, ha.2.1, q - 1, by omega, by simp only; omega, by simp only; omega, ?_, ?_⟩
  · simp only
    apply List.ext_getElem?
    intro t
    rw [window_getElem?]
    cases t with
    | zero =>
      have : 0 < len := by omega
      simp only [List.getElem?_cons_zero, this, if_true, Nat.add_zero, hc']
    | succ t =>
      rw [List.getElem?_cons_succ, List.getElem?_take, hs, hwl, window_getElem?]
      by_cases ht : t + 1 < len
      · have h1 : t < len - 1 := by omega
        have h2 : t < len := by omega
        simp only [ht, h1, h2, if_true]
        congr 1
        omega
      · have h1 : ¬ t < len - 1 := by omega
        simp only [ht, h1, if_false]
  · rw [← he]
    apply List.ext_getElem?
    intro j
    rw [removeWindow_getElem? long (q - 1) len j (by omega),
      removeWindow_getElem? long q len j (by omega)]
    by_cases hj1 : j < q - 1
    · have : j < q := by omega
      simp only [hj1, this, if_true]
    · by_cases hj2 : j < q
      · have : j = q - 1 := by omega
        subst this
        simp only [hj1, hj2, if_true, if_false, hc', he']
      · simp only [hj1, hj2, if_false]

/-- Where the flank exchange stops, no placement further left is equivalent. -/
theorem placed_leftmost {long short : List Char} {ins : Bool} {len k m : Nat}
    (hL : 1 ≤ len) (hlen : long.length = k + len + m)
    {read ref : List Char} (hside : (read = long ∧ ref = short) ∨ (read = short ∧ ref = long))
    {a : VCFIndelAllele} (ha : Placed long short ins len k a)
    (hc : exchangeCond read ref none a = .ok false) :
    ∀ q' : Nat, (q' : Int) < a.position → removeWindow long q' len ≠ short := by
  intro q' hq' heq
  obtain ⟨q, c, e, hq1, hq, hp, hr, hs, he, hc', he', y1, y2, y3⟩ :=
    placed_chars hL hlen hside ha (by omega)
  have h1 := removeWindow_getElem? long q len (q - 1) (by omega)
  have h2 := removeWindow_getElem? long q' len (q - 1) (by omega)
  rw [he] at h1
  rw [heq] at h2
  have g1 : q - 1 < q := by omega
  have g2 : ¬ q - 1 < q' := by omega
  simp only [g1, g2, if_true, if_false] at h1 h2
  rw [h1, hc', he'] at h2
  cases h2
  have : exchangeCond read ref none a = .ok true := by
    unfold exchangeCond
    simp only
    have hcond : a.position - 1 ≥ 0 ∧ a.readPosition - 1 ≥ 0 := by omega
    rw [if_pos hcond, y1, y2, y3]
    simp [bind, Except.bind, leftBound]
  rw [this] at hc
  cases hc
theorem extractOp_match (read ref : List Char) (st : Extraction) (l : Nat) :
    extractOp read ref st (l, 'M') = .ok { st with sp := st.sp + l, rp := st.rp + l } := by
  rfl

theorem extractOp_deletion (read ref : List Char) (st : Extraction) (l : Nat) :
    extractOp read ref st (l, 'D') =
      (substr ref st.sp l >>= fun seq =>
        strInsert st.alignmentAlignedBases (st.rp + st.aabOffset) (List.replicate l '-')
          >>= fun aab =>
        .ok { st with
          indels := st.indels ++ [⟨false, l, st.sp, st.rp, seq⟩]
          alignmentAlignedBases := aab
          aabOffset := st.aabOffset + l
          sp := st.sp + l }) := by
  rfl

theorem extractOp_insertion (read ref : List Char) (st : Extraction) (l : Nat) :
    extractOp read ref st (l, 'I') =
      (substr read st.rp l >>= fun seq =>
        strInsert st.alignedReferenceSequence (st.sp + st.softBegin.length + st.arsOffset)
          (List.replicate l '-') >>= fun ars =>
        .ok { st with
          indels := st.indels ++ [⟨true, l, st.sp, st.rp, seq⟩]
          alignedReferenceSequence := ars
          arsOffset := st.arsOffset + l
          rp := st.rp + l }) := by
  rfl

theorem strInsert_ok {s : List Char} {pos : Int} (t : List Char) (h0 : 0 ≤ pos)
    (h1 : pos ≤ (s.length : Int)) :
    strInsert s pos t = .ok (s.take pos.toNat ++ t ++ s.drop pos.toNat) := by
  simp [strInsert, h0, h1]

/-- The extraction over a Match operation that may be omitted. -/
theorem extract_matchOp (read ref : List Char) (st : Extraction) (n : Nat) :
    extract read ref st (matchOp n) = .ok { st with sp := st.sp + n, rp := st.rp + n } := by
  unfold matchOp
  split
  · rename_i h
    subst h
    simp [extract]
  · simp only [extract, extractOp_match, bind, Except.bind]

/-- The extraction of the cigar of a one-indel alignment. -/
theorem extract_oneIndel {long : List Char} {k len m : Nat} (hlen : long.length = k + len + m)
    (ins : Bool) :
    ∃ st, extract (if ins then long else removeWindow long k len)
        (if ins then removeWindow long k len else long)
        (Extraction.start (if ins then long else removeWindow long k len)
          (if ins then removeWindow long k len else long))
        (oneIndel k len (if ins then 'I' else 'D') m) = .ok st ∧
      st.indels = [⟨ins, len, k, k, window long k len⟩] ∧
      st.sp = (k + m + (if ins then 0 else len) : Nat) ∧
      st.softBegin = [] ∧ st.softEnd = [] := by
  have hsl := removeWindow_length long k len (by omega)
  unfold oneIndel
  rw [extract_append, extract_append, extract_matchOp]
  cases ins with
  | false =>
    simp only [Bool.false_eq_true, if_false, bind, Except.bind, extract, extractOp_deletion,
      Extraction.start]
    rw [show (0 : Int) + (k : Int) = (k : Int) by omega,
      substr_window long k len (by omega)]
    simp only
    rw [show (k : Int) + 0 = (k : Int) by omega, strInsert_ok _ (by omega) (by omega)]
    simp only [extract_matchOp]
    refine ⟨_, rfl, ?_, ?_, rfl, rfl⟩
    · simp
    · simp only
      push_cast
      omega
  | true =>
    simp only [if_true, bind, Except.bind, extract, extractOp_insertion, Extraction.start]
    rw [show (0 : Int) + (k : Int) = (k : Int) by omega,
      substr_window long k len (by omega)]
    simp only
    rw [show (k : Int) + ((([] : List Char).length : Nat) : Int) + 0 = (k : Int) by simp,
      strInsert_ok _ (by omega) (by omega)]
    simp only [extract_matchOp]
    refine ⟨_, rfl, ?_, ?_, rfl, rfl⟩
    · simp
    · simp only
      push_cast
      omega

/-- The reconstruction from a single indel. -/
theorem reconstruct_single (b : VCFIndelAllele) (p r : Nat) (al : Int)
    (hp : b.position = p) (hal : al = indelEnd b + r) :
    reconstruct [] [] al [b] = .ok (oneIndel p b.length (indelKind b) r) := by
  simp only [reconstruct, rebuild, bind, Except.bind, ne_eq, not_true_eq_false, if_false,
    List.nil_append]
  unfold oneIndel matchOp
  by_cases h0 : p = 0
  · have h1 : ¬ b.position > 0 := by omega
    by_cases hr : r = 0
    · have h2 : ¬ indelEnd b < al := by omega
      simp [h0, h1, hr, h2]
    · have h2 : indelEnd b < al := by omega
      have h3 : (al - indelEnd b).toNat = r := by omega
      simp [h0, h1, hr, h2, h3]
  · have h1 : b.position > 0 := by omega
    have h4 : b.position.toNat = p := by omega
    by_cases hr : r = 0
    · have h2 : ¬ indelEnd b < al := by omega
      simp [h0, h1, hr, h2, h4]
    · have h2 : indelEnd b < al := by omega
      have h3 : (al - indelEnd b).toNat = r := by omega
      simp [h0, h1, hr, h2, h3, h4]

/-- One pass on a mismatch-free alignment with a single indel of kind `ins`: the indel ends
at the smallest offset `p` at which removing `len` characters from `long` gives `short`. -/
theorem leftAlign_oneIndel (long : List Char) (ins : Bool) (k len m : Nat) (hL : 1 ≤ len)
    (hlen : long.length = k + len + m) :
    ∃ (p : Nat) (b : Bool), p ≤ k ∧
      leftAlign (if ins then long else removeWindow long k len)
        (oneIndel k len (if ins then 'I' else 'D') m)
        (if ins then removeWindow long k len else long)
        = .ok (b, oneIndel p len (if ins then 'I' else 'D') (k + m - p)) ∧
      removeWindow long p len = removeWindow long k len ∧
      ∀ q, q < p → removeWindow long q len ≠ removeWindow long k len := by
  obtain ⟨st, e1, e2, e3, e4, e5⟩ := extract_oneIndel hlen (m := m) ins
  have hside : ((if ins then long else removeWindow long k len) = long ∧
      (if ins then removeWindow long k len else long) = removeWindow long k len) ∨
      ((if ins then long else removeWindow long k len) = removeWindow long k len ∧
      (if ins then removeWindow long k len else long) = long) := by
    cases ins <;> simp
  have h0 : Placed long (removeWindow long k len) ins len k
      ⟨ins, len, k, k, window long k len⟩ :=
    ⟨rfl, rfl, k, le_refl _, rfl, rfl, rfl, rfl⟩
  obtain ⟨b, hb, hPb, hexit⟩ := @shiftIndel_total _ _ none len
    (Placed long (removeWindow long k len) ins len k) (fun a ha => ha.2.1)
    (fun i a ha => by
      obtain ⟨f1, f2, -, -⟩ := placed_facts hL hlen hside ha
      exact shiftCond_total _ _ _ _ _ f1 f2)
    (fun i a hi _ hd ha hc => placed_shift hlen hside hi hd ha hc)
    (fun a ha => by
      obtain ⟨f1, f2, f3, -⟩ := placed_facts hL hlen hside ha
      exact exchangeCond_total _ _ _ _ f1 f2 f3)
    (fun a ha hc => placed_exchange hL hlen hside ha hc)
    _ h0
  have hmin := placed_leftmost hL hlen hside hPb hexit
  obtain ⟨g1, g2, p, hp, g3, g4, g5, g6⟩ := hPb
  refine ⟨p, decide (cigarString (oneIndel p len (if ins then 'I' else 'D') (k + m - p))
    ≠ cigarString (oneIndel k len (if ins then 'I' else 'D') m)), hp, ?_, g6, ?_⟩
  · rw [leftAlign_ok_iff]
    refine ⟨st, e1, Or.inr ⟨by rw [e2]; simp, [b], [b], ?_, rfl, ?_, rfl⟩⟩
    · rw [e2]
      simp only [leftShift, hb, bind, Except.bind]
    · rw [e4, e5]
      have hk : indelKind b = (if ins then 'I' else 'D') := by
        unfold indelKind
        rw [g1]
      have := reconstruct_single b p (k + m - p) st.sp g3 (by
        rw [e3]
        unfold indelEnd
        rw [g1, g2, g3]
        cases ins <;> simp <;> omega)
      rw [g2, hk] at this
      exact this
  · intro q hq
    exact hmin q (by omega)

/-- C2: leftmost placement of a single indel.  Let `s` have length `k + len + m` with
`len ≥ 1`, and write `xM` for a Match of length `x`, omitted when `x = 0`.
Deletion: for reference `s`, read `s` without `s[k, k+len)` and cigar `kM lenD mM`, one
pass of `leftAlign` returns the cigar `pM lenD (k+m-p)M`.
Insertion: for read `s`, reference `s` without `s[k, k+len)` and cigar `kM lenI mM`, one
pass returns `pM lenI (k+m-p)M`.
In both cases `p ≤ k` is the smallest offset at which an indel of that kind and length
gives the same read and reference: removing `len` characters at `p` gives the same sequence
as removing them at `k`, and removing them at any `q < p` does not. -/
theorem leftAlign_leftmost (s : List Char) (k len m : Nat) (hL : 1 ≤ len)
    (hlen : s.length = k + len + m) :
    (∃ (p : Nat) (b : Bool), p ≤ k ∧
      leftAlign (removeWindow s k len) (oneIndel k len 'D' m) s
        = .ok (b, oneIndel p len 'D' (k + m - p)) ∧
      removeWindow s p len = removeWindow s k len ∧
      ∀ q, q < p → removeWindow s q len ≠ removeWindow s k len) ∧
    (∃ (p : Nat) (b : Bool), p ≤ k ∧
      leftAlign s (oneIndel k len 'I' m) (removeWindow s k len)
        = .ok (b, oneIndel p len 'I' (k + m - p)) ∧
      removeWindow s p len = removeWindow s k len ∧
      ∀ q, q < p → removeWindow s q len ≠ removeWindow s k len) := by
  constructor
  · simpa using leftAlign_oneIndel s false k len m hL hlen
  · simpa using leftAlign_oneIndel s true k len m hL hlen

/-- Instance of C2 on `s = CAAAT` with the indel of length 1 at offset 3: the read `CAAT`
aligned as `3M1D1M`, and the reference `CAAT` with the read aligned as `3M1I1M`. -/
theorem leftAlign_leftmost_witness :
    (1 ≤ 1 ∧ "CAAAT".toList.length = 3 + 1 + 1) ∧
    (∃ (p : Nat) (b : Bool), p ≤ 3 ∧
      leftAlign (removeWindow "CAAAT".toList 3 1) (oneIndel 3 1 'D' 1) "CAAAT".toList
        = .ok (b, oneIndel p 1 'D' (3 + 1 - p)) ∧
      removeWindow "CAAAT".toList p 1 = removeWindow "CAAAT".toList 3 1 ∧
      ∀ q, q < p → removeWindow "CAAAT".toList q 1 ≠ removeWindow "CAAAT".toList 3 1) ∧
    (∃ (p : Nat) (b : Bool), p ≤ 3 ∧
      leftAlign "CAAAT".toList (oneIndel 3 1 'I' 1) (removeWindow "CAAAT".toList 3 1)
        = .ok (b, oneIndel p 1 'I' (3 + 1 - p)) ∧
      removeWindow "CAAAT".toList p 1 = removeWindow "CAAAT".toList 3 1 ∧
      ∀ q, q < p → removeWindow "CAAAT".toList q 1 ≠ removeWindow "CAAAT".toList 3 1) :=
  ⟨⟨by decide, by decide⟩, leftAlign_leftmost "CAAAT".toList 3 1 1 (by decide) (by decide)⟩
/-! ## Mismatch-free alignments as lists of indels -/

theorem getAt_nat (s : List Char) (q : Nat) : getAt s (q : Int) = s[q]? := by
  unfold getAt
  simp

theorem getAt_of_nonneg (s : List Char) {x : Int} (h : 0 ≤ x) : getAt s x = s[x.toNat]? := by
  unfold getAt
  rw [if_pos h]

theorem getAt_isSome (s : List Char) {x : Int} (h0 : 0 ≤ x) (h1 : x < (s.length : Int)) :
    ∃ c, getAt s x = some c := by
  rw [getAt_of_nonneg s h0]
  exact getElem?_isSome (by omega)

theorem getAt_some_lt {s : List Char} {x : Int} {c : Char} (h : getAt s x = some c) :
    0 ≤ x ∧ x < (s.length : Int) := by
  unfold getAt at h
  split at h
  · rename_i h0
    have := (List.getElem?_eq_some_iff.1 h).1
    omega
  · cases h

theorem substr_getAt {s w : List Char} {x : Int} {len : Nat} (h : substr s x len = .ok w)
    (j : Nat) (hj : j < len) : w[j]? = getAt s (x + j) := by
  obtain ⟨h0, h1, hw⟩ := substr_eq_ok h
  rw [hw, List.getElem?_take, if_pos hj, List.getElem?_drop, getAt_of_nonneg s (by omega)]
  congr 1
  omega

theorem charAt_getAt {s : List Char} {x : Int} {c : Char} (h : charAt s x = .ok c) :
    getAt s x = some c := by
  obtain ⟨h0, h1⟩ := charAt_eq_ok h
  rw [getAt_of_nonneg s h0]
  simpa using h1

theorem Matches.sub {read ref : List Char} {re e len len' : Int}
    (h : Matches read ref re e len) (hl : len' ≤ len) : Matches read ref re e len' :=
  fun j h0 h1 => h j h0 (by omega)

theorem Matches.concat {read ref : List Char} {re e n m : Int}
    (h1 : Matches read ref re e n) (h2 : Matches read ref (re + n) (e + n) m) :
    Matches read ref re e (n + m) := by
  intro j h0 hj
  by_cases hjn : j < n
  · exact h1 j h0 hjn
  · have := h2 (j - n) (by omega) (by omega)
    have e1 : re + n + (j - n) = re + j := by ring
    have e2 : e + n + (j - n) = e + j := by ring
    rw [e1, e2] at this
    exact this

theorem Matches.tail {read ref : List Char} {re e n g : Int}
    (h : Matches read ref re e n) (hg : 0 ≤ g) : Matches read ref (re + g) (e + g) (n - g) := by
  intro j h0 hj
  have := h (g + j) (by omega) (by omega)
  have e1 : re + (g + j) = re + g + j := by ring
  have e2 : e + (g + j) = e + g + j := by ring
  rw [e1, e2] at this
  exact this

theorem insLength_nonneg (a : VCFIndelAllele) : 0 ≤ insLength a := by
  unfold insLength
  split <;> omega

/-- In an alignment the reference cursor stays at or below the aligned length and the read
cursor leaves room for the trailing soft clip. -/
theorem Aligned.bounds {read ref : List Char} {al tail : Int} :
    ∀ (l : List VCFIndelAllele) (e re : Int), Aligned read ref al tail e re l →
      e ≤ al ∧ re + tail ≤ (read.length : Int) := by
  intro l
  induction l with
  | nil =>
    intro e re h
    obtain ⟨h1, -, h3⟩ := h
    exact ⟨h1, by omega⟩
  | cons a rest ih =>
    intro e re h
    obtain ⟨h1, -, h3⟩ := h
    obtain ⟨b1, b2⟩ := ih _ _ h3
    have := position_le_indelEnd a
    have := insLength_nonneg a
    exact ⟨by omega, by omega⟩

/-- Moving the start of an alignment left over matching bases gives an alignment. -/
theorem Aligned.extend {read ref : List Char} {al tail : Int} {l : List VCFIndelAllele}
    {e re i : Int} (h : Aligned read ref al tail e re l) (hi : 0 ≤ i)
    (hm : Matches read ref (re - i) (e - i) i) :
    Aligned read ref al tail (e - i) (re - i) l := by
  cases l with
  | nil =>
    obtain ⟨h1, h2, h3⟩ := h
    refine ⟨by omega, ?_, by omega⟩
    have := hm.concat (n := i) (m := al - e) (by
      have e1 : re - i + i = re := by ring
      have e2 : e - i + i = e := by ring
      rw [e1, e2]
      exact h2)
    have e3 : i + (al - e) = al - (e - i) := by ring
    rw [e3] at this
    exact this
  | cons a rest =>
    obtain ⟨h1, h2, h3⟩ := h
    refine ⟨by omega, ?_, ?_⟩
    · have := hm.concat (n := i) (m := a.position - e) (by
        have e1 : re - i + i = re := by ring
        have e2 : e - i + i = e := by ring
        rw [e1, e2]
        exact h2)
      have e3 : i + (a.position - e) = a.position - (e - i) := by ring
      rw [e3] at this
      exact this
    · have e4 : re - i + (a.position - (e - i)) + insLength a
          = re + (a.position - e) + insLength a := by ring
      rw [e4]
      exact h3

/-- Moving the start of an alignment right, up to the first indel at most, gives an
alignment. -/
theorem Aligned.shrink {read ref : List Char} {al tail : Int} {a : VCFIndelAllele}
    {rest : List VCFIndelAllele} {e re g : Int}
    (h : Aligned read ref al tail e re (a :: rest)) (hg : 0 ≤ g) (hle : e + g ≤ a.position) :
    Aligned read ref al tail (e + g) (re + g) (a :: rest) := by
  obtain ⟨h1, h2, h3⟩ := h
  refine ⟨hle, ?_, ?_⟩
  · have := h2.tail hg
    have e1 : a.position - e - g = a.position - (e + g) := by ring
    rw [e1] at this
    exact this
  · have e4 : re + g + (a.position - (e + g)) + insLength a
        = re + (a.position - e) + insLength a := by ring
    rw [e4]
    exact h3

theorem Synced.move {read ref : List Char} {l : List VCFIndelAllele} {e re i : Int}
    (h : Synced read ref e re l) : Synced read ref (e - i) (re - i) l := by
  cases l with
  | nil => trivial
  | cons a rest =>
    obtain ⟨h1, h2, h3⟩ := h
    refine ⟨by omega, h2, ?_⟩
    have e4 : re - i + (a.position - (e - i)) + insLength a
        = re + (a.position - e) + insLength a := by ring
    rw [e4]
    exact h3
/-! ## The left shift keeps the alignment free of mismatches -/

theorem indelEnd_shift (a : VCFIndelAllele) (p r : Int) (s : List Char) :
    indelEnd { a with position := p, readPosition := r, sequence := s }
      = indelEnd a - a.position + p := by
  unfold indelEnd
  simp only
  split <;> omega

/-- The sequence of a shifted indel repeats with the period of the shift. -/
theorem seq_periodic {src seq : List Char} {P : Int} {len i : Nat}
    (hw : ∀ j : Nat, j < len → seq[j]? = getAt src (P - i + j))
    (hs : ∀ j : Nat, j < len → seq[j]? = getAt src (P + j))
    (hd : len % i = 0) (j : Nat) (hj : j < i) :
    seq[j]? = seq[j + (len - i)]? := by
  by_cases hle : i ≤ len
  · have hmul : len / i * i = len := Nat.div_mul_cancel (Nat.dvd_of_mod_eq_zero hd)
    have hq : 1 ≤ len / i := by
      rcases Nat.eq_zero_or_pos (len / i) with h0 | h0
      · rw [h0, Nat.zero_mul] at hmul
        omega
      · exact h0
    have hmul' : (len / i - 1) * i = len - i := by
      rw [Nat.sub_mul, hmul]
      simp
    have := periodic_multiple seq i 0 len
      (fun x _ hx => by
        rw [hs x (by omega), hw (x + i) hx]
        congr 1
        push_cast
        ring)
      (len / i - 1) j (by omega) (by rw [hmul']; omega)
    rw [hmul'] at this
    exact this
  · have : len - i = 0 := by omega
    rw [this]
    rfl

/-- One step of the repeat shift, by a divisor `i` of the length, keeps the alignment free
of mismatches. -/
theorem shift_step_sound {read ref : List Char} {al tail : Int}
    {previous : Option VCFIndelAllele} {a : VCFIndelAllele} {rest : List VCFIndelAllele}
    {e re : Int} {i : Nat} (hi : 1 ≤ i) (hle : i ≤ a.length) (hd : a.length % i = 0)
    (hb : boundOf previous = e)
    (hA : Aligned read ref al tail e re (a :: rest)) (hS : Synced read ref e re (a :: rest))
    (hc : shiftCond read ref previous a (a.position - i) (a.readPosition - i) = .ok true) :
    Aligned read ref al tail e re
        ({ a with position := a.position - i, readPosition := a.readPosition - i } :: rest) ∧
      Synced read ref e re
        ({ a with position := a.position - i, readPosition := a.readPosition - i } :: rest) := by
  obtain ⟨c1, c2, c3, c4, c5⟩ := shiftCond_true hc
  have hbound := leftBound_le c5 c1
  rw [hb] at hbound
  obtain ⟨a1, a2, a3⟩ := hA
  obtain ⟨s1, ⟨q1, q2, q3⟩, s3⟩ := hS
  have wref := substr_getAt c3
  have wread := substr_getAt c4
  have hend := indelEnd_shift a (a.position - i) (a.readPosition - i) a.sequence
  have hins : insLength { a with position := a.position - i, readPosition := a.readPosition - i }
      = insLength a := rfl
  -- the columns that become matches
  have hnew : Matches read ref (re + (a.position - e) + insLength a - i) (indelEnd a - i) i := by
    intro j hj0 hji
    have hjn : j.toNat < i := by omega
    have hjc : ((j.toNat : Nat) : Int) = j := by omega
    cases hk : a.insertion with
    | false =>
      simp only [hk, Bool.false_eq_true, if_false] at q3
      have hper := @seq_periodic ref _ a.position _ _ wref
        (fun t ht => by obtain ⟨c, h1, h2⟩ := q3 t ht; rw [h1, h2]) hd j.toNat hjn
      obtain ⟨c, h1, h2⟩ := q3 (j.toNat + (a.length - i)) (by omega)
      have e1 : re + (a.position - e) + insLength a - i + j = a.readPosition - i + j.toNat := by
        simp only [insLength, hk, Bool.false_eq_true, if_false]
        omega
      have e2 : indelEnd a - i + j = a.position + ((j.toNat + (a.length - i) : Nat) : Int) := by
        simp only [indelEnd, hk, Bool.false_eq_true, if_false]
        omega
      rw [e1, e2, ← wread j.toNat (by omega), h2, hper, h1]
    | true =>
      simp only [hk, if_true] at q3
      have hper := @seq_periodic read _ a.readPosition _ _ wread
        (fun t ht => by obtain ⟨c, h1, h2⟩ := q3 t ht; rw [h1, h2]) hd j.toNat hjn
      obtain ⟨c, h1, h2⟩ := q3 (j.toNat + (a.length - i)) (by omega)
      have e1 : re + (a.position - e) + insLength a - i + j
          = a.readPosition + ((j.toNat + (a.length - i) : Nat) : Int) := by
        simp only [insLength, hk, if_true]
        omega
      have e2 : indelEnd a - i + j = a.position - i + j.toNat := by
        simp only [indelEnd, hk, if_true]
        omega
      rw [e1, e2, ← wref j.toNat (by omega), h2, hper, h1]
  constructor
  · refine ⟨hbound, a2.sub (by simp only; omega), ?_⟩
    rw [hend, hins]
    have e3 : indelEnd a - a.position + (a.position - i) = indelEnd a - i := by ring
    have e4 : re + (a.position - i - e) + insLength a = re + (a.position - e) + insLength a - i := by
      ring
    simp only
    rw [e3, e4]
    exact a3.extend (by omega) hnew
  · refine ⟨by simp only; omega, ⟨q1, q2, ?_⟩, ?_⟩
    · intro j hj
      obtain ⟨c, h1, h2⟩ := q3 j hj
      refine ⟨c, h1, ?_⟩
      cases hk : a.insertion with
      | false =>
        simp only [hk, Bool.false_eq_true, if_false]
        rw [← wref j hj, h1]
      | true =>
        simp only [hk, if_true]
        rw [← wread j hj, h1]
    · rw [hend, hins]
      have e3 : indelEnd a - a.position + (a.position - i) = indelEnd a - i := by ring
      have e4 : re + (a.position - i - e) + insLength a = re + (a.position - e) + insLength a - i := by
        ring
      simp only
      rw [e3, e4]
      exact s3.move

/-- One step of the flank exchange keeps the alignment free of mismatches. -/
theorem exchange_step_sound {read ref : List Char} {al tail : Int}
    {previous : Option VCFIndelAllele} {a a' : VCFIndelAllele} {rest : List VCFIndelAllele}
    {e re : Int} (hb : boundOf previous = e)
    (hA : Aligned read ref al tail e re (a :: rest)) (hS : Synced read ref e re (a :: rest))
    (hc : exchangeCond read ref previous a = .ok true) (hst : exchangeStep a = .ok a') :
    a'.length = a.length ∧ Aligned read ref al tail e re (a' :: rest) ∧
      Synced read ref e re (a' :: rest) := by
  obtain ⟨c1, c2, c, x1, x2, x3, c5⟩ := exchangeCond_true hc
  have hbound := leftBound_le c5 c1
  rw [hb] at hbound
  obtain ⟨e', he', hstep⟩ := exchangeStep_ok hst
  rw [x3] at he'
  cases he'
  subst hstep
  obtain ⟨a1, a2, a3⟩ := hA
  obtain ⟨s1, ⟨q1, q2, q3⟩, s3⟩ := hS
  have g1 := charAt_getAt x1
  have g2 := charAt_getAt x2
  have g3 := charAt_getAt x3
  have hlast : a.sequence[a.length - 1]? = some c := by
    have e1 : ((a.sequence.length : Int) - 1) = ((a.length - 1 : Nat) : Int) := by omega
    rw [e1, getAt_nat] at g3
    exact g3
  have hend := indelEnd_shift a (a.position - 1) (a.readPosition - 1)
    (c :: List.take (a.sequence.length - 1) a.sequence)
  have hins : insLength { a with
      sequence := (c :: List.take (a.sequence.length - 1) a.sequence)
      position := a.position - 1
      readPosition := a.readPosition - 1 } = insLength a := rfl
  have hnew : Matches read ref (re + (a.position - e) + insLength a - 1) (indelEnd a - 1) 1 := by
    intro j hj0 hj1
    have hj : j = 0 := by omega
    subst hj
    obtain ⟨c', h1, h2⟩ := q3 (a.length - 1) (by omega)
    rw [hlast] at h1
    cases h1
    cases hk : a.insertion with
    | false =>
      simp only [hk, Bool.false_eq_true, if_false] at h2
      have e1 : re + (a.position - e) + insLength a - 1 + 0 = a.readPosition - 1 := by
        simp only [insLength, hk, Bool.false_eq_true, if_false]
        omega
      have e2 : indelEnd a - 1 + 0 = a.position + ((a.length - 1 : Nat) : Int) := by
        simp only [indelEnd, hk, Bool.false_eq_true, if_false]
        omega
      rw [e1, e2, g1, h2]
    | true =>
      simp only [hk, if_true] at h2
      have e1 : re + (a.position - e) + insLength a - 1 + 0
          = a.readPosition + ((a.length - 1 : Nat) : Int) := by
        simp only [insLength, hk, if_true]
        omega
      have e2 : indelEnd a - 1 + 0 = a.position - 1 := by
        simp only [indelEnd, hk, if_true]
        omega
      rw [e1, e2, g2, h2]
  have e3 : indelEnd a - a.position + (a.position - 1) = indelEnd a - 1 := by ring
  have e4 : re + (a.position - 1 - e) + insLength a = re + (a.position - e) + insLength a - 1 := by
    ring
  refine ⟨rfl, ⟨hbound, a2.sub (by simp only; omega), ?_⟩, ⟨by simp only; omega, ⟨q1, ?_, ?_⟩, ?_⟩⟩
  · rw [hend, hins]
    simp only
    rw [e3, e4]
    exact a3.extend (by omega) hnew
  · simp only [List.length_cons, List.length_take]
    omega
  · intro j hj
    simp only at hj ⊢
    cases j with
    | zero =>
      refine ⟨c, by simp, ?_⟩
      cases hk : a.insertion with
      | false =>
        simp only [Bool.false_eq_true, if_false]
        rw [show a.position - 1 + ((0 : Nat) : Int) = a.position - 1 by simp, g2]
      | true =>
        simp only [if_true]
        rw [show a.readPosition - 1 + ((0 : Nat) : Int) = a.readPosition - 1 by simp, g1]
    | succ t =>
      obtain ⟨c', h1, h2⟩ := q3 t (by omega)
      refine ⟨c', ?_, ?_⟩
      · rw [List.getElem?_cons_succ, List.getElem?_take, if_pos (by omega), h1]
      · cases hk : a.insertion with
        | false =>
          simp only [hk, Bool.false_eq_true, if_false] at h2 ⊢
          rw [show a.position - 1 + ((t + 1 : Nat) : Int) = a.position + (t : Int) by
            push_cast; ring]
          exact h2
        | true =>
          simp only [hk, if_true] at h2 ⊢
          rw [show a.readPosition - 1 + ((t + 1 : Nat) : Int) = a.readPosition + (t : Int) by
            push_cast; ring]
          exact h2
  · rw [hend, hins]
    simp only
    rw [e3, e4]
    exact s3.move

/-- An aligned indel lies inside both sequences. -/
theorem aligned_head_bounds {read ref : List Char} {al tail : Int} {a : VCFIndelAllele}
    {rest : List VCFIndelAllele} {e re : Int} (hal : al ≤ (ref.length : Int)) (htail : 0 ≤ tail)
    (hA : Aligned read ref al tail e re (a :: rest)) (hS : Synced read ref e re (a :: rest)) :
    a.position ≤ (ref.length : Int) ∧ a.readPosition ≤ (read.length : Int) ∧
      1 ≤ a.sequence.length ∧ indelEnd a ≤ al ∧
      a.readPosition + insLength a + tail ≤ (read.length : Int) := by
  obtain ⟨-, -, a3⟩ := hA
  obtain ⟨s1, ⟨q1, q2, -⟩, -⟩ := hS
  obtain ⟨b1, b2⟩ := a3.bounds
  have := position_le_indelEnd a
  have := insLength_nonneg a
  exact ⟨by omega, by omega, by omega, b1, by omega⟩

/-- The left-shift phase returns and keeps the alignment free of mismatches. -/
theorem leftShift_sound {read ref : List Char} {al tail : Int} (hal : al ≤ (ref.length : Int))
    (htail : 0 ≤ tail) : ∀ (l : List VCFIndelAllele) (previous : Option VCFIndelAllele)
    (e re : Int), boundOf previous = e → Aligned read ref al tail e re l →
    Synced read ref e re l →
    ∃ l', leftShift read ref previous l = .ok l' ∧ Aligned read ref al tail e re l' ∧
      Synced read ref e re l' := by
  intro l
  induction l with
  | nil =>
    intro previous e re _ hA hS
    exact ⟨[], rfl, hA, hS⟩
  | cons a rest ih =>
    intro previous e re hb hA hS
    obtain ⟨b, hshift, ⟨-, hAb, hSb⟩, -⟩ := @shiftIndel_total read ref
      previous a.length
      (fun x => x.length = a.length ∧ Aligned read ref al tail e re (x :: rest) ∧
        Synced read ref e re (x :: rest))
      (fun x hx => hx.1)
      (fun i x hx => by
        obtain ⟨f1, f2, -, -, -⟩ := aligned_head_bounds hal htail hx.2.1 hx.2.2
        exact shiftCond_total _ _ _ _ _ f1 f2)
      (fun i x hi hle hd hx hc => by
        obtain ⟨hl, hAx, hSx⟩ := hx
        rw [← hl] at hle hd
        obtain ⟨r1, r2⟩ := shift_step_sound hi hle hd hb hAx hSx hc
        exact ⟨hl, r1, r2⟩)
      (fun x hx => by
        obtain ⟨f1, f2, f3, -, -⟩ := aligned_head_bounds hal htail hx.2.1 hx.2.2
        exact exchangeCond_total _ _ _ _ f1 f2 f3)
      (fun x hx hc => by
        obtain ⟨hl, hAx, hSx⟩ := hx
        obtain ⟨-, -, f3, -, -⟩ := aligned_head_bounds hal htail hAx hSx
        obtain ⟨x', hx'⟩ := exchangeStep_total x f3
        obtain ⟨r0, r1, r2⟩ := exchange_step_sound hb hAx hSx hc hx'
        exact ⟨x', hx', by rw [r0, hl], r1, r2⟩)
      a ⟨rfl, hA, hS⟩
    obtain ⟨hb1, hb2, hb3⟩ := hAb
    obtain ⟨sb1, sb2, sb3⟩ := hSb
    obtain ⟨rest', hrest, hA', hS'⟩ := ih (some b) (indelEnd b)
      (re + (b.position - e) + insLength b) rfl hb3 sb3
    refine ⟨b :: rest', ?_, ⟨hb1, hb2, hA'⟩, ⟨sb1, sb2, hS'⟩⟩
    simp only [leftShift, hshift, hrest, bind, Except.bind]
/-! ## The right shift keeps the alignment free of mismatches -/

theorem sameAs_true {c : Char} : ∀ {s : List Char}, sameAs c s = true → ∀ x ∈ s, x = c := by
  intro s
  induction s with
  | nil => intro _ x hx; cases hx
  | cons y ys ih =>
    intro h x hx
    simp only [sameAs] at h
    split at h
    · cases h
    · rename_i hne
      have hy : c = y := by
        by_contra hcy
        exact hne hcy
      rcases List.mem_cons.1 hx with hx | hx
      · rw [hx, hy]
      · exact ih h x hx

theorem FBhomopolymer_ok {s : List Char} (h : 1 ≤ s.length) : ∃ b, FBhomopolymer s = .ok b := by
  cases s with
  | nil => simp at h
  | cons c t => exact ⟨_, rfl⟩

/-- A homopolymer is a run of its first character. -/
theorem FBhomopolymer_true {s : List Char} (h : FBhomopolymer s = .ok true) :
    ∃ c, s[0]? = some c ∧ ∀ j, j < s.length → s[j]? = some c := by
  cases s with
  | nil => cases h
  | cons c t =>
    simp only [FBhomopolymer] at h
    have hs := sameAs_true (Except.ok.inj h)
    refine ⟨c, List.getElem?_cons_zero, ?_⟩
    intro j hj
    cases j with
    | zero => exact List.getElem?_cons_zero
    | succ k =>
      simp only [List.length_cons] at hj
      rw [List.getElem?_cons_succ, List.getElem?_eq_getElem (by omega)]
      rw [hs _ (List.getElem_mem _)]

/-- The tandem-repeat `while` returns when the step stays inside the reference. -/
theorem tandemWhile_total {ref : List Char} {previous indel : VCFIndelAllele}
    (h0 : 0 ≤ previous.position) (hin : indel.position ≤ (ref.length : Int)) :
    ∀ (fuel : Nat) (pos : Int), previous.position ≤ pos →
      ∃ pos', tandemWhile ref previous indel fuel pos = .ok pos' := by
  intro fuel
  induction fuel with
  | zero => intro pos _; exact ⟨pos, rfl⟩
  | succ n ih =>
    intro pos hpos
    simp only [tandemWhile]
    have hc : ∃ go, tandemCond ref previous indel pos = .ok go := by
      unfold tandemCond
      split
      · split
        · rename_i hg
          have hle : pos + previous.length ≤ indel.position := by
            cases hk : previous.insertion <;> simp [hk] at hg <;> omega
          rw [substr_ok (by omega) (by omega)]
          exact ⟨_, rfl⟩
        · exact ⟨_, rfl⟩
      · exact ⟨_, rfl⟩
    obtain ⟨go, hgo⟩ := hc
    rw [hgo]
    simp only [bind, Except.bind]
    cases go with
    | false => exact ⟨pos, by simp⟩
    | true =>
      simp only [if_true]
      exact ih _ (by omega)

/-- The right-shift step returns; it leaves `previous` as it is, or moves it right, over
bases that match, until its end touches `indel`. -/
theorem rightShiftPair_sound {read ref : List Char} {al tail : Int} {p a : VCFIndelAllele}
    {rest : List VCFIndelAllele} {e re : Int} (hal : al ≤ (ref.length : Int))
    (htail : 0 ≤ tail) (h0 : 0 ≤ e) (h0' : 0 ≤ re)
    (hA : Aligned read ref al tail e re (p :: a :: rest))
    (hS : Synced read ref e re (p :: a :: rest)) :
    ∃ p', rightShiftPair read ref p a = .ok p' ∧ p'.insertion = p.insertion ∧
      p'.length = p.length ∧ p.position ≤ p'.position ∧ indelEnd p' ≤ a.position ∧
      Matches read ref re e (p'.position - e) := by
  obtain ⟨a1, a2, a3⟩ := hA
  obtain ⟨s1, ⟨q1, q2, q3⟩, s3⟩ := hS
  obtain ⟨b1, b2, b3⟩ := a3
  obtain ⟨t1, -, -⟩ := s3
  obtain ⟨d1, d2⟩ := b3.bounds
  have hpe := position_le_indelEnd a
  have hia := insLength_nonneg a
  have hkeep : p.insertion = p.insertion ∧ p.length = p.length ∧ p.position ≤ p.position ∧
      indelEnd p ≤ a.position ∧ Matches read ref re e (p.position - e) :=
    ⟨rfl, rfl, le_refl _, b1, a2⟩
  unfold rightShiftPair
  simp only
  by_cases hg : mergeGuard p a = true
  · rw [if_pos hg]
    obtain ⟨hk, hgd⟩ := mergeGuard_true hg
    obtain ⟨homo, hhomo⟩ := FBhomopolymer_ok (s := p.sequence) (by omega)
    simp only [VCFIndelAllele.homopolymer, hhomo, bind, Except.bind]
    cases homo with
    | false =>
      simp only [Bool.false_eq_true, if_false]
      obtain ⟨pos, hpos⟩ := @tandemWhile_total ref p a
        (by omega) (by omega) ((ref.length : Int) - p.position).toNat p.position (le_refl _)
      rw [hpos]
      simp only
      have := tandemWhile_ge _ _ _ hpos
      have hnot : ¬ (pos < p.position ∧ ((p.insertion = true ∧ pos + p.length = a.position) ∨
          (¬ p.insertion = true ∧ pos = a.position - p.length))) := by
        intro h
        omega
      rw [if_neg hnot]
      exact ⟨p, rfl, hkeep⟩
    | true =>
      simp only [if_true]
      -- the end of `previous` in both sequences, and the gap up to `indel`
      have hE : (if p.insertion = true then p.position else p.position + (p.length : Int))
          = indelEnd p := rfl
      have hRE : (if (!p.insertion) = true then p.readPosition
          else p.readPosition + (p.length : Int)) = re + (p.position - e) + insLength p := by
        cases hp : p.insertion <;> simp [insLength, hp] <;> omega
      rw [hE, hRE]
      have hgap : 1 ≤ a.position - indelEnd p := by
        rcases hgd with ⟨h1, h2, -⟩ | ⟨h1, h2, -⟩
        · simp only [indelEnd, h1, if_true]; omega
        · simp only [indelEnd, h1, Bool.false_eq_true, if_false]; omega
      have hposE := position_le_indelEnd p
      have hinsp := insLength_nonneg p
      obtain ⟨seq, hseq⟩ : ∃ w, substr ref (indelEnd p) (a.position - indelEnd p).toNat = .ok w :=
        ⟨_, substr_ok (by omega) (by omega)⟩
      obtain ⟨readseq, hreadseq⟩ : ∃ w, substr read (re + (p.position - e) + insLength p)
          (a.position - indelEnd p).toNat = .ok w := ⟨_, substr_ok (by omega) (by omega)⟩
      rw [hseq, hreadseq]
      simp only
      have hseqlen : seq.length = (a.position - indelEnd p).toNat := by
        obtain ⟨-, -, hw⟩ := substr_eq_ok hseq
        rw [hw]
        simp only [List.length_take, List.length_drop]
        omega
      have hreadlen : readseq.length = (a.position - indelEnd p).toNat := by
        obtain ⟨-, -, hw⟩ := substr_eq_ok hreadseq
        rw [hw]
        simp only [List.length_take, List.length_drop]
        omega
      obtain ⟨p0, hp0, hp0'⟩ := @charAt_ok p.sequence 0 (le_refl _) (by omega)
      obtain ⟨s0, hs0, hs0'⟩ := @charAt_ok seq 0 (le_refl _) (by omega)
      rw [hp0, hs0]
      simp only
      by_cases hps : p0 = s0
      · rw [if_pos hps]
        obtain ⟨h1, hh1⟩ := FBhomopolymer_ok (s := seq) (by omega)
        rw [hh1]
        simp only
        cases h1 with
        | false => exact ⟨p, by simp, hkeep⟩
        | true =>
          simp only [if_true]
          obtain ⟨h2, hh2⟩ := FBhomopolymer_ok (s := readseq) (by omega)
          rw [hh2]
          simp only
          cases h2 with
          | false => exact ⟨p, by simp, hkeep⟩
          | true =>
            simp only [if_true]
            refine ⟨_, rfl, rfl, rfl, ?_, ?_, ?_⟩
            · simp only
              rcases hgd with ⟨h1, h2, -⟩ | ⟨h1, h2, -⟩
              · rw [← hk, h1]; simp only [if_true]; omega
              · rw [← hk, h1]; simp only [Bool.false_eq_true, if_false]; omega
            · simp only [indelEnd]
              rcases hgd with ⟨h1, h2, -⟩ | ⟨h1, h2, -⟩
              · rw [← hk, h1]; simp only [if_true]; omega
              · rw [← hk, h1]; simp only [Bool.false_eq_true, if_false]; omega
            · -- the bases crossed are a run of one character
              obtain ⟨c, hc0, hcall⟩ := FBhomopolymer_true hhomo
              obtain ⟨c', hc0', hcall'⟩ := FBhomopolymer_true hh1
              simp only [Int.toNat_zero] at hp0' hs0'
              rw [hc0] at hp0'
              rw [hc0'] at hs0'
              have hcc : c' = c := by
                rw [Option.some.inj hp0', Option.some.inj hs0', hps]
              rw [hcc] at hcall'
              have R1 : ∀ j : Nat, j < p.length →
                  getAt (if p.insertion then read else ref)
                    ((if p.insertion then p.readPosition else p.position) + j) = some c := by
                intro j hj
                obtain ⟨x, hx1, hx2⟩ := q3 j hj
                rw [hcall j (by omega)] at hx1
                cases hx1
                exact hx2
              have R2 : ∀ j : Nat, (j : Int) < a.position - indelEnd p →
                  getAt ref (indelEnd p + j) = some c := by
                intro j hj
                rw [← substr_getAt hseq j (by omega)]
                exact hcall' j (by omega)
              have hmove : (if a.insertion = true then a.position else a.position - (p.length : Int))
                  - p.position = a.position - indelEnd p := by
                rcases hgd with ⟨h1, h2, -⟩ | ⟨h1, h2, -⟩
                · rw [← hk, h1]; simp only [indelEnd, h1, if_true]
                · rw [← hk, h1]; simp only [indelEnd, h1, Bool.false_eq_true, if_false]; omega
              have hnew : Matches read ref (re + (p.position - e)) (e + (p.position - e))
                  (a.position - indelEnd p) := by
                intro j hj0 hj
                have hjc : ((j.toNat : Nat) : Int) = j := by omega
                have hold := b2 j hj0 hj
                rcases hgd with ⟨h1, -, -⟩ | ⟨h1, -, -⟩
                · -- insertion: the read bases of `previous`, then the old gap
                  simp only [h1, if_true] at R1
                  simp only [insLength, indelEnd, h1, if_true] at hold R2 ⊢
                  have e2 : e + (p.position - e) + j = p.position + (j.toNat : Int) := by omega
                  rw [e2, R2 j.toNat (by simp only [indelEnd, h1, if_true] at hj; omega)]
                  by_cases hjl : j.toNat < p.length
                  · have e1 : re + (p.position - e) + j = p.readPosition + (j.toNat : Int) := by
                      omega
                    rw [e1, R1 j.toNat hjl]
                  · have hold' := b2 (j - p.length) (by omega) (by omega)
                    simp only [insLength, indelEnd, h1, if_true] at hold'
                    have e1 : re + (p.position - e) + (p.length : Int) + (j - p.length)
                        = re + (p.position - e) + j := by ring
                    have e3 : p.position + (j - (p.length : Int))
                        = p.position + ((j.toNat - p.length : Nat) : Int) := by omega
                    rw [e1, e3, R2 (j.toNat - p.length) (by
                      simp only [indelEnd, h1, if_true] at hj; omega)] at hold'
                    exact hold'
                · -- deletion: the old gap, read against the reference bases of `previous`
                  simp only [h1, Bool.false_eq_true, if_false] at R1
                  simp only [insLength, indelEnd, h1, Bool.false_eq_true, if_false] at hold R2 hj ⊢
                  have e1 : re + (p.position - e) + 0 + j = re + (p.position - e) + j := by ring
                  have e0 : p.position + (p.length : Int) + j
                      = p.position + (p.length : Int) + (j.toNat : Int) := by omega
                  rw [e1, e0, R2 j.toNat (by omega)] at hold
                  rw [hold]
                  have e2 : e + (p.position - e) + j = p.position + (j.toNat : Int) := by omega
                  rw [e2]
                  by_cases hjl : j.toNat < p.length
                  · rw [R1 j.toNat hjl]
                  · have e3 : p.position + (j.toNat : Int)
                        = p.position + (p.length : Int) + ((j.toNat - p.length : Nat) : Int) := by
                      omega
                    rw [e3, R2 (j.toNat - p.length) (by omega)]
              have := a2.concat hnew
              simp only
              have e5 : (if a.insertion = true then a.position else a.position - (p.length : Int)) - e
                  = p.position - e + (a.position - indelEnd p) := by
                rw [← hmove]; ring
              rw [e5]
              exact this
      · rw [if_neg hps]
        exact ⟨p, rfl, hkeep⟩
  · rw [if_neg hg]
    exact ⟨p, rfl, hkeep⟩
theorem indelEnd_moved {p p' : VCFIndelAllele} (h1 : p'.insertion = p.insertion)
    (h2 : p'.length = p.length) : indelEnd p' = indelEnd p + (p'.position - p.position) := by
  unfold indelEnd
  rw [h1, h2]
  split <;> omega

theorem insLength_moved {p p' : VCFIndelAllele} (h1 : p'.insertion = p.insertion)
    (h2 : p'.length = p.length) : insLength p' = insLength p := by
  unfold insLength
  rw [h1, h2]

/-- The right-shift phase returns and keeps the alignment free of mismatches; the first
indel does not move left. -/
theorem rightShift_sound {read ref : List Char} {al tail : Int} (hal : al ≤ (ref.length : Int))
    (htail : 0 ≤ tail) : ∀ (n : Nat) (l : List VCFIndelAllele) (e re : Int), l.length = n →
    0 ≤ e → 0 ≤ re → Aligned read ref al tail e re l → Synced read ref e re l →
    ∃ l', rightShift read ref l = .ok l' ∧ Aligned read ref al tail e re l' ∧
      ∀ a r, l = a :: r → ∃ a' r', l' = a' :: r' ∧ a.position ≤ a'.position := by
  intro n
  induction n with
  | zero =>
    intro l e re hn _ _ hA _
    have : l = [] := List.length_eq_zero.1 hn
    subst this
    exact ⟨[], rfl, hA, fun a r h => by cases h⟩
  | succ k ih =>
    intro l e re hn h0 h0' hA hS
    match l, hn, hA, hS with
    | [a], _, hA, _ =>
      refine ⟨[a], rfl, hA, ?_⟩
      intro a₁ r h
      cases h
      exact ⟨a, [], rfl, le_refl _⟩
    | p :: a :: rest, hn, hA, hS =>
      obtain ⟨p', hp', f1, f2, f3, f4, f5⟩ := rightShiftPair_sound hal htail h0 h0' hA hS
      obtain ⟨a1, a2, a3⟩ := hA
      obtain ⟨s1, s2, s3⟩ := hS
      have hpe := position_le_indelEnd p
      have hip := insLength_nonneg p
      obtain ⟨rest', hrest, hA', hfirst⟩ := ih (a :: rest) (indelEnd p)
        (re + (p.position - e) + insLength p) (by simpa using hn) (by omega) (by omega) a3 s3
      obtain ⟨a', r', hl', hmono⟩ := hfirst a rest rfl
      subst hl'
      refine ⟨p' :: a' :: r', ?_, ⟨by omega, f5, ?_⟩, ?_⟩
      · simp only [rightShift, hp', hrest, bind, Except.bind]
      · have hsh := hA'.shrink (g := p'.position - p.position) (by omega)
          (by rw [← indelEnd_moved f1 f2]; omega)
        rw [← indelEnd_moved f1 f2] at hsh
        rw [insLength_moved f1 f2]
        have e1 : re + (p.position - e) + insLength p + (p'.position - p.position)
            = re + (p'.position - e) + insLength p := by ring
        rw [e1] at hsh
        exact hsh
      · intro a₁ r h
        cases h
        exact ⟨p', a' :: r', rfl, f3⟩
/-! ## The reconstruction writes a consistent cigar -/

theorem matchRun_iff (read ref : List Char) (rp sp : Int) : ∀ (n : Nat),
    matchRun read ref rp sp n = true ↔
      ∀ j : Nat, j < n → ∃ c, getAt read (rp + j) = some c ∧ getAt ref (sp + j) = some c := by
  intro n
  induction n with
  | zero => simp [matchRun]
  | succ k ih =>
    simp only [matchRun, Bool.and_eq_true, ih]
    constructor
    · rintro ⟨h1, h2⟩ j hj
      by_cases hjk : j < k
      · exact h1 j hjk
      · have : j = k := by omega
        subst this
        split at h2
        · rename_i x y hx hy
          simp at h2
          exact ⟨x, hx, by rw [hy, h2]⟩
        · cases h2
    · intro h
      refine ⟨fun j hj => h j (by omega), ?_⟩
      obtain ⟨c, h1, h2⟩ := h k (by omega)
      rw [h1, h2]
      simp

/-- Matching bases inside the reference are a run of equal columns. -/
theorem matchRun_of_matches {read ref : List Char} {rp sp : Int} {n : Nat}
    (h : Matches read ref rp sp n) (h0 : 0 ≤ sp) (h1 : sp + n ≤ (ref.length : Int)) :
    matchRun read ref rp sp n = true := by
  rw [matchRun_iff]
  intro j hj
  obtain ⟨c, hc⟩ := getAt_isSome ref (x := sp + j) (by omega) (by omega)
  exact ⟨c, by rw [h j (by omega) (by omega), hc], hc⟩

theorem Reaches.start (read ref : List Char) : Reaches read ref [] 0 0 :=
  fun _ h => h

theorem cigar_append_single (c : Cigar) (op : Nat × Char) (d : Cigar) :
    c ++ [op] ++ d = c ++ op :: d := by
  simp

theorem indelEnd_eq (a : VCFIndelAllele) :
    indelEnd a = a.position + (if a.insertion then 0 else (a.length : Int)) := by
  unfold indelEnd
  split <;> simp

theorem ite_cast_add (b : Bool) (n l : Nat) :
    (if b then 0 else ((n + l : Nat) : Int))
      = (if b then 0 else (n : Int)) + (if b then 0 else (l : Int)) := by
  cases b <;> simp

theorem ite_cast_add' (b : Bool) (n l : Nat) :
    (if b then ((n + l : Nat) : Int) else 0)
      = (if b then (n : Int) else 0) + (if b then (l : Int) else 0) := by
  cases b <;> simp

theorem Reaches.softClip {read ref : List Char} {c : Cigar} {rp sp : Int} (n : Nat)
    (h : Reaches read ref c rp sp) : Reaches read ref (c ++ [(n, 'S')]) (rp + n) sp := by
  intro d hd
  rw [cigar_append_single]
  apply h
  simp only [consistentFrom]
  simpa using hd

theorem Reaches.matched {read ref : List Char} {c : Cigar} {rp sp : Int} (n : Nat)
    (h : Reaches read ref c rp sp) (hm : matchRun read ref rp sp n = true) :
    Reaches read ref (c ++ [(n, 'M')]) (rp + n) (sp + n) := by
  intro d hd
  rw [cigar_append_single]
  apply h
  simp only [consistentFrom]
  simp [hm, hd]

theorem consistentFrom_indel (read ref : List Char) (rp sp : Int) (n : Nat)
    (a : VCFIndelAllele) (d : Cigar) :
    consistentFrom read ref rp sp ((n, indelKind a) :: d)
      = consistentFrom read ref (rp + (if a.insertion then (n : Int) else 0))
          (sp + (if a.insertion then 0 else (n : Int))) d := by
  cases hk : a.insertion
  · simp [consistentFrom, indelKind, hk]
  · simp [consistentFrom, indelKind, hk]

/-- The reconstruction loop after the first indel writes a mismatch-free start of a cigar
that ends at the end of the last indel. -/
theorem rebuild_sound {read ref : List Char} {al tail : Int} (hal : al ≤ (ref.length : Int)) :
    ∀ (rest : List VCFIndelAllele) (init : Cigar) (n : Nat) (last : VCFIndelAllele)
      (r0 s0 : Int) (c' : Cigar) (e : Int),
    Reaches read ref init r0 s0 → 0 ≤ s0 + (if last.insertion then 0 else (n : Int)) →
    Aligned read ref al tail (s0 + (if last.insertion then 0 else (n : Int)))
      (r0 + (if last.insertion then (n : Int) else 0)) rest →
    indelEnd last = s0 + (if last.insertion then 0 else (n : Int)) →
    rebuild (init ++ [(n, indelKind last)]) last rest = .ok (c', e) →
    ∃ r, Reaches read ref c' r e ∧ 0 ≤ e ∧ Aligned read ref al tail e r [] := by
  intro rest
  induction rest with
  | nil =>
    intro init n last r0 s0 c' e hR h0 hA hE h
    simp only [rebuild] at h
    cases h
    refine ⟨r0 + (if last.insertion then (n : Int) else 0), ?_, by omega, by rw [hE]; exact hA⟩
    intro d hd
    rw [cigar_append_single]
    apply hR
    rw [consistentFrom_indel, ← hE]
    exact hd
  | cons a rest ih =>
    intro init n last r0 s0 c' e hR h0 hA hE h
    obtain ⟨a1, a2, a3⟩ := hA
    obtain ⟨b1, -⟩ := a3.bounds
    have hEa := indelEnd_eq a
    have hIa : insLength a = if a.insertion then (a.length : Int) else 0 := rfl
    unfold rebuild at h
    split at h
    · cases h
    · rename_i h1
      split at h
      · rename_i h2
        rw [extendBack_concat] at h
        have hk : indelKind last = indelKind a := by simp [indelKind, h2.2]
        simp only at h
        rw [hk] at h
        obtain ⟨h2a, h2b⟩ := h2
        rw [h2b] at hEa hIa
        refine ih init (n + a.length) a r0 s0 c' e hR ?_ ?_ ?_ h
        · rw [h2b, ite_cast_add]
          omega
        · have e1 : s0 + (if a.insertion then 0 else ((n + a.length : Nat) : Int)) = indelEnd a := by
            rw [h2b, ite_cast_add]
            omega
          have e2 : r0 + (if a.insertion then ((n + a.length : Nat) : Int) else 0)
              = r0 + (if last.insertion then (n : Int) else 0)
                + (a.position - (s0 + (if last.insertion then 0 else (n : Int))))
                + insLength a := by
            rw [h2b, ite_cast_add']
            omega
          rw [e1, e2]
          exact a3
        · rw [h2b, ite_cast_add]
          omega
      · rename_i h2
        split at h
        · rename_i h3
          have hc : init ++ [(n, indelKind last)]
              ++ [((a.position - indelEnd last).toNat, 'M'), (a.length, indelKind a)]
              = (init ++ [(n, indelKind last)] ++ [((a.position - indelEnd last).toNat, 'M')])
                ++ [(a.length, indelKind a)] := by simp
          rw [hc] at h
          have hgap : ((a.position - indelEnd last).toNat : Int) = a.position - indelEnd last := by
            omega
          have hR1 : Reaches read ref (init ++ [(n, indelKind last)])
              (r0 + (if last.insertion then (n : Int) else 0)) (indelEnd last) := by
            intro d hd
            rw [cigar_append_single]
            apply hR
            rw [consistentFrom_indel, ← hE]
            exact hd
          have hm : matchRun read ref (r0 + (if last.insertion then (n : Int) else 0))
              (indelEnd last) (a.position - indelEnd last).toNat = true := by
            apply matchRun_of_matches
            · rw [hgap, hE]; exact a2
            · omega
            · omega
          have hR2 := hR1.matched _ hm
          rw [hgap] at hR2
          refine ih _ a.length a _ _ c' e hR2 ?_ ?_ ?_ h
          · omega
          · have e1 : indelEnd last + (a.position - indelEnd last)
                + (if a.insertion then 0 else (a.length : Int)) = indelEnd a := by
              omega
            have e2 : r0 + (if last.insertion then (n : Int) else 0)
                  + (a.position - indelEnd last) + (if a.insertion then (a.length : Int) else 0)
                = r0 + (if last.insertion then (n : Int) else 0)
                  + (a.position - (s0 + (if last.insertion then 0 else (n : Int))))
                  + insLength a := by
              rw [hIa, hE]
            rw [e1, e2]
            exact a3
          · omega
        · omega

/-- The reconstruction of a mismatch-free alignment is a consistent cigar. -/
theorem reconstruct_sound {read ref sb se : List Char} {al : Int} {last : VCFIndelAllele}
    {rest : List VCFIndelAllele} {c : Cigar} (hal : al ≤ (ref.length : Int))
    (hA : Aligned read ref al se.length 0 sb.length (last :: rest))
    (h : reconstruct sb se al (last :: rest) = .ok c) : Consistent read ref c := by
  obtain ⟨a1, a2, a3⟩ := hA
  obtain ⟨b1, -⟩ := a3.bounds
  have hpe := position_le_indelEnd last
  simp only [reconstruct] at h
  rw [bind_ok] at h
  obtain ⟨⟨c2, e⟩, h1, h2⟩ := h
  simp only at h2
  have hc0 : Reaches read ref (if sb ≠ [] then [(sb.length, 'S')] else []) sb.length 0 := by
    by_cases hsb : sb = []
    · simp only [hsb, ne_eq, not_true_eq_false, if_false, List.length_nil]
      exact Reaches.start read ref
    · simp only [hsb, ne_eq, not_false_eq_true, if_true]
      have := (Reaches.start read ref).softClip sb.length
      simpa using this
  have hinit : ∃ init, (if last.position > 0 then
        (if sb ≠ [] then [(sb.length, 'S')] else [])
          ++ [(last.position.toNat, 'M'), (last.length, indelKind last)]
      else (if sb ≠ [] then [(sb.length, 'S')] else []) ++ [(last.length, indelKind last)])
      = init ++ [(last.length, indelKind last)] ∧
      Reaches read ref init (sb.length + last.position) last.position := by
    by_cases hp : last.position > 0
    · refine ⟨(if sb ≠ [] then [(sb.length, 'S')] else []) ++ [(last.position.toNat, 'M')], ?_, ?_⟩
      · simp [hp]
      · have hcast : ((last.position.toNat : Nat) : Int) = last.position := by omega
        have hm : matchRun read ref sb.length 0 last.position.toNat = true := by
          apply matchRun_of_matches
          · rw [hcast]
            have e1 : last.position - 0 = last.position := by ring
            rw [e1] at a2
            exact a2
          · exact le_refl _
          · omega
        have := hc0.matched _ hm
        rw [hcast] at this
        simpa using this
    · refine ⟨(if sb ≠ [] then [(sb.length, 'S')] else []), ?_, ?_⟩
      · simp [hp]
      · have : last.position = 0 := by omega
        rw [this]
        simpa using hc0
  obtain ⟨init, hi1, hi2⟩ := hinit
  rw [hi1] at h1
  have hE := indelEnd_eq last
  obtain ⟨r, hR, he0, hAe⟩ := @rebuild_sound read ref al
    (se.length : Int) hal rest init last.length last _ _ c2 e hi2 (by omega)
    (by
      have e1 : last.position + (if last.insertion then 0 else (last.length : Int))
          = indelEnd last := by omega
      have e2 : (sb.length : Int) + last.position
          + (if last.insertion then (last.length : Int) else 0)
          = sb.length + (last.position - 0) + insLength last := by
        simp only [insLength]
        ring
      rw [e1, e2]
      exact a3)
    hE h1
  obtain ⟨g1, g2, g3⟩ := hAe
  have hc3 : Reaches read ref (if e < al then c2 ++ [((al - e).toNat, 'M')] else c2)
      (r + (al - e)) al := by
    by_cases hlt : e < al
    · rw [if_pos hlt]
      have hcast : (((al - e).toNat : Nat) : Int) = al - e := by omega
      have hm : matchRun read ref r e (al - e).toNat = true := by
        apply matchRun_of_matches
        · rw [hcast]; exact g2
        · exact he0
        · omega
      have := hR.matched _ hm
      rw [hcast] at this
      have e1 : e + (al - e) = al := by ring
      rw [e1] at this
      exact this
    · rw [if_neg hlt]
      have : e = al := by omega
      subst this
      simpa using hR
  cases h2
  unfold Consistent
  by_cases hse : se = []
  · simp only [hse, ne_eq, not_true_eq_false, if_false]
    have := hc3 [] (by
      simp only [consistentFrom, Bool.and_eq_true, decide_eq_true_eq]
      simp only [hse, List.length_nil] at g3
      exact ⟨by omega, hal⟩)
    simpa using this
  · simp only [hse, ne_eq, not_false_eq_true, if_true]
    have := (hc3.softClip se.length) [] (by
      simp only [consistentFrom, Bool.and_eq_true, decide_eq_true_eq]
      exact ⟨by omega, hal⟩)
    simpa using this
/-! ## The extraction of a consistent cigar -/

theorem consistentFrom_bounds (read ref : List Char) : ∀ (c : Cigar) (rp sp : Int),
    consistentFrom read ref rp sp c = true →
      rp ≤ (read.length : Int) ∧ sp ≤ (ref.length : Int) := by
  intro c
  induction c with
  | nil =>
    intro rp sp h
    simp only [consistentFrom, Bool.and_eq_true, decide_eq_true_eq] at h
    omega
  | cons op rest ih =>
    intro rp sp h
    obtain ⟨l, t⟩ := op
    simp only [consistentFrom] at h
    split at h
    · simp only [Bool.and_eq_true] at h
      have := ih _ _ h.2
      omega
    · split at h
      · have := ih _ _ h
        omega
      · split at h
        · have := ih _ _ h
          omega
        · exact ih _ _ h

theorem indelsFrom_match (read ref : List Char) (rp sp : Int) (l : Nat) (cs : Cigar) :
    indelsFrom read ref rp sp ((l, 'M') :: cs) = indelsFrom read ref (rp + l) (sp + l) cs := by
  simp [indelsFrom]

theorem indelsFrom_deletion (read ref : List Char) (rp sp : Int) (l : Nat) (cs : Cigar) :
    indelsFrom read ref rp sp ((l, 'D') :: cs) =
      ⟨false, l, sp, rp, (ref.drop sp.toNat).take l⟩ :: indelsFrom read ref rp (sp + l) cs := by
  simp [indelsFrom]

theorem indelsFrom_insertion (read ref : List Char) (rp sp : Int) (l : Nat) (cs : Cigar) :
    indelsFrom read ref rp sp ((l, 'I') :: cs) =
      ⟨true, l, sp, rp, (read.drop rp.toNat).take l⟩ :: indelsFrom read ref (rp + l) sp cs := by
  simp [indelsFrom]

theorem matches_of_matchRun {read ref : List Char} {rp sp : Int} {n : Nat}
    (h : matchRun read ref rp sp n = true) : Matches read ref rp sp n := by
  rw [matchRun_iff] at h
  intro j h0 hj
  obtain ⟨k, rfl⟩ := Int.eq_ofNat_of_zero_le h0
  obtain ⟨c, h1, h2⟩ := h k (by omega)
  rw [h1, h2]

theorem Matches.zero (read ref : List Char) (re e : Int) : Matches read ref re e 0 :=
  fun j h0 h1 => by omega

/-- The characters taken from a sequence at an offset inside it are its characters there. -/
theorem taken_seqOK (s : List Char) (x : Int) (l : Nat) (h0 : 0 ≤ x)
    (h1 : x + l ≤ (s.length : Int)) :
    ((s.drop x.toNat).take l).length = l ∧
      ∀ j : Nat, j < l → ∃ c, ((s.drop x.toNat).take l)[j]? = some c ∧
        getAt s (x + j) = some c := by
  constructor
  · simp only [List.length_take, List.length_drop]
    omega
  · intro j hj
    obtain ⟨c, hc⟩ := getAt_isSome s (x := x + j) (by omega) (by omega)
    refine ⟨c, ?_, hc⟩
    rw [substr_getAt (substr_ok h0 (by omega)) j hj, hc]

/-- The extraction loop on Match, Insertion and Deletion operations of a consistent cigar
returns, adding the indels of these operations; these indels, placed after any matching
bases before the cursors, describe a mismatch-free alignment up to the cursors reached. -/
theorem extract_body {read ref : List Char} (trail : Cigar) : ∀ (body : Cigar)
    (st : Extraction), (∀ op ∈ body, op.2 = 'M' ∨ op.2 = 'I' ∨ op.2 = 'D') →
    (∀ op ∈ body, 1 ≤ op.1) →
    Padded read ref st → consistentFrom read ref st.rp st.sp (body ++ trail) = true →
    ∃ st', extract read ref st body = .ok st' ∧
      st'.indels = st.indels ++ indelsFrom read ref st.rp st.sp body ∧
      st'.softBegin = st.softBegin ∧ st'.softEnd = st.softEnd ∧ Padded read ref st' ∧
      consistentFrom read ref st'.rp st'.sp trail = true ∧
      ∀ e re : Int, e ≤ st.sp → st.rp - re = st.sp - e → Matches read ref re e (st.sp - e) →
        Aligned read ref st'.sp ((read.length : Int) - st'.rp) e re
            (indelsFrom read ref st.rp st.sp body) ∧
          Synced read ref e re (indelsFrom read ref st.rp st.sp body) := by
  intro body
  induction body with
  | nil =>
    intro st _ _ hP hc
    refine ⟨st, rfl, by simp [indelsFrom], rfl, rfl, hP, by simpa using hc, ?_⟩
    intro e re h1 h2 h3
    refine ⟨⟨h1, h3, by omega⟩, trivial⟩
  | cons op rest ih =>
    intro st hk hpos hP hc
    obtain ⟨l, t⟩ := op
    have hrest : ∀ o ∈ rest, o.2 = 'M' ∨ o.2 = 'I' ∨ o.2 = 'D' :=
      fun o ho => hk o (List.mem_cons_of_mem _ ho)
    have hprest : ∀ o ∈ rest, 1 ≤ o.1 := fun o ho => hpos o (List.mem_cons_of_mem _ ho)
    have hl : 1 ≤ l := hpos (l, t) (by simp)
    obtain ⟨p1, p2, p3, p4, p5, p6⟩ := hP
    have hcur := consistentFrom_bounds read ref _ _ _ hc
    have hc' : consistentFrom read ref st.rp st.sp ((l, t) :: (rest ++ trail)) = true := hc
    rcases hk (l, t) (by simp) with ht | ht | ht
    · simp only at ht
      subst ht
      simp only [consistentFrom, if_true, Bool.and_eq_true] at hc'
      obtain ⟨st', e1, e2, e3, e4, e5, e6, e7⟩ :=
        ih { st with sp := st.sp + l, rp := st.rp + l } hrest hprest
        ⟨by simp only; omega, by simp only; omega, p3, p4, p5, p6⟩ hc'.2
      refine ⟨st', ?_, ?_, e3, e4, e5, e6, ?_⟩
      · simp only [extract, extractOp_match, bind, Except.bind]
        exact e1
      · rw [e2, indelsFrom_match]
      · intro e re h1 h2 h3
        rw [indelsFrom_match]
        refine e7 e re (by simp only; omega) (by simp only; omega) ?_
        have hM := matches_of_matchRun hc'.1
        have hM' : Matches read ref (re + (st.sp - e)) (e + (st.sp - e)) l := by
          have q1 : re + (st.sp - e) = st.rp := by omega
          have q2 : e + (st.sp - e) = st.sp := by omega
          rw [q1, q2]
          exact hM
        have := h3.concat hM'
        have q3 : st.sp - e + (l : Int) = st.sp + l - e := by ring
        rw [q3] at this
        exact this
    · simp only at ht
      subst ht
      simp only [consistentFrom] at hc'
      simp at hc'
      have hb := consistentFrom_bounds read ref _ _ _ hc'
      have hsub : substr read st.rp l = .ok ((read.drop st.rp.toNat).take l) :=
        substr_ok p1 (by omega)
      have hins := @strInsert_ok st.alignedReferenceSequence
        (st.sp + st.softBegin.length + st.arsOffset) (List.replicate l '-')
        (by omega) (by omega)
      obtain ⟨st', e1, e2, e3, e4, e5, e6, e7⟩ := ih
        { st with
          indels := st.indels ++ [⟨true, l, st.sp, st.rp, (read.drop st.rp.toNat).take l⟩]
          alignedReferenceSequence :=
            st.alignedReferenceSequence.take (st.sp + st.softBegin.length + st.arsOffset).toNat
              ++ List.replicate l '-'
              ++ st.alignedReferenceSequence.drop
                (st.sp + st.softBegin.length + st.arsOffset).toNat
          arsOffset := st.arsOffset + l
          rp := st.rp + l } hrest hprest
        ⟨by simp only; omega, p2, p3, p4, by simp only; omega, by
          simp only [List.length_append, List.length_take, List.length_drop,
            List.length_replicate]
          omega⟩ hc'
      refine ⟨st', ?_, ?_, e3, e4, e5, e6, ?_⟩
      · simp only [extract, extractOp_insertion, hsub, hins, bind, Except.bind]
        exact e1
      · rw [e2, indelsFrom_insertion]
        simp
      · intro e re h1 h2 h3
        rw [indelsFrom_insertion]
        have hseq := taken_seqOK read st.rp l p1 hb.1
        have k1 : indelEnd ⟨true, l, st.sp, st.rp, (read.drop st.rp.toNat).take l⟩ = st.sp :=
          rfl
        have k2 : insLength ⟨true, l, st.sp, st.rp, (read.drop st.rp.toNat).take l⟩
            = (l : Int) := rfl
        have k3 : re + (st.sp - e) + (l : Int) = st.rp + l := by omega
        obtain ⟨f1, f2⟩ := e7 st.sp (st.rp + l) (le_refl _) (by simp only; omega)
          (by
            simp only [sub_self]
            exact Matches.zero _ _ _ _)
        simp only [Aligned, Synced, k1, k2, k3]
        exact ⟨⟨h1, h3, f1⟩, by omega, ⟨hl, hseq.1, hseq.2⟩, f2⟩
    · simp only at ht
      subst ht
      simp only [consistentFrom] at hc'
      simp at hc'
      have hb := consistentFrom_bounds read ref _ _ _ hc'
      have hsub : substr ref st.sp l = .ok ((ref.drop st.sp.toNat).take l) :=
        substr_ok p2 (by omega)
      have hins := @strInsert_ok st.alignmentAlignedBases
        (st.rp + st.aabOffset) (List.replicate l '-') (by omega) (by omega)
      obtain ⟨st', e1, e2, e3, e4, e5, e6, e7⟩ := ih
        { st with
          indels := st.indels ++ [⟨false, l, st.sp, st.rp, (ref.drop st.sp.toNat).take l⟩]
          alignmentAlignedBases :=
            st.alignmentAlignedBases.take (st.rp + st.aabOffset).toNat
              ++ List.replicate l '-'
              ++ st.alignmentAlignedBases.drop (st.rp + st.aabOffset).toNat
          aabOffset := st.aabOffset + l
          sp := st.sp + l } hrest hprest
        ⟨p1, by simp only; omega, by simp only; omega, by
          simp only [List.length_append, List.length_take, List.length_drop,
            List.length_replicate]
          omega, p5, p6⟩ hc'
      refine ⟨st', ?_, ?_, e3, e4, e5, e6, ?_⟩
      · simp only [extract, extractOp_deletion, hsub, hins, bind, Except.bind]
        exact e1
      · rw [e2, indelsFrom_deletion]
        simp
      · intro e re h1 h2 h3
        rw [indelsFrom_deletion]
        have hseq := taken_seqOK ref st.sp l p2 hb.2
        have k1 : indelEnd ⟨false, l, st.sp, st.rp, (ref.drop st.sp.toNat).take l⟩
            = st.sp + l := rfl
        have k2 : insLength ⟨false, l, st.sp, st.rp, (ref.drop st.sp.toNat).take l⟩
            = 0 := rfl
        have k3 : re + (st.sp - e) + 0 = st.rp := by omega
        obtain ⟨f1, f2⟩ := e7 (st.sp + l) st.rp (le_refl _) (by simp only; omega)
          (by
            simp only [sub_self]
            exact Matches.zero _ _ _ _)
        simp only [Aligned, Synced, k1, k2, k3]
        exact ⟨⟨h1, h3, f1⟩, by omega, ⟨hl, hseq.1, hseq.2⟩, f2⟩

/-- The extraction over the leading soft clip, if any, of a consistent cigar. -/
theorem extract_lead {read ref : List Char} {lead rest : Cigar}
    (hlead : lead = [] ∨ ∃ n, lead = [(n, 'S')])
    (hc : consistentFrom read ref 0 0 (lead ++ rest) = true) :
    ∃ st, extract read ref (Extraction.start read ref) lead = .ok st ∧ st.indels = [] ∧
      st.sp = 0 ∧ st.rp = (st.softBegin.length : Int) ∧ st.softEnd = [] ∧
      Padded read ref st ∧ consistentFrom read ref st.rp st.sp rest = true := by
  rcases hlead with rfl | ⟨n, rfl⟩
  · refine ⟨Extraction.start read ref, rfl, rfl, rfl, rfl, rfl, ?_, hc⟩
    simp [Padded, Extraction.start]
  · have hc' : consistentFrom read ref 0 0 ((n, 'S') :: rest) = true := hc
    simp only [consistentFrom] at hc'
    simp at hc'
    have hb := consistentFrom_bounds read ref _ _ _ hc'
    have hsub : substr (Extraction.start read ref).alignmentAlignedBases 0 n
        = .ok ((read.drop (0 : Int).toNat).take n) :=
      substr_ok (le_refl _) (by simp)
    refine ⟨{ Extraction.start read ref with
        alignedReferenceSequence := List.replicate n '*' ++ ref
        softBegin := (read.drop (0 : Int).toNat).take n
        rp := 0 + n }, ?_, rfl, rfl, ?_, rfl, ?_, ?_⟩
    · simp only [extract, extractOp_clip, bind, Except.bind]
      have h0 : (Extraction.start read ref).rp = 0 := rfl
      rw [if_pos h0, hsub]
      rfl
    · simp only [List.length_take, List.length_drop]
      simp
      omega
    · simp only [Padded, Extraction.start, List.length_take, List.length_drop,
        List.length_append, List.length_replicate]
      simp
      omega
    · simpa using hc'

/-- The extraction over the trailing soft clip, if any, of a consistent cigar: the clip is
captured as `softEnd`, or as `softBegin` when no read base has been consumed before it. -/
theorem extract_trail {read ref : List Char} {trail : Cigar} {st : Extraction}
    (htrail : trail = [] ∨ ∃ n, trail = [(n, 'S')]) (hP : Padded read ref st)
    (hc : consistentFrom read ref st.rp st.sp trail = true) (hse : st.softEnd = []) :
    ∃ st', extract read ref st trail = .ok st' ∧ st'.indels = st.indels ∧ st'.sp = st.sp ∧
      st.sp ≤ (ref.length : Int) ∧ 0 ≤ (read.length : Int) - st.rp ∧
      ((st'.softBegin.length = st.softBegin.length ∧
          (st'.softEnd.length : Int) = (read.length : Int) - st.rp) ∨
        (st.rp = 0 ∧ (st'.softBegin.length : Int) = (read.length : Int) ∧
          st'.softEnd.length = 0)) := by
  obtain ⟨p1, p2, p3, p4, p5, p6⟩ := hP
  rcases htrail with rfl | ⟨n, rfl⟩
  · simp only [consistentFrom, Bool.and_eq_true, decide_eq_true_eq] at hc
    refine ⟨st, rfl, rfl, rfl, hc.2, by omega, Or.inl ⟨rfl, ?_⟩⟩
    rw [hse]
    simp
    omega
  · simp only [consistentFrom] at hc
    simp at hc
    by_cases h0 : st.rp = 0
    · have hsub : substr st.alignmentAlignedBases 0 n
          = .ok ((st.alignmentAlignedBases.drop (0 : Int).toNat).take n) :=
        substr_ok (le_refl _) (by omega)
      refine ⟨{ st with
          alignedReferenceSequence := List.replicate n '*' ++ st.alignedReferenceSequence
          softBegin := (st.alignmentAlignedBases.drop (0 : Int).toNat).take n
          rp := st.rp + n }, ?_, rfl, rfl, hc.2, by omega, Or.inr ⟨h0, ?_, ?_⟩⟩
      · simp only [extract, extractOp_clip, bind, Except.bind]
        rw [if_pos h0, hsub]
      · simp only [List.length_take, List.length_drop]
        simp
        omega
      · rw [hse]
        rfl
    · have hsub : substr st.alignmentAlignedBases
          ((st.alignmentAlignedBases.length : Int) - n) n
          = .ok ((st.alignmentAlignedBases.drop
              ((st.alignmentAlignedBases.length : Int) - n).toNat).take n) :=
        substr_ok (by omega) (by omega)
      refine ⟨{ st with
          alignedReferenceSequence := st.alignedReferenceSequence ++ List.replicate n '*'
          softEnd := (st.alignmentAlignedBases.drop
              ((st.alignmentAlignedBases.length : Int) - n).toNat).take n
          rp := st.rp + n }, ?_, rfl, rfl, hc.2, by omega, Or.inl ⟨rfl, ?_⟩⟩
      · simp only [extract, extractOp_clip, bind, Except.bind]
        rw [if_neg h0, hsub]
      · simp only [List.length_take, List.length_drop]
        omega

/-- An alignment whose read bases are all in the trailing clip is an alignment that starts
after these bases and has no trailing clip. -/
theorem Aligned.collapse {read ref : List Char} {al tail : Int} :
    ∀ (l : List VCFIndelAllele) (e re : Int), Aligned read ref al tail e re l →
      re + tail = (read.length : Int) → Aligned read ref al 0 e (re + tail) l := by
  intro l
  induction l with
  | nil =>
    intro e re h hr
    obtain ⟨h1, -, h3⟩ := h
    exact ⟨h1, fun j h0 hj => by omega, by omega⟩
  | cons a rest ih =>
    intro e re h hr
    obtain ⟨h1, -, h3⟩ := h
    obtain ⟨-, b2⟩ := h3.bounds
    have hi := insLength_nonneg a
    have hz : re + (a.position - e) + insLength a = re := by omega
    rw [hz] at h3
    have hz' : re + tail + (a.position - e) + insLength a = re + tail := by omega
    refine ⟨h1, fun j h0 hj => by omega, ?_⟩
    rw [hz']
    exact ih _ _ h3 hr

/-- The extraction of a consistent cigar with soft clips at its ends only returns, and its
indels describe a mismatch-free alignment of the read between the clipped bases. -/
theorem extract_sound {read ref : List Char} {cigar : Cigar} (hshape : ClipsAtEnds cigar)
    (hk : ∀ op ∈ cigar, op.2 = 'M' ∨ op.2 = 'I' ∨ op.2 = 'D' ∨ op.2 = 'S')
    (hpos : ∀ op ∈ cigar, 1 ≤ op.1) (hc : Consistent read ref cigar) :
    ∃ (st : Extraction) (s tail : Int),
      extract read ref (Extraction.start read ref) cigar = .ok st ∧
      st.sp ≤ (ref.length : Int) ∧ 0 ≤ s ∧ 0 ≤ tail ∧
      Aligned read ref st.sp tail 0 s st.indels ∧ Synced read ref 0 s st.indels ∧
      ((s = (st.softBegin.length : Int) ∧ tail = (st.softEnd.length : Int)) ∨
        (s + tail = (read.length : Int) ∧ (st.softBegin.length : Int) = s + tail ∧
          st.softEnd.length = 0)) := by
  obtain ⟨lead, body, trail, rfl, hlead, hbody, htrail⟩ := hshape
  have hc0 : consistentFrom read ref 0 0 (lead ++ (body ++ trail)) = true := by
    have := hc
    unfold Consistent at this
    rwa [List.append_assoc] at this
  obtain ⟨s1, a1, a2, a3, a4, a5, a6, a7⟩ := extract_lead hlead hc0
  have hkb : ∀ op ∈ body, op.2 = 'M' ∨ op.2 = 'I' ∨ op.2 = 'D' := by
    intro op hop
    rcases hk op (by simp [hop]) with h | h | h | h
    · exact Or.inl h
    · exact Or.inr (Or.inl h)
    · exact Or.inr (Or.inr h)
    · exact absurd h (hbody op hop)
  have hpb : ∀ op ∈ body, 1 ≤ op.1 := fun op hop => hpos op (by simp [hop])
  obtain ⟨s2, b1, b2, b3, b4, b5, b6, b7⟩ := extract_body trail body s1 hkb hpb a6 a7
  obtain ⟨s3, c1, c2, c3, c4, c5, c6⟩ := extract_trail htrail b5 b6 (by rw [b4, a5])
  obtain ⟨d1, d2⟩ := b7 0 s1.rp (by omega) (by omega) (by
    rw [a3]
    exact Matches.zero _ _ _ _)
  have hi : s3.indels = indelsFrom read ref s1.rp s1.sp body := by
    rw [c2, b2, a2]
    rfl
  have hb := d1.bounds
  refine ⟨s3, s1.rp, (read.length : Int) - s2.rp, ?_, ?_, a6.1, c5, ?_, ?_, ?_⟩
  · rw [extract_append, bind_ok]
    refine ⟨s2, ?_, c1⟩
    rw [extract_append, bind_ok]
    exact ⟨s1, a1, b1⟩
  · rw [c3]
    exact c4
  · rw [hi, c3]
    exact d1
  · rw [hi]
    exact d2
  · rcases c6 with ⟨g1, g2⟩ | ⟨g1, g2, g3⟩
    · left
      rw [g1, b3, g2]
      exact ⟨a4, rfl⟩
    · right
      have := a6.1
      refine ⟨by omega, by omega, g3⟩
/-! ## No mismatch is introduced -/

/-- C1: `leftAlign` never introduces mismatches.  For every read, reference and operation
sequence made only of Match, Insertion and Deletion operations, with at most one leading
and one trailing SoftClip, all of positive length, that is consistent with the read and the
reference (the read-consuming lengths sum to the read length, the reference-consuming
lengths fit in the reference, and every Match column pairs equal bases), one pass of
`leftAlign` returns, and the operation sequence it leaves is again consistent with the same
read and reference, every Match column pairing equal bases. -/
theorem leftAlign_no_mismatch (read ref : List Char) (cigar : Cigar)
    (hshape : ClipsAtEnds cigar)
    (hk : ∀ op ∈ cigar, op.2 = 'M' ∨ op.2 = 'I' ∨ op.2 = 'D' ∨ op.2 = 'S')
    (hpos : ∀ op ∈ cigar, 1 ≤ op.1) (hc : Consistent read ref cigar) :
    ∃ b c', leftAlign read cigar ref = .ok (b, c') ∧ Consistent read ref c' := by
  obtain ⟨st, s, tail, h1, hsp, hs0, ht0, hA, hS, hclip⟩ := extract_sound hshape hk hpos hc
  by_cases hi : st.indels = []
  · exact ⟨false, cigar,
      (leftAlign_ok_iff read cigar ref false cigar).2 ⟨st, h1, Or.inl ⟨hi, rfl, rfl⟩⟩, hc⟩
  · obtain ⟨shifted, h2, hA2, hS2⟩ := leftShift_sound hsp ht0 st.indels none 0 s rfl hA hS
    obtain ⟨merged, h3, hA3, -⟩ :=
      rightShift_sound hsp ht0 shifted.length shifted 0 s rfl (le_refl _) hs0 hA2 hS2
    obtain ⟨-, -, o3, f1, f2, -⟩ := phases_ordered h1 h2 h3
    obtain ⟨c', h4⟩ := reconstruct_ok st.softBegin st.softEnd st.sp 0 merged o3
    refine ⟨decide (cigarString c' ≠ cigarString cigar), c',
      (leftAlign_ok_iff read cigar ref _ c').2
        ⟨st, h1, Or.inr ⟨hi, shifted, merged, h2, h3, h4, rfl⟩⟩, ?_⟩
    have hm : merged ≠ [] := by
      intro hm
      subst hm
      have e2 := f2.length_eq
      have e1 := f1.length_eq
      simp only [List.length_nil] at e2
      rw [e2] at e1
      exact hi (List.length_eq_zero.1 e1)
    obtain ⟨last, rest, rfl⟩ := List.exists_cons_of_ne_nil hm
    rcases hclip with ⟨g1, g2⟩ | ⟨g1, g2, g3⟩
    · subst g1 g2
      exact reconstruct_sound hsp hA3 h4
    · have hA4 := Aligned.collapse _ _ _ hA3 g1
      have hA5 : Aligned read ref st.sp (st.softEnd.length : Int) 0
          (st.softBegin.length : Int) (last :: rest) := by
        rw [g2, g3, Nat.cast_zero]
        exact hA4
      exact reconstruct_sound hsp hA5 h4

/-- Instance of C1: read `GACAAT` on reference `ACAAAT` with `1S3M1D2M`, which the pass
rewrites to `1S2M1D3M`. -/
theorem leftAlign_no_mismatch_witness :
    Consistent "GACAAT".toList "ACAAAT".toList [(1, 'S'), (3, 'M'), (1, 'D'), (2, 'M')] ∧
    leftAlign "GACAAT".toList [(1, 'S'), (3, 'M'), (1, 'D'), (2, 'M')] "ACAAAT".toList
      = .ok (true, [(1, 'S'), (2, 'M'), (1, 'D'), (3, 'M')]) ∧
    ∃ b c', leftAlign "GACAAT".toList [(1, 'S'), (3, 'M'), (1, 'D'), (2, 'M')]
        "ACAAAT".toList = .ok (b, c') ∧
      Consistent "GACAAT".toList "ACAAAT".toList c' :=
  ⟨by unfold Consistent; decide, by decide,
    leftAlign_no_mismatch "GACAAT".toList "ACAAAT".toList
      [(1, 'S'), (3, 'M'), (1, 'D'), (2, 'M')]
      ⟨[(1, 'S')], [(3, 'M'), (1, 'D'), (2, 'M')], [], rfl, Or.inr ⟨1, rfl⟩, by decide,
        Or.inl rfl⟩
      (by decide) (by decide) (by unfold Consistent; decide)⟩
/-! ## The driver on a pass that settles at once or at the second pass -/

/-- When the first pass reports "unchanged", the driver returns `true` after that pass. -/
theorem stablyLeftAlign_unchanged {read ref : List Char} {cigar c' : Cigar} (m : Int)
    (h : leftAlign read cigar ref = .ok (false, c')) :
    stablyLeftAlign read ref cigar m = .ok ⟨true, c', [false]⟩ := by
  simp [stablyLeftAlign, h, bind, Except.bind]

/-- When the first pass reports "changed" and the second "unchanged", the driver returns
`true` after these two passes, for every iteration bound of at least 1. -/
theorem stablyLeftAlign_second {read ref : List Char} {cigar c2 : Cigar} (m : Int)
    (c1 : Cigar) (hm : 1 ≤ m) (h1 : leftAlign read cigar ref = .ok (true, c1))
    (h2 : leftAlign read c1 ref = .ok (false, c2)) :
    stablyLeftAlign read ref cigar m = .ok ⟨true, c2, [true, false]⟩ := by
  have hd : decide (¬ m ≤ 0) = true := by
    simp only [decide_eq_true_eq]
    omega
  simp only [stablyLeftAlign, h1, bind, Except.bind]
  unfold stablyWhile
  simp [h2, bind, Except.bind, hd]
  omega

/-! ## The examples of the specification -/

/-- C12 fails as stated: with the deletion at offset 5 of `AAAATAAAA` (cigar `5M1D3M`) the
driver returns `true` and leaves `5M1D3M`: the deletion does not cross the `T`, and the
final cigar is not `1D8M`. -/
theorem stablyLeftAlign_repeat_counterexample :
    stablyLeftAlign "AAAAAAAA".toList "AAAATAAAA".toList [(5, 'M'), (1, 'D'), (3, 'M')] 2
      = .ok ⟨true, [(5, 'M'), (1, 'D'), (3, 'M')], [false]⟩ ∧
    ([(5, 'M'), (1, 'D'), (3, 'M')] : Cigar) ≠ [(1, 'D'), (8, 'M')] := by
  decide

/-- C12, amended: for the reference `AAAATAAAA`, the read `AAAAAAAA` and the cigar
`kM 1D (8-k)M` (zero-length Match omitted), `stablyLeftAlign` with an iteration bound of at
least 2 returns `true`; the final cigar is `1D8M` for `k` in 0..3 (the deletion is in the run
of `A` left of the `T`) and `5M1D3M` for `k` in 5..8 (the deletion is in the run right of
the `T`). -/
theorem stablyLeftAlign_repeat_example (k : Nat) (m : Int) (hm : 2 ≤ m) :
    (k ∈ [0, 1, 2, 3] → ∃ passes,
      stablyLeftAlign "AAAAAAAA".toList "AAAATAAAA".toList (oneIndel k 1 'D' (8 - k)) m
        = .ok ⟨true, [(1, 'D'), (8, 'M')], passes⟩) ∧
    (k ∈ [5, 6, 7, 8] → ∃ passes,
      stablyLeftAlign "AAAAAAAA".toList "AAAATAAAA".toList (oneIndel k 1 'D' (8 - k)) m
        = .ok ⟨true, [(5, 'M'), (1, 'D'), (3, 'M')], passes⟩) := by
  constructor
  · intro hk
    simp only [List.mem_cons, List.mem_singleton, List.not_mem_nil, or_false] at hk
    rcases hk with rfl | rfl | rfl | rfl
    · exact ⟨_, stablyLeftAlign_unchanged m (by decide)⟩
    · exact ⟨_, stablyLeftAlign_second m [(1, 'D'), (8, 'M')] (by omega)
        (by decide) (by decide)⟩
    · exact ⟨_, stablyLeftAlign_second m [(1, 'D'), (8, 'M')] (by omega)
        (by decide) (by decide)⟩
    · exact ⟨_, stablyLeftAlign_second m [(1, 'D'), (8, 'M')] (by omega)
        (by decide) (by decide)⟩
  · intro hk
    simp only [List.mem_cons, List.mem_singleton, List.not_mem_nil, or_false] at hk
    rcases hk with rfl | rfl | rfl | rfl
    · exact ⟨_, stablyLeftAlign_unchanged m (by decide)⟩
    · exact ⟨_, stablyLeftAlign_second m [(5, 'M'), (1, 'D'), (3, 'M')] (by omega)
        (by decide) (by decide)⟩
    · exact ⟨_, stablyLeftAlign_second m [(5, 'M'), (1, 'D'), (3, 'M')] (by omega)
        (by decide) (by decide)⟩
    · exact ⟨_, stablyLeftAlign_second m [(5, 'M'), (1, 'D'), (3, 'M')] (by omega)
        (by decide) (by decide)⟩

/-- Instance of the amended C12: `k = 7` with the iteration bound 2. -/
theorem stablyLeftAlign_repeat_example_witness :
    (2 : Int) ≤ 2 ∧ ∃ passes,
      stablyLeftAlign "AAAAAAAA".toList "AAAATAAAA".toList (oneIndel 7 1 'D' (8 - 7)) 2
        = .ok ⟨true, [(5, 'M'), (1, 'D'), (3, 'M')], passes⟩ :=
  ⟨by decide, (stablyLeftAlign_repeat_example 7 2 (by decide)).2 (by decide)⟩

/-- C13: for the reference `GTGTGACGTGT` and the 2-base deletion at offset `p` (read: the
reference without its bases `p`, `p + 1`; cigar `pM 2D (9-p)M`, zero-length Match omitted),
`stablyLeftAlign` with an iteration bound of at least 2 returns `true`, and the final cigar
is `2D9M` for `p` in 0..3 and `7M2D2M` for `p` in 7..9. -/
theorem stablyLeftAlign_leftmost_example (p : Nat) (m : Int) (hm : 2 ≤ m) :
    (p ∈ [0, 1, 2, 3] → ∃ passes,
      stablyLeftAlign (removeWindow "GTGTGACGTGT".toList p 2) "GTGTGACGTGT".toList
        (oneIndel p 2 'D' (9 - p)) m = .ok ⟨true, [(2, 'D'), (9, 'M')], passes⟩) ∧
    (p ∈ [7, 8, 9] → ∃ passes,
      stablyLeftAlign (removeWindow "GTGTGACGTGT".toList p 2) "GTGTGACGTGT".toList
        (oneIndel p 2 'D' (9 - p)) m = .ok ⟨true, [(7, 'M'), (2, 'D'), (2, 'M')], passes⟩) := by
  constructor
  · intro hp
    simp only [List.mem_cons, List.mem_singleton, List.not_mem_nil, or_false] at hp
    rcases hp with rfl | rfl | rfl | rfl
    · exact ⟨_, stablyLeftAlign_unchanged m (by decide)⟩
    · exact ⟨_, stablyLeftAlign_second m [(2, 'D'), (9, 'M')] (by omega)
        (by decide) (by decide)⟩
    · exact ⟨_, stablyLeftAlign_second m [(2, 'D'), (9, 'M')] (by omega)
        (by decide) (by decide)⟩
    · exact ⟨_, stablyLeftAlign_second m [(2, 'D'), (9, 'M')] (by omega)
        (by decide) (by decide)⟩
  · intro hp
    simp only [List.mem_cons, List.mem_singleton, List.not_mem_nil, or_false] at hp
    rcases hp with rfl | rfl | rfl
    · exact ⟨_, stablyLeftAlign_unchanged m (by decide)⟩
    · exact ⟨_, stablyLeftAlign_second m [(7, 'M'), (2, 'D'), (2, 'M')] (by omega)
        (by decide) (by decide)⟩
    · exact ⟨_, stablyLeftAlign_second m [(7, 'M'), (2, 'D'), (2, 'M')] (by omega)
        (by decide) (by decide)⟩

/-- Instance of C13: the deletion at offset 3 with the iteration bound 2. -/
theorem stablyLeftAlign_leftmost_example_witness :
    (2 : Int) ≤ 2 ∧ ∃ passes,
      stablyLeftAlign (removeWindow "GTGTGACGTGT".toList 3 2) "GTGTGACGTGT".toList
        (oneIndel 3 2 'D' (9 - 3)) 2 = .ok ⟨true, [(2, 'D'), (9, 'M')], passes⟩ :=
  ⟨by decide, (stablyLeftAlign_leftmost_example 3 2 (by decide)).1 (by decide)⟩

/-- C14 fails as stated: on `2M5D1M` (read `GTT`, reference `GTTACGTT`) the pass does not
leave `1M5D2M`. -/
theorem leftAlign_exchange_counterexample :
    leftAlign "GTT".toList [(2, 'M'), (5, 'D'), (1, 'M')] "GTTACGTT".toList
      ≠ .ok (true, [(1, 'M'), (5, 'D'), (2, 'M')]) := by
  decide

/-- C14, amended: on `2M5D1M` (read `GTT`, reference `GTTACGTT`, alignment `GT-----T`) one
pass returns "changed" and rewrites the cigar to `5D3M` (alignment `-----GTT`): the flank
exchange moves the deletion over the `T` to offset 1 (alignment `G-----TT`), its condition
holds there again, and a second exchange moves it over the `G` to offset 0. -/
theorem leftAlign_exchange_example :
    leftAlign "GTT".toList [(2, 'M'), (5, 'D'), (1, 'M')] "GTTACGTT".toList
      = .ok (true, [(5, 'D'), (3, 'M')]) ∧
    exchangeStep ⟨false, 5, 2, 2, "TACGT".toList⟩ = .ok ⟨false, 5, 1, 1, "TTACG".toList⟩ ∧
    exchangeCond "GTT".toList "GTTACGTT".toList none ⟨false, 5, 1, 1, "TTACG".toList⟩
      = .ok true ∧
    exchangeStep ⟨false, 5, 1, 1, "TTACG".toList⟩ = .ok ⟨false, 5, 0, 0, "GTTAC".toList⟩ := by
  decide
/-! ## Kinds written by a rewriting pass -/

/-- An Insertion or Deletion operation of the cigar leaves an indel in the extraction. -/
theorem extract_hasIndel {read ref : List Char} : ∀ (cigar : Cigar) (st st' : Extraction),
    extract read ref st cigar = .ok st' →
    (st.indels ≠ [] ∨ ∃ op ∈ cigar, op.2 = 'I' ∨ op.2 = 'D') → st'.indels ≠ [] := by
  intro cigar
  induction cigar with
  | nil =>
    intro st st' h hi
    simp only [extract] at h
    cases h
    rcases hi with hi | ⟨op, hop, -⟩
    · exact hi
    · cases hop
  | cons op rest ih =>
    intro st st' h hi
    simp only [extract] at h
    rw [bind_ok] at h
    obtain ⟨s1, h1, h2⟩ := h
    refine ih s1 st' h2 ?_
    obtain ⟨-, -, new, hnew, -⟩ := extractOp_spec h1
    rcases hi with hi | ⟨o, ho, hk⟩
    · left
      rw [hnew]
      intro hcat
      exact hi (List.append_eq_nil.1 hcat).1
    · rcases List.mem_cons.1 ho with rfl | ho'
      · left
        obtain ⟨l, t⟩ := o
        simp only at hk
        rcases hk with rfl | rfl
        · rw [extractOp_insertion, bind_ok] at h1
          obtain ⟨seq, -, h1⟩ := h1
          rw [bind_ok] at h1
          obtain ⟨ars, -, h1⟩ := h1
          cases h1
          simp
        · rw [extractOp_deletion, bind_ok] at h1
          obtain ⟨seq, -, h1⟩ := h1
          rw [bind_ok] at h1
          obtain ⟨aab, -, h1⟩ := h1
          cases h1
          simp
      · exact Or.inr ⟨o, ho', hk⟩

/-- The kind of every operation is a character of the printed cigar. -/
theorem kind_mem_cigarString : ∀ (c : Cigar) (op : Nat × Char), op ∈ c →
    op.2 ∈ cigarString c := by
  intro c
  induction c with
  | nil => intro op h; cases h
  | cons x rest ih =>
    intro op h
    simp only [cigarString, List.mem_append, List.mem_cons]
    rcases List.mem_cons.1 h with rfl | h'
    · exact Or.inr (Or.inl rfl)
    · exact Or.inr (Or.inr (ih op h'))

/-- Every character of the printed cigar is a digit or the kind of an operation. -/
theorem cigarString_mem : ∀ (c : Cigar) (ch : Char), ch ∈ cigarString c →
    ch.isDigit = true ∨ ∃ op ∈ c, op.2 = ch := by
  intro c
  induction c with
  | nil => intro ch h; cases h
  | cons x rest ih =>
    intro ch h
    simp only [cigarString, List.mem_append, List.mem_cons] at h
    rcases h with h | h | h
    · exact Or.inl (decimal_isDigit _ _ h)
    · exact Or.inr ⟨x, by simp, h.symm⟩
    · rcases ih ch h with h' | ⟨op, hop, hk⟩
      · exact Or.inl h'
      · exact Or.inr ⟨op, List.mem_cons_of_mem _ hop, hk⟩

/-- C19: hard clips and skips do not survive a rewriting pass.  For every input that contains
at least one Insertion or Deletion, the cigar left by a pass of `leftAlign` has only the
kinds M, I, D and S; its Match length is the Match length of the input plus its Skip length;
and when the input has a HardClip or a Skip, the pass reports "changed". -/
theorem leftAlign_clips_skips (read ref : List Char) (cigar c' : Cigar) (b : Bool)
    (h : leftAlign read cigar ref = .ok (b, c'))
    (hi : ∃ op ∈ cigar, op.2 = 'I' ∨ op.2 = 'D') :
    (∀ op ∈ c', op.2 = 'M' ∨ op.2 = 'I' ∨ op.2 = 'D' ∨ op.2 = 'S') ∧
    kindTotal 'M' c' = kindTotal 'M' cigar + kindTotal 'N' cigar ∧
    ((∃ op ∈ cigar, op.2 = 'H' ∨ op.2 = 'N') → b = true) := by
  rw [leftAlign_ok_iff] at h
  obtain ⟨st, h1, h⟩ := h
  have hne := extract_hasIndel cigar _ st h1 (Or.inr hi)
  rcases h with ⟨hnil, -, -⟩ | ⟨-, shifted, merged, h2, h3, h4, hb⟩
  · exact absurd hnil hne
  · have hout := reconstruct_kinds _ _ _ _ _ h4
    refine ⟨?_, (leftAlign_totals h1 hne h2 h3 h4).1, ?_⟩
    · intro op hop
      rcases hout op hop with k | k | k | k
      · exact Or.inr (Or.inr (Or.inr k))
      · exact Or.inl k
      · exact Or.inr (Or.inl k)
      · exact Or.inr (Or.inr (Or.inl k))
    · rintro ⟨op, hop, hk⟩
      rw [hb]
      simp only [ne_eq, decide_eq_true_eq]
      intro heq
      have hmem := kind_mem_cigarString cigar op hop
      rw [← heq] at hmem
      rcases cigarString_mem c' _ hmem with hd | ⟨o, ho, hko⟩
      · rcases hk with k | k <;> rw [k] at hd <;> exact absurd hd (by decide)
      · have := hout o ho
        rw [hko] at this
        rcases hk with k | k <;> rw [k] at this <;>
          rcases this with t | t | t | t <;> exact absurd t (by decide)

/-- Instance of C19: the cigar `1H1M1N1D1M` on the read `AT` and the reference `ACGT` is
rewritten to `2M1D1M`. -/
theorem leftAlign_clips_skips_witness :
    leftAlign "AT".toList [(1, 'H'), (1, 'M'), (1, 'N'), (1, 'D'), (1, 'M')] "ACGT".toList
      = .ok (true, [(2, 'M'), (1, 'D'), (1, 'M')]) ∧
    (∀ op ∈ ([(2, 'M'), (1, 'D'), (1, 'M')] : Cigar),
      op.2 = 'M' ∨ op.2 = 'I' ∨ op.2 = 'D' ∨ op.2 = 'S') ∧
    kindTotal 'M' [(2, 'M'), (1, 'D'), (1, 'M')]
      = kindTotal 'M' [(1, 'H'), (1, 'M'), (1, 'N'), (1, 'D'), (1, 'M')]
        + kindTotal 'N' [(1, 'H'), (1, 'M'), (1, 'N'), (1, 'D'), (1, 'M')] ∧
    true = true :=
  ⟨by decide,
    (leftAlign_clips_skips "AT".toList "ACGT".toList
      [(1, 'H'), (1, 'M'), (1, 'N'), (1, 'D'), (1, 'M')] [(2, 'M'), (1, 'D'), (1, 'M')] true
      (by decide) ⟨(1, 'D'), by decide, by decide⟩).1,
    (leftAlign_clips_skips "AT".toList "ACGT".toList
      [(1, 'H'), (1, 'M'), (1, 'N'), (1, 'D'), (1, 'M')] [(2, 'M'), (1, 'D'), (1, 'M')] true
      (by decide) ⟨(1, 'D'), by decide, by decide⟩).2.1,
    (leftAlign_clips_skips "AT".toList "ACGT".toList
      [(1, 'H'), (1, 'M'), (1, 'N'), (1, 'D'), (1, 'M')] [(2, 'M'), (1, 'D'), (1, 'M')] true
      (by decide) ⟨(1, 'D'), by decide, by decide⟩).2.2 ⟨(1, 'H'), by decide, by decide⟩⟩
/-! ## Zero-length Match between indels of different kinds -/

/-- C15 at a concrete input: the cigar `1M1I1D1M` (read `ATC`, reference `AGC`) has positive
lengths and is consistent with the sequences; the insertion and the deletion sit at the same
reference position, and the pass writes a Match of length 0 between them. -/
theorem leftAlign_zero_length_match :
    Consistent "ATC".toList "AGC".toList [(1, 'M'), (1, 'I'), (1, 'D'), (1, 'M')] ∧
    (∀ op ∈ ([(1, 'M'), (1, 'I'), (1, 'D'), (1, 'M')] : Cigar), 1 ≤ op.1) ∧
    leftAlign "ATC".toList [(1, 'M'), (1, 'I'), (1, 'D'), (1, 'M')] "AGC".toList
      = .ok (true, [(1, 'M'), (1, 'I'), (0, 'M'), (1, 'D'), (1, 'M')]) ∧
    ¬ ∀ op ∈ ([(1, 'M'), (1, 'I'), (0, 'M'), (1, 'D'), (1, 'M')] : Cigar), 1 ≤ op.1 := by
  refine ⟨by unfold Consistent; decide, by decide, by decide, by decide⟩

/-! ## The tandem-repeat right shift -/

/-- For an earlier indel that is not a homopolymer the right-shift step leaves it as it is:
the stepped position is never below the position it started from, which is what the commit
tests first. -/
theorem rightShiftPair_tandem {read ref : List Char} {previous indel p' : VCFIndelAllele}
    (hh : previous.homopolymer = .ok false)
    (h : rightShiftPair read ref previous indel = .ok p') : p' = previous := by
  unfold rightShiftPair at h
  simp only at h
  split at h
  · rw [bind_ok] at h
    obtain ⟨homo, hhomo, h⟩ := h
    rw [hh] at hhomo
    cases hhomo
    simp only [Bool.false_eq_true, if_false] at h
    rw [bind_ok] at h
    obtain ⟨pos, hpos, h⟩ := h
    have hge := tandemWhile_ge _ _ _ hpos
    split at h
    · rename_i hc
      omega
    · cases h
      rfl
  · cases h
    rfl

/-- C17 at a concrete input: read `ACT`, reference `ACACGT`, cigar `2D2M1D1M`.  The earlier
deletion `AC` at offset 0 is not a homopolymer and lies strictly left of the later deletion
`G` at offset 4; stepping its position by its length over the window `AC` ends at offset 2,
adjacent to the later deletion; yet the right-shift step leaves it at offset 0 and the pass
reports "unchanged", while `2M3D1M` is consistent with the same sequences. -/
theorem rightShift_tandem_example :
    extract "ACT".toList "ACACGT".toList (Extraction.start "ACT".toList "ACACGT".toList)
        [(2, 'D'), (2, 'M'), (1, 'D'), (1, 'M')] >>= (fun st => .ok st.indels)
      = .ok [⟨false, 2, 0, 0, "AC".toList⟩, ⟨false, 1, 4, 2, "G".toList⟩] ∧
    VCFIndelAllele.homopolymer ⟨false, 2, 0, 0, "AC".toList⟩ = .ok false ∧
    tandemWhile "ACACGT".toList ⟨false, 2, 0, 0, "AC".toList⟩ ⟨false, 1, 4, 2, "G".toList⟩ 6 0
      = .ok 2 ∧
    rightShiftPair "ACT".toList "ACACGT".toList ⟨false, 2, 0, 0, "AC".toList⟩
        ⟨false, 1, 4, 2, "G".toList⟩ = .ok ⟨false, 2, 0, 0, "AC".toList⟩ ∧
    leftAlign "ACT".toList [(2, 'D'), (2, 'M'), (1, 'D'), (1, 'M')] "ACACGT".toList
      = .ok (false, [(2, 'D'), (2, 'M'), (1, 'D'), (1, 'M')]) ∧
    Consistent "ACT".toList "ACACGT".toList [(2, 'M'), (3, 'D'), (1, 'M')] := by
  refine ⟨by decide, by decide, by decide, by decide, by decide, by unfold Consistent; decide⟩
/-! ## The rewritten cigar is compact -/

/-- Appending an operation of another kind than the last one keeps a cigar compact. -/
theorem Compact.snoc {c : Cigar} {op : Nat × Char} (n : Nat) (k : Char)
    (h : Compact (c ++ [op])) (hk : op.2 ≠ k) : Compact (c ++ [op] ++ [(n, k)]) := by
  unfold Compact at h ⊢
  rw [List.append_assoc]
  show List.Chain' _ (c ++ op :: [(n, k)])
  rw [List.chain'_append_cons_cons]
  exact ⟨h, hk, List.chain'_singleton _⟩

/-- Changing the length of the last operation keeps a cigar compact. -/
theorem Compact.relength {c : Cigar} {n : Nat} {k : Char} (m : Nat)
    (h : Compact (c ++ [(n, k)])) : Compact (c ++ [(m, k)]) := by
  unfold Compact at h ⊢
  rw [List.chain'_append] at h ⊢
  refine ⟨h.1, List.chain'_singleton _, ?_⟩
  intro x hx y hy
  simp only [List.head?_cons, Option.mem_def, Option.some.injEq] at hy
  subst hy
  exact h.2.2 x hx (n, k) (by simp)

/-- The reconstruction loop keeps the cigar compact, and the last operation it leaves is an
Insertion or a Deletion. -/
theorem rebuild_compact : ∀ (rest : List VCFIndelAllele) (pre : Cigar) (n : Nat) (k : Char)
    (last : VCFIndelAllele) (c : Cigar) (e : Int), (k = 'I' ∨ k = 'D') →
    rebuild (pre ++ [(n, k)]) last rest = .ok (c, e) → Compact (pre ++ [(n, k)]) →
    Compact c ∧ ∃ pre' n' k', c = pre' ++ [(n', k')] ∧ (k' = 'I' ∨ k' = 'D') := by
  intro rest
  induction rest with
  | nil =>
    intro pre n k last c e hk h hc
    simp only [rebuild] at h
    cases h
    exact ⟨hc, pre, n, k, rfl, hk⟩
  | cons a rest ih =>
    intro pre n k last c e hk h hc
    unfold rebuild at h
    split at h
    · cases h
    · split at h
      · rw [extendBack_concat] at h
        exact ih pre (n + a.length) k a c e hk h (hc.relength _)
      · split at h
        · have hM : k ≠ 'M' := by
            rcases hk with rfl | rfl <;> decide
          have hI : 'M' ≠ indelKind a := by
            rcases indelKind_cases a with q | q <;> rw [q] <;> decide
          have e1 : pre ++ [(n, k)] ++ [((a.position - indelEnd last).toNat, 'M'),
              (a.length, indelKind a)]
              = (pre ++ [(n, k)] ++ [((a.position - indelEnd last).toNat, 'M')])
                ++ [(a.length, indelKind a)] := by simp
          rw [e1] at h
          refine ih _ a.length (indelKind a) a c e (indelKind_cases a) h ?_
          have := (hc.snoc (a.position - indelEnd last).toNat 'M' hM)
          exact Compact.snoc a.length (indelKind a) this hI
        · omega

/-- The reconstruction writes a compact cigar. -/
theorem reconstruct_compact {sb se : List Char} {al : Int} {last : VCFIndelAllele}
    {rest : List VCFIndelAllele} {c : Cigar}
    (h : reconstruct sb se al (last :: rest) = .ok c) : Compact c := by
  simp only [reconstruct] at h
  rw [bind_ok] at h
  obtain ⟨⟨c2, e⟩, h1, h2⟩ := h
  simp only at h2
  have hS : 'S' ≠ indelKind last := by
    rcases indelKind_cases last with q | q <;> rw [q] <;> decide
  have hM : 'M' ≠ indelKind last := by
    rcases indelKind_cases last with q | q <;> rw [q] <;> decide
  have hinit : ∃ pre, (if last.position > 0 then
        (if sb ≠ [] then [(sb.length, 'S')] else [])
          ++ [(last.position.toNat, 'M'), (last.length, indelKind last)]
      else (if sb ≠ [] then [(sb.length, 'S')] else []) ++ [(last.length, indelKind last)])
      = pre ++ [(last.length, indelKind last)] ∧
      Compact (pre ++ [(last.length, indelKind last)]) := by
    by_cases hp : last.position > 0 <;> by_cases hsb : sb = []
    · refine ⟨[(last.position.toNat, 'M')], by simp [hp, hsb], ?_⟩
      unfold Compact
      simp [hM]
    · refine ⟨[(sb.length, 'S'), (last.position.toNat, 'M')], by simp [hp, hsb], ?_⟩
      unfold Compact
      simp [hM]
    · refine ⟨[], by simp [hp, hsb], ?_⟩
      unfold Compact
      simp
    · refine ⟨[(sb.length, 'S')], by simp [hp, hsb], ?_⟩
      unfold Compact
      simp [hS]
  obtain ⟨pre, hpre, hcpre⟩ := hinit
  rw [hpre] at h1
  obtain ⟨hc2, pre', n', k', rfl, hk'⟩ :=
    rebuild_compact rest pre last.length (indelKind last) last c2 e (indelKind_cases last)
      h1 hcpre
  have hkM : k' ≠ 'M' := by rcases hk' with rfl | rfl <;> decide
  have hkS : k' ≠ 'S' := by rcases hk' with rfl | rfl <;> decide
  cases h2
  by_cases hl : e < al <;> by_cases hse : se = []
  · simp only [hl, hse, if_true, ne_eq, not_true_eq_false, if_false]
    exact hc2.snoc _ 'M' hkM
  · simp only [hl, hse, if_true, ne_eq, not_false_eq_true]
    exact Compact.snoc _ 'S' (hc2.snoc _ 'M' hkM) (show 'M' ≠ 'S' by decide)
  · simp only [hl, hse, if_false, ne_eq, not_true_eq_false]
    exact hc2
  · simp only [hl, hse, if_false, ne_eq, not_false_eq_true, if_true]
    exact hc2.snoc _ 'S' hkS

/-- For every input that contains at least one Insertion or Deletion and on which the pass
returns, no two consecutive operations of the cigar left by `leftAlign` have the same
kind. -/
theorem leftAlign_kinds_alternate (read ref : List Char) (cigar c' : Cigar) (b : Bool)
    (h : leftAlign read cigar ref = .ok (b, c'))
    (hi : ∃ op ∈ cigar, op.2 = 'I' ∨ op.2 = 'D') :
    List.Chain' (fun x y : Nat × Char => x.2 ≠ y.2) c' := by
  rw [leftAlign_ok_iff] at h
  obtain ⟨st, h1, h⟩ := h
  have hne := extract_hasIndel cigar _ st h1 (Or.inr hi)
  rcases h with ⟨hnil, -, -⟩ | ⟨-, shifted, merged, h2, h3, h4, -⟩
  · exact absurd hnil hne
  · obtain ⟨-, -, -, f1, f2, -⟩ := phases_ordered h1 h2 h3
    cases merged with
    | nil =>
      have e2 := f2.length_eq
      have e1 := f1.length_eq
      simp only [List.length_nil] at e2
      rw [e2] at e1
      exact absurd (List.length_eq_zero.1 e1) hne
    | cons last rest => exact reconstruct_compact h4

/-! ## The order on indels -/

theorem stringLt_irrefl : ∀ s : List Char, stringLt s s = false := by
  intro s
  induction s with
  | nil => rfl
  | cons a rest ih => simp [stringLt, ih]

theorem stringLt_trans : ∀ x y z : List Char, stringLt x y = true → stringLt y z = true →
    stringLt x z = true := by
  intro x
  induction x with
  | nil =>
    intro y z h1 h2
    cases y with
    | nil => simp [stringLt] at h1
    | cons b bs =>
      cases z with
      | nil => simp [stringLt] at h2
      | cons c cs => simp [stringLt]
  | cons a as ih =>
    intro y z h1 h2
    cases y with
    | nil => simp [stringLt] at h1
    | cons b bs =>
      cases z with
      | nil => simp [stringLt] at h2
      | cons c cs =>
        simp only [stringLt] at h1 h2 ⊢
        by_cases hab : a < b
        · by_cases hbc : b < c
          · simp [lt_trans hab hbc]
          · simp only [hbc, if_false] at h2
            by_cases hcb : c < b
            · simp [hcb] at h2
            · have : b = c := le_antisymm (not_lt.1 hcb) (not_lt.1 hbc)
              subst this
              simp [hab]
        · simp only [hab, if_false] at h1
          by_cases hba : b < a
          · simp [hba] at h1
          · have : a = b := le_antisymm (not_lt.1 hba) (not_lt.1 hab)
            subst this
            simp only [hba, if_false] at h1
            by_cases hac : a < c
            · simp [hac]
            · simp only [hac, if_false] at h2 ⊢
              by_cases hca : c < a
              · simp [hca] at h2
              · simp only [hca, if_false] at h2 ⊢
                exact ih _ _ h1 h2

theorem stringLt_total : ∀ x y : List Char, stringLt x y = true ∨ x = y ∨ stringLt y x = true := by
  intro x
  induction x with
  | nil =>
    intro y
    cases y with
    | nil => exact Or.inr (Or.inl rfl)
    | cons b bs => exact Or.inl rfl
  | cons a as ih =>
    intro y
    cases y with
    | nil => exact Or.inr (Or.inr rfl)
    | cons b bs =>
      simp only [stringLt]
      rcases lt_trichotomy a b with h | h | h
      · simp [h]
      · subst h
        simp only [lt_irrefl, if_false, List.cons.injEq, true_and]
        exact ih bs
      · right; right
        simp [h]

theorem stringLt_asymm (x y : List Char) (h : stringLt x y = true) : stringLt y x = false := by
  cases hyx : stringLt y x with
  | false => rfl
  | true =>
    have := stringLt_trans x y x h hyx
    rw [stringLt_irrefl] at this
    cases this

/-- Texts without the separator, each followed by the separator, are read off uniquely. -/
theorem separator_split (sep : Char) : ∀ (xs ys r s : List Char), (∀ c ∈ xs, c ≠ sep) →
    (∀ c ∈ ys, c ≠ sep) → xs ++ sep :: r = ys ++ sep :: s → xs = ys ∧ r = s := by
  intro xs
  induction xs with
  | nil =>
    intro ys r s _ hy h
    cases ys with
    | nil =>
      simp only [List.nil_append, List.cons.injEq, true_and] at h
      exact ⟨rfl, h⟩
    | cons y ys =>
      simp only [List.nil_append, List.cons_append, List.cons.injEq] at h
      exact absurd h.1.symm (hy y (by simp))
  | cons x xs ih =>
    intro ys r s hx hy h
    cases ys with
    | nil =>
      simp only [List.nil_append, List.cons_append, List.cons.injEq] at h
      exact absurd h.1 (hx x (by simp))
    | cons y ys =>
      simp only [List.cons_append, List.cons.injEq] at h
      obtain ⟨e1, e2⟩ := ih ys r s (fun c hc => hx c (List.mem_cons_of_mem _ hc))
        (fun c hc => hy c (List.mem_cons_of_mem _ hc)) h.2
      exact ⟨by rw [h.1, e1], e2⟩

theorem intText_noColon (x : Int) : ∀ c ∈ intText x, c ≠ ':' := by
  intro c hc
  unfold intText at hc
  split at hc
  · rcases List.mem_cons.1 hc with rfl | hc'
    · decide
    · intro h
      have := decimal_isDigit _ _ hc'
      rw [h] at this
      exact absurd this (by decide)
  · intro h
    have := decimal_isDigit _ _ hc
    rw [h] at this
    exact absurd this (by decide)

theorem intText_injective {x y : Int} (h : intText x = intText y) : x = y := by
  unfold intText at h
  split at h <;> split at h
  · simp only [List.cons.injEq, true_and] at h
    have := decimal_injective h
    omega
  · have hm : '-' ∈ decimal y.toNat := by rw [← h]; simp
    exact absurd (decimal_isDigit _ _ hm) (by decide)
  · have hm : '-' ∈ decimal x.toNat := by rw [h]; simp
    exact absurd (decimal_isDigit _ _ hm) (by decide)
  · have := decimal_injective h
    omega

/-- The printed forms of two indels agree exactly when their kind, position, read position
and sequence agree. -/
theorem operatorOut_eq_iff (a b : VCFIndelAllele) :
    operatorOut a = operatorOut b ↔
      a.insertion = b.insertion ∧ a.position = b.position ∧
        a.readPosition = b.readPosition ∧ a.sequence = b.sequence := by
  constructor
  · intro h
    unfold operatorOut at h
    simp only [List.cons.injEq, true_and] at h
    obtain ⟨h1, h2⟩ := h
    obtain ⟨e1, h3⟩ := separator_split ':' _ _ _ _ (intText_noColon _) (intText_noColon _) h2
    obtain ⟨e2, e3⟩ := separator_split ':' _ _ _ _ (intText_noColon _) (intText_noColon _) h3
    refine ⟨?_, intText_injective e1, intText_injective e2, e3⟩
    cases ha : a.insertion <;> cases hb : b.insertion <;> simp [ha, hb] at h1 ⊢
  · rintro ⟨h1, h2, h3, h4⟩
    unfold operatorOut
    rw [h1, h2, h3, h4]

/-- C16 fails as stated: two deletions that differ only in their read position are equal
for `operator==` and ordered by `operator<`, so two of the three cases hold at once. -/
theorem operatorLt_counterexample :
    operatorEq ⟨false, 1, 0, 0, "A".toList⟩ ⟨false, 1, 0, 1, "A".toList⟩ = true ∧
    operatorLt ⟨false, 1, 0, 0, "A".toList⟩ ⟨false, 1, 0, 1, "A".toList⟩ = true := by
  decide

/-- C16, amended: `operator<` is irreflexive and transitive, and for every two indels `a`
and `b` exactly one of `a < b`, "`a` and `b` have the same printed form", `b < a` holds; the
printed forms agree exactly when kind, position, read position and sequence agree; and
`operator==`, which compares kind, length, position and sequence, agrees with "same printed
form" exactly on indels of equal read position and equal length. -/
theorem operatorLt_strict_order :
    (∀ a, operatorLt a a = false) ∧
    (∀ a b c, operatorLt a b = true → operatorLt b c = true → operatorLt a c = true) ∧
    (∀ a b,
      (operatorLt a b = true ∧ operatorOut a ≠ operatorOut b ∧ operatorLt b a = false) ∨
      (operatorLt a b = false ∧ operatorOut a = operatorOut b ∧ operatorLt b a = false) ∨
      (operatorLt a b = false ∧ operatorOut a ≠ operatorOut b ∧ operatorLt b a = true)) ∧
    (∀ a b, operatorOut a = operatorOut b ↔
      a.insertion = b.insertion ∧ a.position = b.position ∧
        a.readPosition = b.readPosition ∧ a.sequence = b.sequence) ∧
    (∀ a b, (operatorEq a b = true ∧ a.readPosition = b.readPosition) ↔
      (operatorOut a = operatorOut b ∧ a.length = b.length)) := by
  refine ⟨fun a => stringLt_irrefl _, fun a b c => stringLt_trans _ _ _, ?_,
    operatorOut_eq_iff, ?_⟩
  · intro a b
    unfold operatorLt
    rcases stringLt_total (operatorOut a) (operatorOut b) with h | h | h
    · refine Or.inl ⟨h, ?_, stringLt_asymm _ _ h⟩
      intro he
      rw [he, stringLt_irrefl] at h
      cases h
    · refine Or.inr (Or.inl ⟨?_, h, ?_⟩)
      · rw [h]; exact stringLt_irrefl _
      · rw [h]; exact stringLt_irrefl _
    · refine Or.inr (Or.inr ⟨stringLt_asymm _ _ h, ?_, h⟩)
      intro he
      rw [he, stringLt_irrefl] at h
      cases h
  · intro a b
    rw [operatorOut_eq_iff]
    unfold operatorEq
    simp only [Bool.and_eq_true, beq_iff_eq]
    constructor
    · rintro ⟨⟨⟨⟨h1, h2⟩, h3⟩, h4⟩, h5⟩
      exact ⟨⟨h1, h3, h5, h4⟩, h2⟩
    · rintro ⟨⟨h1, h3, h5, h4⟩, h2⟩
      exact ⟨⟨⟨⟨h1, h2⟩, h3⟩, h4⟩, h5⟩
/-! ## Soft clips at the two ends -/

theorem extractOp_keeps_indels {read ref : List Char} {st st' : Extraction} {op : Nat × Char}
    (hI : op.2 ≠ 'I') (hD : op.2 ≠ 'D') (h : extractOp read ref st op = .ok st') :
    st'.indels = st.indels := by
  unfold extractOp at h
  simp only [hI, hD, if_false] at h
  split at h
  · cases h; rfl
  · split at h
    · split at h
      · rw [bind_ok] at h
        obtain ⟨sb, -, h⟩ := h
        cases h; rfl
      · rw [bind_ok] at h
        obtain ⟨se, -, h⟩ := h
        cases h; rfl
    · split at h
      · cases h; rfl
      · split at h
        · cases h; rfl
        · cases h; rfl

/-- Without Insertion and Deletion operations the extraction adds no indel. -/
theorem extract_keeps_indels {read ref : List Char} : ∀ (c : Cigar) (st st' : Extraction),
    (∀ op ∈ c, op.2 ≠ 'I' ∧ op.2 ≠ 'D') → extract read ref st c = .ok st' →
    st'.indels = st.indels := by
  intro c
  induction c with
  | nil =>
    intro st st' _ h
    simp only [extract] at h
    cases h
    rfl
  | cons op rest ih =>
    intro st st' hk h
    simp only [extract] at h
    rw [bind_ok] at h
    obtain ⟨s1, h1, h2⟩ := h
    rw [ih s1 st' (fun o ho => hk o (List.mem_cons_of_mem _ ho)) h2]
    exact extractOp_keeps_indels (hk op (by simp)).1 (hk op (by simp)).2 h1

/-- With soft clips only at the ends of a cigar that fits the read, and at least one read
base consumed before a trailing soft clip, the captured prefix and suffix have the lengths
of the leading and of the trailing soft clip. -/
theorem extract_clip_ends {read ref : List Char} {lead body trail : Cigar} {st : Extraction}
    (hlead : lead = [] ∨ ∃ n, lead = [(n, 'S')]) (hbody : ∀ op ∈ body, op.2 ≠ 'S')
    (htrail : trail = [] ∨ ∃ n, trail = [(n, 'S')])
    (hfit : readLength (lead ++ body ++ trail) ≤ read.length)
    (hrp : trail = [] ∨ 1 ≤ readLength (lead ++ body))
    (h : extract read ref (Extraction.start read ref) (lead ++ body ++ trail) = .ok st) :
    st.softBegin.length = kindTotal 'S' lead ∧ st.softEnd.length = kindTotal 'S' trail := by
  rw [extract_append, bind_ok] at h
  obtain ⟨s2, h12, h3⟩ := h
  rw [extract_append, bind_ok] at h12
  obtain ⟨s1, h1, h2⟩ := h12
  have hb0 : kindTotal 'S' body = 0 := kindTotal_eq_zero hbody
  have hfit' : kindTotal 'S' lead + kindTotal 'S' trail ≤ read.length := by
    unfold readLength at hfit
    simp only [kindTotal_append] at hfit
    omega
  have hs1 : s1.softBegin.length = kindTotal 'S' lead ∧ s1.softEnd = [] ∧
      s1.alignmentAlignedBases = read ∧
      s1.rp = (readLength lead : Nat) := by
    rcases hlead with hl | ⟨n, hl⟩
    · subst hl
      simp [extract] at h1
      subst h1
      simp [Extraction.start, kindTotal, readLength]
    · subst hl
      simp only [extract, extractOp_clip, Extraction.start] at h1
      simp [substr, bind, Except.bind] at h1
      subst h1
      simp only [kindTotal, readLength] at hfit' ⊢
      simp at hfit' ⊢
      omega
  obtain ⟨a1, a2, a3, a4⟩ := hs1
  obtain ⟨b1, b2, b3⟩ := extract_noClip body s1 s2 hbody h2
  obtain ⟨-, b4, -⟩ := extract_spec body s1 s2 h2
  rw [a3] at b3
  rcases htrail with ht | ⟨k, ht⟩
  · subst ht
    simp [extract] at h3
    subst h3
    rw [b1, b2, a2, a1]
    simp [kindTotal]
  · subst ht
    have hk : k ≤ read.length := by
      simp only [kindTotal] at hfit'
      simp at hfit'
      omega
    have hpos : s2.rp ≠ 0 := by
      rcases hrp with hr | hr
      · cases hr
      · unfold readLength at hr a4
        simp only [kindTotal_append] at hr
        rw [b4, a4]
        push_cast
        omega
    simp only [extract, extractOp_clip] at h3
    simp only [bind_ok] at h3
    obtain ⟨s3, h3, h4⟩ := h3
    simp at h4
    subst h4
    simp only [hpos, if_false] at h3
    rw [bind_ok] at h3
    obtain ⟨se, hse, h3⟩ := h3
    obtain ⟨c1, c2, c3⟩ := substr_eq_ok hse
    cases h3
    simp only [b1, a1, c3, List.length_take, List.length_drop, kindTotal]
    simp
    omega

/-- The reconstruction loop keeps what was written before the last operation, may lengthen
that operation, and writes Match, Insertion and Deletion operations after it; the last
operation keeps its length when the next indel is not merged into it. -/
theorem rebuild_shape : ∀ (rest : List VCFIndelAllele) (pre : Cigar) (n : Nat) (k : Char)
    (last : VCFIndelAllele) (c : Cigar) (e : Int),
    rebuild (pre ++ [(n, k)]) last rest = .ok (c, e) →
    ∃ n' tail, c = pre ++ (n', k) :: tail ∧
      (∀ op ∈ tail, op.2 = 'M' ∨ op.2 = 'I' ∨ op.2 = 'D') ∧
      ((∀ x ∈ rest.head?, ¬ (x.position = indelEnd last ∧ x.insertion = last.insertion)) →
        n' = n) := by
  intro rest
  induction rest with
  | nil =>
    intro pre n k last c e h
    simp only [rebuild] at h
    cases h
    exact ⟨n, [], by simp, by simp, fun _ => rfl⟩
  | cons a rest ih =>
    intro pre n k last c e h
    unfold rebuild at h
    split at h
    · cases h
    · split at h
      · rename_i hm
        rw [extendBack_concat] at h
        obtain ⟨n', tail, h1, h2, -⟩ := ih pre (n + a.length) k a c e h
        refine ⟨n', tail, h1, h2, ?_⟩
        intro hx
        exact absurd hm (hx a (by simp))
      · split at h
        · have e1 : pre ++ [(n, k)] ++ [((a.position - indelEnd last).toNat, 'M'),
              (a.length, indelKind a)]
              = (pre ++ [(n, k), ((a.position - indelEnd last).toNat, 'M')])
                ++ [(a.length, indelKind a)] := by simp
          rw [e1] at h
          obtain ⟨n', tail, h1, h2, -⟩ := ih _ a.length (indelKind a) a c e h
          refine ⟨n, ((a.position - indelEnd last).toNat, 'M') :: (n', indelKind a) :: tail,
            by rw [h1]; simp, ?_, fun _ => rfl⟩
          intro op hop
          simp only [List.mem_cons] at hop
          rcases hop with rfl | rfl | hop
          · exact Or.inl rfl
          · rcases indelKind_cases a with q | q
            · exact Or.inr (Or.inl q)
            · exact Or.inr (Or.inr q)
          · exact h2 op hop
        · omega

theorem leadClip_clip (n : Nat) (c : Cigar) : leadClip ((n, 'S') :: c) = n := by
  simp [leadClip]

theorem leadClip_other {op : Nat × Char} (h : op.2 ≠ 'S') (c : Cigar) :
    leadClip (op :: c) = 0 := by
  simp [leadClip, h]

theorem trailClip_clip (n : Nat) (c : Cigar) : trailClip (c ++ [(n, 'S')]) = n := by
  simp [trailClip]

theorem trailClip_other {op : Nat × Char} (h : op.2 ≠ 'S') (c : Cigar) :
    trailClip (c ++ [op]) = 0 := by
  simp [trailClip, h]

/-- The soft clips at the ends of a cigar with a non-empty part between them that has no
soft clip. -/
theorem clips_of_parts (lead body trail : Cigar) (hlead : lead = [] ∨ ∃ n, lead = [(n, 'S')])
    (hbody : ∀ op ∈ body, op.2 ≠ 'S') (hne : body ≠ [])
    (htrail : trail = [] ∨ ∃ n, trail = [(n, 'S')]) :
    leadClip (lead ++ body ++ trail) = kindTotal 'S' lead ∧
      trailClip (lead ++ body ++ trail) = kindTotal 'S' trail := by
  obtain ⟨x, xs, rfl⟩ := List.exists_cons_of_ne_nil hne
  obtain ⟨ys, y, hy⟩ : ∃ ys y, x :: xs = ys ++ [y] := by
    rcases List.eq_nil_or_concat (x :: xs) with h | ⟨ys, y, h⟩
    · cases h
    · exact ⟨ys, y, by simpa using h⟩
  have hx : x.2 ≠ 'S' := hbody x (by simp)
  have hyS : y.2 ≠ 'S' := hbody y (by rw [hy]; simp)
  constructor
  · rcases hlead with rfl | ⟨n, rfl⟩
    · simp only [List.nil_append, List.cons_append]
      rw [leadClip_other hx]
      rfl
    · simp only [List.singleton_append, List.cons_append]
      rw [leadClip_clip]
      simp [kindTotal]
  · rcases htrail with rfl | ⟨n, rfl⟩
    · rw [List.append_nil, hy, ← List.append_assoc, trailClip_other hyS]
      rfl
    · rw [trailClip_clip]
      simp [kindTotal]

/-- The reconstruction writes the captured prefix as leading and the captured suffix as
trailing soft clip. -/
theorem reconstruct_ends {sb se : List Char} {al : Int} {last : VCFIndelAllele}
    {rest : List VCFIndelAllele} {c : Cigar}
    (h : reconstruct sb se al (last :: rest) = .ok c) :
    leadClip c = sb.length ∧ trailClip c = se.length := by
  simp only [reconstruct] at h
  rw [bind_ok] at h
  obtain ⟨⟨c2, e⟩, h1, h2⟩ := h
  simp only at h2
  have hinit : ∃ pre, (if last.position > 0 then
        (if sb ≠ [] then [(sb.length, 'S')] else [])
          ++ [(last.position.toNat, 'M'), (last.length, indelKind last)]
      else (if sb ≠ [] then [(sb.length, 'S')] else []) ++ [(last.length, indelKind last)])
      = (if sb ≠ [] then [(sb.length, 'S')] else []) ++ pre ++ [(last.length, indelKind last)]
      ∧ ∀ op ∈ pre, op.2 = 'M' := by
    by_cases hp : last.position > 0
    · exact ⟨[(last.position.toNat, 'M')], by simp [hp], by simp⟩
    · exact ⟨[], by simp [hp], by simp⟩
  obtain ⟨pre, hpre, hpreM⟩ := hinit
  rw [hpre] at h1
  obtain ⟨n', tail, hc2, htail, -⟩ := rebuild_shape rest _ last.length (indelKind last) last c2 e h1
  have hmid : ∃ body : Cigar, body ≠ [] ∧ (∀ op ∈ body, op.2 ≠ 'S') ∧
      c = (if sb ≠ [] then [(sb.length, 'S')] else []) ++ body
        ++ (if se ≠ [] then [(se.length, 'S')] else []) := by
    have hb : ∀ op ∈ pre ++ (n', indelKind last) :: tail, op.2 ≠ 'S' := by
      intro op hop
      simp only [List.mem_append, List.mem_cons] at hop
      rcases hop with hop | rfl | hop
      · rw [hpreM op hop]; decide
      · rcases indelKind_cases last with q | q <;> simp only [q] <;> decide
      · rcases htail op hop with q | q | q <;> rw [q] <;> decide
    cases h2
    by_cases hl : e < al
    · refine ⟨pre ++ (n', indelKind last) :: tail ++ [((al - e).toNat, 'M')], by simp, ?_, ?_⟩
      · intro op hop
        rcases List.mem_append.1 hop with hop | hop
        · exact hb op hop
        · simp only [List.mem_singleton] at hop
          rw [hop]
          show 'M' ≠ 'S'
          decide
      · rw [hc2]
        by_cases hse : se = [] <;> simp [hl, hse]
    · refine ⟨pre ++ (n', indelKind last) :: tail, by simp, hb, ?_⟩
      rw [hc2]
      by_cases hse : se = [] <;> simp [hl, hse]
  obtain ⟨body, hne, hbody, rfl⟩ := hmid
  have := clips_of_parts (if sb ≠ [] then [(sb.length, 'S')] else []) body
    (if se ≠ [] then [(se.length, 'S')] else [])
    (by by_cases hsb : sb = [] <;> simp [hsb]) hbody hne
    (by by_cases hse : se = [] <;> simp [hse])
  rw [this.1, this.2]
  constructor
  · by_cases hsb : sb = [] <;> simp [hsb, kindTotal]
  · by_cases hse : se = [] <;> simp [hse, kindTotal]

/-- C18 fails as stated: the cigar `1D3S` (read `ACG`, reference `T`) has positive lengths,
its read-consuming length is the length of the read and its reference-consuming length fits
the reference; the pass writes `3S1D`: the trailing soft clip, met with the read cursor
still at 0, is captured as the prefix, so the leading soft clip grows from 0 to 3 and the
trailing one falls from 3 to 0. -/
theorem leftAlign_clip_counterexample :
    (∀ op ∈ ([(1, 'D'), (3, 'S')] : Cigar), 1 ≤ op.1) ∧
    readLength [(1, 'D'), (3, 'S')] = "ACG".toList.length ∧
    refLength [(1, 'D'), (3, 'S')] ≤ "T".toList.length ∧
    leftAlign "ACG".toList [(1, 'D'), (3, 'S')] "T".toList = .ok (true, [(3, 'S'), (1, 'D')]) ∧
    leadClip [(3, 'S'), (1, 'D')] ≠ leadClip [(1, 'D'), (3, 'S')] ∧
    trailClip [(3, 'S'), (1, 'D')] ≠ trailClip [(1, 'D'), (3, 'S')] := by
  decide

/-- C18, amended: for every cigar made of Match, Insertion and Deletion operations between
at most one leading and one trailing SoftClip, whose read-consuming length is the length of
the read and in which at least one read base is consumed before the trailing SoftClip (if
there is one), the cigar left by a pass of `leftAlign` has the same Match+Deletion length,
the same Match+Insertion+SoftClip length, the same Insertion length, the same Deletion
length, and the same leading and trailing SoftClip lengths as the input. -/
theorem leftAlign_coordinates (read ref : List Char) (lead body trail c' : Cigar) (b : Bool)
    (hlead : lead = [] ∨ ∃ n, lead = [(n, 'S')])
    (hbody : ∀ op ∈ body, op.2 = 'M' ∨ op.2 = 'I' ∨ op.2 = 'D')
    (htrail : trail = [] ∨ ∃ n, trail = [(n, 'S')])
    (hread : readLength (lead ++ body ++ trail) = read.length)
    (hrp : trail = [] ∨ 1 ≤ readLength (lead ++ body))
    (h : leftAlign read (lead ++ body ++ trail) ref = .ok (b, c')) :
    kindTotal 'M' c' + kindTotal 'D' c'
      = kindTotal 'M' (lead ++ body ++ trail) + kindTotal 'D' (lead ++ body ++ trail) ∧
    readLength c' = readLength (lead ++ body ++ trail) ∧
    kindTotal 'I' c' = kindTotal 'I' (lead ++ body ++ trail) ∧
    kindTotal 'D' c' = kindTotal 'D' (lead ++ body ++ trail) ∧
    leadClip c' = leadClip (lead ++ body ++ trail) ∧
    trailClip c' = trailClip (lead ++ body ++ trail) := by
  rw [leftAlign_ok_iff] at h
  obtain ⟨st, h1, h⟩ := h
  rcases h with ⟨-, -, hc⟩ | ⟨hne, shifted, merged, h2, h3, h4, -⟩
  · subst hc
    exact ⟨rfl, rfl, rfl, rfl, rfl, rfl⟩
  · have hbS : ∀ op ∈ body, op.2 ≠ 'S' := by
      intro op hop
      rcases hbody op hop with q | q | q <;> rw [q] <;> decide
    have hleadS : ∀ op ∈ lead, op.2 = 'S' := by
      intro op hop
      rcases hlead with rfl | ⟨n, rfl⟩
      · cases hop
      · simp only [List.mem_singleton] at hop
        rw [hop]
    have htrailS : ∀ op ∈ trail, op.2 = 'S' := by
      intro op hop
      rcases htrail with rfl | ⟨n, rfl⟩
      · cases hop
      · simp only [List.mem_singleton] at hop
        rw [hop]
    have hN : kindTotal 'N' (lead ++ body ++ trail) = 0 := by
      apply kindTotal_eq_zero
      intro op hop
      simp only [List.mem_append] at hop
      rcases hop with (hop | hop) | hop
      · rw [hleadS op hop]; decide
      · rcases hbody op hop with q | q | q <;> rw [q] <;> decide
      · rw [htrailS op hop]; decide
    have hbne : body ≠ [] := by
      intro hb
      subst hb
      have := extract_keeps_indels (lead ++ [] ++ trail) _ st (by
        intro op hop
        simp only [List.append_nil, List.mem_append] at hop
        rcases hop with hop | hop
        · rw [hleadS op hop]; decide
        · rw [htrailS op hop]; decide) h1
      exact hne this
    obtain ⟨t1, t2, t3, t4, -⟩ := leftAlign_totals h1 hne h2 h3 h4
    obtain ⟨k1, k2⟩ := extract_clip_ends hlead hbS htrail (le_of_eq hread) hrp h1
    obtain ⟨i1, i2⟩ := clips_of_parts lead body trail hlead hbS hbne htrail
    have hS : kindTotal 'S' (lead ++ body ++ trail)
        = kindTotal 'S' lead + kindTotal 'S' trail := by
      simp only [kindTotal_append, kindTotal_eq_zero hbS]
      omega
    cases merged with
    | nil =>
      obtain ⟨-, -, -, f1, f2, -⟩ := phases_ordered h1 h2 h3
      have e2 := f2.length_eq
      have e1 := f1.length_eq
      simp only [List.length_nil] at e2
      rw [e2] at e1
      exact absurd (List.length_eq_zero.1 e1) hne
    | cons last rest =>
      obtain ⟨j1, j2⟩ := reconstruct_ends h4
      refine ⟨by omega, ?_, t3, t2, by rw [j1, i1, k1], by rw [j2, i2, k2]⟩
      unfold readLength
      omega

/-- Instance of the amended C18: read `GACAATC`, reference `ACAAAT`, cigar `1S3M1D2M1S`,
rewritten to `1S2M1D3M1S`. -/
theorem leftAlign_coordinates_witness :
    leftAlign "GACAATC".toList [(1, 'S'), (3, 'M'), (1, 'D'), (2, 'M'), (1, 'S')]
      "ACAAAT".toList = .ok (true, [(1, 'S'), (2, 'M'), (1, 'D'), (3, 'M'), (1, 'S')]) ∧
    kindTotal 'M' [(1, 'S'), (2, 'M'), (1, 'D'), (3, 'M'), (1, 'S')]
        + kindTotal 'D' [(1, 'S'), (2, 'M'), (1, 'D'), (3, 'M'), (1, 'S')]
      = kindTotal 'M' ([(1, 'S')] ++ [(3, 'M'), (1, 'D'), (2, 'M')] ++ [(1, 'S')])
        + kindTotal 'D' ([(1, 'S')] ++ [(3, 'M'), (1, 'D'), (2, 'M')] ++ [(1, 'S')]) ∧
    readLength [(1, 'S'), (2, 'M'), (1, 'D'), (3, 'M'), (1, 'S')]
      = readLength ([(1, 'S')] ++ [(3, 'M'), (1, 'D'), (2, 'M')] ++ [(1, 'S')]) ∧
    kindTotal 'I' [(1, 'S'), (2, 'M'), (1, 'D'), (3, 'M'), (1, 'S')]
      = kindTotal 'I' ([(1, 'S')] ++ [(3, 'M'), (1, 'D'), (2, 'M')] ++ [(1, 'S')]) ∧
    kindTotal 'D' [(1, 'S'), (2, 'M'), (1, 'D'), (3, 'M'), (1, 'S')]
      = kindTotal 'D' ([(1, 'S')] ++ [(3, 'M'), (1, 'D'), (2, 'M')] ++ [(1, 'S')]) ∧
    leadClip [(1, 'S'), (2, 'M'), (1, 'D'), (3, 'M'), (1, 'S')]
      = leadClip ([(1, 'S')] ++ [(3, 'M'), (1, 'D'), (2, 'M')] ++ [(1, 'S')]) ∧
    trailClip [(1, 'S'), (2, 'M'), (1, 'D'), (3, 'M'), (1, 'S')]
      = trailClip ([(1, 'S')] ++ [(3, 'M'), (1, 'D'), (2, 'M')] ++ [(1, 'S')]) :=
  ⟨by decide,
    leftAlign_coordinates "GACAATC".toList "ACAAAT".toList [(1, 'S')]
      [(3, 'M'), (1, 'D'), (2, 'M')] [(1, 'S')]
      [(1, 'S'), (2, 'M'), (1, 'D'), (3, 'M'), (1, 'S')] true
      (Or.inr ⟨1, rfl⟩) (by decide) (Or.inr ⟨1, rfl⟩) (by decide) (Or.inr (by decide))
      (by decide)⟩
/-! ## Merging across a homopolymer gap -/

theorem sameAs_of_all {c : Char} : ∀ {s : List Char}, (∀ x ∈ s, x = c) → sameAs c s = true := by
  intro s
  induction s with
  | nil => intro _; rfl
  | cons y ys ih =>
    intro h
    simp only [sameAs]
    have hy : y = c := h y (by simp)
    subst hy
    simp only [ne_eq, not_true_eq_false, if_false]
    exact ih (fun x hx => h x (List.mem_cons_of_mem _ hx))

/-- A non-empty run of one character is a homopolymer, and that character is its first. -/
theorem FBhomopolymer_run {s : List Char} {c : Char} (hne : s ≠ []) (h : ∀ x ∈ s, x = c) :
    FBhomopolymer s = .ok true ∧ charAt s 0 = .ok c := by
  cases s with
  | nil => exact absurd rfl hne
  | cons y ys =>
    have hy : y = c := h y (by simp)
    subst hy
    refine ⟨?_, by simp [charAt]⟩
    simp only [FBhomopolymer]
    rw [sameAs_of_all (fun x hx => h x (List.mem_cons_of_mem _ hx))]

/-- The substring over a run of one character is a non-empty run of that character. -/
theorem substr_run {s : List Char} {x : Int} {g : Nat} {c : Char} (hg : 1 ≤ g)
    (h : ∀ j : Nat, j < g → getAt s (x + j) = some c) :
    ∃ w, substr s x g = .ok w ∧ w ≠ [] ∧ ∀ y ∈ w, y = c := by
  have h0 := getAt_some_lt (h 0 (by omega))
  simp only [Nat.cast_zero, add_zero] at h0
  have hsub : substr s x g = .ok ((s.drop x.toNat).take g) := substr_ok h0.1 (by omega)
  refine ⟨_, hsub, ?_, ?_⟩
  · intro hnil
    have := congrArg List.length hnil
    simp only [List.length_take, List.length_drop, List.length_nil] at this
    omega
  · intro y hy
    obtain ⟨j, hj, hjy⟩ := List.mem_iff_getElem.1 hy
    have hjg : j < g := by
      simp only [List.length_take] at hj
      omega
    have e1 := substr_getAt hsub j hjg
    rw [h j hjg, List.getElem?_eq_getElem hj, hjy] at e1
    exact Option.some.inj e1

/-- The right-shift step on a pair of same-kind indels with a homopolymer gap: the earlier
indel, a homopolymer of the base of the gap, is moved so that it ends where the later one
starts. -/
theorem rightShiftPair_homopolymer {read ref : List Char} {p a : VCFIndelAllele} {c : Char}
    {g : Nat} (hk : p.insertion = a.insertion) (hne : p.sequence ≠ [])
    (hhomo : ∀ x ∈ p.sequence, x = c) (hg : 1 ≤ g) (hpos : a.position = indelEnd p + g)
    (hrp : a.readPosition = p.readPosition + insLength p + g)
    (href : ∀ j : Nat, j < g → getAt ref (indelEnd p + j) = some c)
    (hread : ∀ j : Nat, j < g → getAt read (p.readPosition + insLength p + j) = some c)
    (hins : a.insertion = true → p.readPosition + p.readPosition < a.readPosition) :
    rightShiftPair read ref p a = .ok { p with
      position := if a.insertion then a.position else a.position - p.length } := by
  have hguard : mergeGuard p a = true := by
    unfold mergeGuard
    unfold indelEnd at hpos
    unfold insLength at hrp
    cases hp : p.insertion
    · rw [hp] at hk
      simp only [hp, ← hk, Bool.false_eq_true, if_false] at hpos hrp ⊢
      simp
      constructor <;> omega
    · rw [hp] at hk
      have := hins hk.symm
      simp only [hp, ← hk, if_true] at hpos hrp ⊢
      simp
      constructor <;> omega
  obtain ⟨f1, f2⟩ := FBhomopolymer_run hne hhomo
  obtain ⟨seq, s1, s2, s3⟩ := substr_run hg href
  obtain ⟨rseq, r1, r2, r3⟩ := substr_run hg hread
  obtain ⟨q1, q2⟩ := FBhomopolymer_run s2 s3
  obtain ⟨q3, -⟩ := FBhomopolymer_run r2 r3
  have eg : (a.position - indelEnd p).toNat = g := by omega
  have e1 : (if p.insertion then p.position else p.position + p.length) = indelEnd p := rfl
  have e2 : (if !p.insertion then p.readPosition else p.readPosition + p.length)
      = p.readPosition + insLength p := by
    unfold insLength
    cases p.insertion <;> simp
  unfold rightShiftPair
  simp only [hguard, if_true, e1, e2, eg, VCFIndelAllele.homopolymer, f1, f2, s1, r1, q1, q2, q3,
    bind, Except.bind]
theorem refLength_append (c d : Cigar) : refLength (c ++ d) = refLength c + refLength d := by
  unfold refLength
  simp only [kindTotal_append]
  omega

theorem refLength_match (n : Nat) : refLength [(n, 'M')] = n := by
  simp [refLength, kindTotal]

theorem refLength_clip (n : Nat) : refLength [(n, 'S')] = 0 := by
  simp [refLength, kindTotal]

theorem refLength_indel (n : Nat) (a : VCFIndelAllele) :
    refLength [(n, indelKind a)] = if a.insertion then 0 else n := by
  unfold refLength indelKind
  cases a.insertion <;> simp [kindTotal]

theorem indelKind_congr {a b : VCFIndelAllele} (h : a.insertion = b.insertion) :
    indelKind a = indelKind b := by
  unfold indelKind
  rw [h]

/-- The right-shift phase at an indel `x` of the list: the indels before it are shifted to
end at or before the position `x` had, and the rest of the phase is the right shift of the
list from `x` on. -/
theorem rightShift_prefix {read ref : List Char} : ∀ (pre : List VCFIndelAllele) (e : Int)
    (x : VCFIndelAllele) (post m : List VCFIndelAllele),
    rightShift read ref (pre ++ x :: post) = .ok m → Ordered e (pre ++ x :: post) →
    ∃ pre' rest', m = pre' ++ rest' ∧ pre'.length = pre.length ∧
      endOf e pre' ≤ x.position ∧ rightShift read ref (x :: post) = .ok rest' := by
  intro pre
  induction pre with
  | nil =>
    intro e x post m h ho
    exact ⟨[], m, rfl, rfl, ho.1, h⟩
  | cons q pre2 ih =>
    intro e x post m h ho
    have ho2 : Ordered (indelEnd q) (pre2 ++ x :: post) := ho.2
    have key : ∃ y ys, pre2 ++ x :: post = y :: ys ∧ (pre2 = [] → y = x) := by
      cases pre2 with
      | nil => exact ⟨x, post, rfl, fun _ => rfl⟩
      | cons r pre3 => exact ⟨r, pre3 ++ x :: post, rfl, fun hc => by cases hc⟩
    obtain ⟨y, ys, hy, hyx⟩ := key
    have h' : rightShift read ref (q :: y :: ys) = .ok m := by
      rw [← hy]
      exact h
    simp only [rightShift] at h'
    rw [bind_ok] at h'
    obtain ⟨q', hq, h'⟩ := h'
    rw [bind_ok] at h'
    obtain ⟨rest, hr, h'⟩ := h'
    cases h'
    rw [← hy] at hr
    obtain ⟨pre2', rest', e1, e2, e3, e4⟩ := ih (indelEnd q) x post rest hr ho2
    refine ⟨q' :: pre2', rest', by rw [e1]; rfl, by simp [e2], ?_, e4⟩
    cases pre2' with
    | nil =>
      have hp2 : pre2 = [] := List.length_eq_zero.1 (by simpa using e2.symm)
      have hyx' := hyx hp2
      subst hyx'
      simp only [endOf]
      have hoy : indelEnd q ≤ y.position := by
        rw [hy] at ho2
        exact ho2.1
      exact (rightShiftPair_moved hq).2 hoy
    | cons z zs =>
      simpa [endOf] using e3

/-- The reconstruction loop on a list in which the indel `a` starts where the indel `p`
before it ends, with the same kind, the indel before `p` ends left of `p`, and the indel
after `a` is not merged into `a`: the two are written as one operation of their summed
length, and the operations before it consume the reference up to the position of `p`. -/
theorem rebuild_merged_pair {p a : VCFIndelAllele} {post : List VCFIndelAllele}
    (hadj : a.position = indelEnd p) (hkind : a.insertion = p.insertion)
    (hnext : ∀ x ∈ post.head?, ¬ (x.position = indelEnd a ∧ x.insertion = a.insertion)) :
    ∀ (pre : List VCFIndelAllele) (init : Cigar) (n : Nat) (last : VCFIndelAllele) (c : Cigar)
      (e : Int),
    rebuild (init ++ [(n, indelKind last)]) last (pre ++ p :: a :: post) = .ok (c, e) →
    (refLength (init ++ [(n, indelKind last)]) : Int) = indelEnd last →
    endOf (indelEnd last) pre < p.position →
    ∃ u v, c = u ++ (p.length + a.length, indelKind a) :: v ∧
      (refLength u : Int) = p.position := by
  intro pre
  induction pre with
  | nil =>
    intro init n last c e h hinv hlt
    simp only [endOf] at hlt
    simp only [List.nil_append] at h
    unfold rebuild at h
    rw [if_neg (by omega), if_neg (by omega), if_pos (by omega)] at h
    unfold rebuild at h
    rw [if_neg (by omega), if_pos ⟨hadj, hkind⟩] at h
    have e1 : init ++ [(n, indelKind last)] ++ [((p.position - indelEnd last).toNat, 'M'),
        (p.length, indelKind p)]
        = (init ++ [(n, indelKind last)] ++ [((p.position - indelEnd last).toNat, 'M')])
          ++ [(p.length, indelKind p)] := by simp
    rw [e1, extendBack_concat] at h
    obtain ⟨n', tail, h1, -, h3⟩ := rebuild_shape post _ _ _ a c e h
    simp only at h1 h3
    refine ⟨init ++ [(n, indelKind last)] ++ [((p.position - indelEnd last).toNat, 'M')],
      tail, ?_, ?_⟩
    · rw [h1, h3 hnext, indelKind_congr hkind]
    · rw [refLength_append, refLength_match]
      push_cast
      omega
  | cons q pre2 ih =>
    intro init n last c e h hinv hlt
    simp only [endOf] at hlt
    simp only [List.cons_append] at h
    unfold rebuild at h
    split at h
    · cases h
    · split at h
      · rename_i hm
        rw [extendBack_concat] at h
        simp only at h
        rw [indelKind_congr hm.2.symm] at h hinv
        refine ih init (n + q.length) q c e h ?_ hlt
        rw [refLength_append, refLength_indel] at hinv ⊢
        have hq := indelEnd_eq q
        have hm1 := hm.1
        cases hqi : q.insertion
        · simp only [hqi, Bool.false_eq_true, if_false] at hinv hq ⊢
          push_cast at hinv ⊢
          omega
        · simp only [hqi, if_true] at hinv hq ⊢
          push_cast at hinv ⊢
          omega
      · split at h
        · rename_i hge
          have e1 : init ++ [(n, indelKind last)] ++ [((q.position - indelEnd last).toNat, 'M'),
              (q.length, indelKind q)]
              = (init ++ [(n, indelKind last)] ++ [((q.position - indelEnd last).toNat, 'M')])
                ++ [(q.length, indelKind q)] := by simp
          rw [e1] at h
          refine ih _ q.length q c e h ?_ hlt
          rw [refLength_append, refLength_append, refLength_match, refLength_indel]
          have hq := indelEnd_eq q
          cases hqi : q.insertion
          · simp only [hqi, Bool.false_eq_true, if_false] at hq ⊢
            push_cast
            omega
          · simp only [hqi, if_true] at hq ⊢
            push_cast
            omega
        · omega

/-- The reconstruction starts the loop with a cigar that ends in the operation of the first
indel and consumes the reference up to the position of that indel before it; the cigar it
returns continues the one left by the loop. -/
theorem reconstruct_split {sb se : List Char} {al : Int} {first : VCFIndelAllele}
    {rest : List VCFIndelAllele} {c : Cigar}
    (h : reconstruct sb se al (first :: rest) = .ok c) (h0 : 0 ≤ first.position) :
    ∃ (init c2 w : Cigar) (e : Int),
      rebuild (init ++ [(first.length, indelKind first)]) first rest = .ok (c2, e) ∧
      c = c2 ++ w ∧ (refLength init : Int) = first.position := by
  simp only [reconstruct] at h
  rw [bind_ok] at h
  obtain ⟨⟨c2, e⟩, h1, h2⟩ := h
  simp only at h2
  have hc0 : refLength (if sb ≠ [] then [(sb.length, 'S')] else []) = 0 := by
    by_cases hsb : sb = []
    · simp [hsb, refLength, kindTotal]
    · simp [hsb, refLength_clip]
  have hw : ∃ w, c = c2 ++ w := by
    cases h2
    by_cases hl : e < al <;> by_cases hse : se = []
    · exact ⟨[((al - e).toNat, 'M')], by simp [hl, hse]⟩
    · exact ⟨[((al - e).toNat, 'M'), (se.length, 'S')], by simp [hl, hse]⟩
    · exact ⟨[], by simp [hl, hse]⟩
    · exact ⟨[(se.length, 'S')], by simp [hl, hse]⟩
  obtain ⟨w, hw⟩ := hw
  by_cases hp : first.position > 0
  · refine ⟨(if sb ≠ [] then [(sb.length, 'S')] else []) ++ [(first.position.toNat, 'M')],
      c2, w, e, ?_, hw, ?_⟩
    · rw [if_pos hp] at h1
      rw [← h1]
      congr 1
      simp
    · rw [refLength_append, hc0, refLength_match]
      omega
  · refine ⟨(if sb ≠ [] then [(sb.length, 'S')] else []), c2, w, e, ?_, hw, ?_⟩
    · rw [if_neg hp] at h1
      exact h1
    · rw [hc0]
      omega

/-- The reconstruction of a list in which the indel `a` starts where the indel `p` before it
ends, with the same kind, the indels before `p` end left of `p`, and the indel after `a` is
not merged into `a`: the two are written as one operation of their summed length, and the
operations before it consume the reference up to the position of `p`. -/
theorem reconstruct_merged_pair {sb se : List Char} {al : Int} {pre post : List VCFIndelAllele}
    {p a : VCFIndelAllele} {c : Cigar}
    (h : reconstruct sb se al (pre ++ p :: a :: post) = .ok c)
    (ho : Ordered 0 (pre ++ p :: a :: post))
    (hadj : a.position = indelEnd p) (hkind : a.insertion = p.insertion)
    (hnext : ∀ x ∈ post.head?, ¬ (x.position = indelEnd a ∧ x.insertion = a.insertion))
    (hlt : pre ≠ [] → endOf 0 pre < p.position) :
    ∃ u v, c = u ++ (p.length + a.length, indelKind a) :: v ∧
      (refLength u : Int) = p.position := by
  cases pre with
  | nil =>
    simp only [List.nil_append] at h ho
    obtain ⟨init, c2, w, e, h1, h2, h3⟩ := reconstruct_split h ho.1
    unfold rebuild at h1
    have hpe := position_le_indelEnd p
    rw [if_neg (by omega), if_pos ⟨hadj, hkind⟩, extendBack_concat] at h1
    obtain ⟨n', tail, k1, -, k3⟩ := rebuild_shape post _ _ _ a c2 e h1
    simp only at k1 k3
    refine ⟨init, tail ++ w, ?_, h3⟩
    rw [h2, k1, k3 hnext, indelKind_congr hkind]
    simp
  | cons q pre2 =>
    simp only [List.cons_append] at h ho
    obtain ⟨init, c2, w, e, h1, h2, h3⟩ := reconstruct_split h ho.1
    have hl := hlt (by simp)
    simp only [endOf] at hl
    obtain ⟨u, v, k1, k2⟩ := rebuild_merged_pair hadj hkind hnext pre2 init q.length q c2 e h1
      (by
        rw [refLength_append, refLength_indel]
        have hq := indelEnd_eq q
        cases hqi : q.insertion
        · simp only [hqi, Bool.false_eq_true, if_false] at hq ⊢
          push_cast
          omega
        · simp only [hqi, if_true] at hq ⊢
          push_cast
          omega) hl
    refine ⟨u, v ++ w, ?_, k2⟩
    rw [h2, k1]
    simp

/-- C11 fails as stated: read `AACT`, reference `AAACCGT`, cigar `1D2M1D1M1D1M`.  After the
left shift the deletion `A` at offset 0 (a homopolymer of `A`) and the deletion `C` at offset
3 are consecutive, and the gap between them is `AA` in reference and read; the pass writes
`2M1D1M2D1M`, in which no operation is a Deletion of length 2 ending at reference offset 4:
the later deletion was itself moved right, to the third one.  On read `AAT`, reference
`AAACGTT`, cigar `1D2M2D1D1M` the deletion `A` at offset 0 and the deletion `CG` at offset 3
are such a pair too, and the deletion `T` starts where `CG` ends; the pass writes `2M4D1M`,
in which no operation is a Deletion of length 3: the third deletion is merged with the
two. -/
theorem leftAlign_merge_counterexample :
    (extract "AACT".toList "AAACCGT".toList (Extraction.start "AACT".toList "AAACCGT".toList)
        [(1, 'D'), (2, 'M'), (1, 'D'), (1, 'M'), (1, 'D'), (1, 'M')]
      >>= fun st => leftShift "AACT".toList "AAACCGT".toList none st.indels)
      = .ok [⟨false, 1, 0, 0, "A".toList⟩, ⟨false, 1, 3, 2, "C".toList⟩,
          ⟨false, 1, 5, 3, "G".toList⟩] ∧
    leftAlign "AACT".toList [(1, 'D'), (2, 'M'), (1, 'D'), (1, 'M'), (1, 'D'), (1, 'M')]
        "AAACCGT".toList = .ok (true, [(2, 'M'), (1, 'D'), (1, 'M'), (2, 'D'), (1, 'M')]) ∧
    (∀ i : Nat, i < 5 →
      ¬ (([(2, 'M'), (1, 'D'), (1, 'M'), (2, 'D'), (1, 'M')] : Cigar)[i]? = some (1 + 1, 'D') ∧
        refLength (([(2, 'M'), (1, 'D'), (1, 'M'), (2, 'D'), (1, 'M')] : Cigar).take i) + 2
          = 3 + 1)) ∧
    (extract "AAT".toList "AAACGTT".toList (Extraction.start "AAT".toList "AAACGTT".toList)
        [(1, 'D'), (2, 'M'), (2, 'D'), (1, 'D'), (1, 'M')]
      >>= fun st => leftShift "AAT".toList "AAACGTT".toList none st.indels)
      = .ok [⟨false, 1, 0, 0, "A".toList⟩, ⟨false, 2, 3, 2, "CG".toList⟩,
          ⟨false, 1, 5, 2, "T".toList⟩] ∧
    leftAlign "AAT".toList [(1, 'D'), (2, 'M'), (2, 'D'), (1, 'D'), (1, 'M')]
        "AAACGTT".toList = .ok (true, [(2, 'M'), (4, 'D'), (1, 'M')]) ∧
    (1 + 2, 'D') ∉ ([(2, 'M'), (4, 'D'), (1, 'M')] : Cigar) := by
  refine ⟨by decide, by decide, by decide, by decide, by decide, by decide⟩

/-- The guard of the right-shift step for two insertions compares
`readPosition + readPosition` of the earlier one with the read position of the later one.
On read `GGCAAATG`, reference `GGCAAG`, cigar `3M1I2M1I1M` the insertion `A` at offset 3 and
the insertion `T` at offset 5 are consecutive after the left shift, the gap between them is
`AA` in reference and read; the guard is false (3 + 3 is not below 6) and the pass leaves
the cigar unchanged. -/
theorem mergeGuard_insertion_example :
    (extract "GGCAAATG".toList "GGCAAG".toList
        (Extraction.start "GGCAAATG".toList "GGCAAG".toList)
        [(3, 'M'), (1, 'I'), (2, 'M'), (1, 'I'), (1, 'M')]
      >>= fun st => leftShift "GGCAAATG".toList "GGCAAG".toList none st.indels)
      = .ok [⟨true, 1, 3, 3, "A".toList⟩, ⟨true, 1, 5, 6, "T".toList⟩] ∧
    mergeGuard ⟨true, 1, 3, 3, "A".toList⟩ ⟨true, 1, 5, 6, "T".toList⟩ = false ∧
    leftAlign "GGCAAATG".toList [(3, 'M'), (1, 'I'), (2, 'M'), (1, 'I'), (1, 'M')]
        "GGCAAG".toList = .ok (false, [(3, 'M'), (1, 'I'), (2, 'M'), (1, 'I'), (1, 'M')]) := by
  refine ⟨by decide, by decide, by decide⟩

/-- The right-shift step and the reconstruction on a pair with a homopolymer gap, under the
guard of the code.  Let `p` and `a` be consecutive indels of the same kind after the
left-shift phase, `p` a homopolymer of the base `c`, the gap of `g >= 1` bases between them a
run of `c` in the reference and in the read, and let the guard of the right-shift step hold
(for two insertions it asks that `readPosition + readPosition` of `p` is below the read
position of `a`).  Then the right-shift phase moves `p` so that it ends where `a` starts; if
moreover `a` keeps its position in that phase and the indel after `a` is not merged into it,
the cigar has one operation for the two, of their summed length, ending where `a` ends. -/
theorem homopolymer_merge_guarded (read ref : List Char) (cigar c' : Cigar) (b : Bool)
    (st : Extraction) (shifted merged pre post pre' post' : List VCFIndelAllele)
    (p a p' a' : VCFIndelAllele) (c : Char) (g : Nat)
    (h : leftAlign read cigar ref = .ok (b, c'))
    (h1 : extract read ref (Extraction.start read ref) cigar = .ok st)
    (h2 : leftShift read ref none st.indels = .ok shifted)
    (h3 : rightShift read ref shifted = .ok merged)
    (hs : shifted = pre ++ p :: a :: post)
    (hm : merged = pre' ++ p' :: a' :: post') (hlen : pre'.length = pre.length)
    (hk : p.insertion = a.insertion) (hne : p.sequence ≠ [])
    (hhomo : ∀ x ∈ p.sequence, x = c) (hg : 1 ≤ g) (hpos : a.position = indelEnd p + g)
    (hrp : a.readPosition = p.readPosition + insLength p + g)
    (href : ∀ j : Nat, j < g → getAt ref (indelEnd p + j) = some c)
    (hread : ∀ j : Nat, j < g → getAt read (p.readPosition + insLength p + j) = some c)
    (hins : a.insertion = true → p.readPosition + p.readPosition < a.readPosition) :
    p' = { p with position := if a.insertion then a.position else a.position - p.length } ∧
    indelEnd p' = a.position ∧
    (a'.position = a.position →
      (∀ x ∈ post'.head?, ¬ (x.position = indelEnd a ∧ x.insertion = a.insertion)) →
      ∃ u v, c' = u ++ (p.length + a.length, indelKind a) :: v ∧
        (refLength u : Int) + (if a.insertion then 0 else ((p.length + a.length : Nat) : Int))
          = indelEnd a) := by
  obtain ⟨-, o2, o3, -, -, -⟩ := phases_ordered h1 h2 h3
  subst hs
  -- the right-shift phase at `p`
  obtain ⟨pre'', rest', e1, e2, e3, e4⟩ := rightShift_prefix pre 0 p (a :: post) merged h3 o2
  simp only [rightShift] at e4
  rw [bind_ok] at e4
  obtain ⟨p'', hp, e4⟩ := e4
  rw [bind_ok] at e4
  obtain ⟨rest2, hr, e4⟩ := e4
  cases e4
  rw [rightShiftPair_homopolymer hk hne hhomo hg hpos hrp href hread hins] at hp
  have hp'' := Except.ok.inj hp
  have hsplit := List.append_inj (hm.symm.trans e1) (by rw [hlen, e2])
  obtain ⟨s1, s2⟩ := hsplit
  simp only [List.cons.injEq] at s2
  obtain ⟨s2, s3⟩ := s2
  subst s1
  have hp' : p' = { p with
      position := if a.insertion then a.position else a.position - p.length } := by
    rw [s2, ← hp'']
  have hend : indelEnd p' = a.position := by
    rw [hp']
    unfold indelEnd
    simp only
    rw [hk]
    split <;> omega
  refine ⟨hp', hend, ?_⟩
  intro ha hnx
  -- the later indel after the right-shift phase
  have ho_a : Ordered (indelEnd p) (a :: post) := by
    have key : ∀ (l : List VCFIndelAllele) (e : Int), Ordered e (l ++ p :: a :: post) →
        Ordered (indelEnd p) (a :: post) := by
      intro l
      induction l with
      | nil => intro e hh; exact hh.2
      | cons q r ih => intro e hh; exact ih _ hh.2
    exact key pre 0 o2
  obtain ⟨-, fm, -⟩ := rightShift_ordered (a :: post).length (a :: post) (indelEnd p) rest2 rfl
    hr ho_a
  rw [← s3] at fm
  cases fm with
  | cons haa _ =>
    obtain ⟨m1, m2, -, -, -⟩ := haa
    have hlp : p'.length = p.length := by rw [hp']
    have hip : p'.insertion = p.insertion := by rw [hp']
    have hea : indelEnd a' = indelEnd a := by
      unfold indelEnd
      rw [m1, m2, ha]
    -- the output
    rw [leftAlign_ok_iff] at h
    obtain ⟨st', g1, hh⟩ := h
    rw [h1] at g1
    have hst := Except.ok.inj g1
    subst hst
    rcases hh with ⟨hnil, -, -⟩ | ⟨-, sh, mg, g2, g3, g4, -⟩
    · rw [hnil] at h2
      simp only [leftShift] at h2
      have := Except.ok.inj h2
      simp at this
    · rw [h2] at g2
      have hsh := Except.ok.inj g2
      subst hsh
      rw [h3] at g3
      have hmg := Except.ok.inj g3
      subst hmg
      rw [hm] at g4 o3
      have hp_pos : p.position < p'.position := by
        have hq := indelEnd_eq p
        rw [hp']
        simp only
        rw [← hk]
        cases hpi : p.insertion
        · simp only [hpi, Bool.false_eq_true, if_false] at hq ⊢
          omega
        · simp only [hpi, if_true] at hq ⊢
          omega
      obtain ⟨u, v, k1, k2⟩ := reconstruct_merged_pair g4 o3 (by rw [ha, hend])
        (by rw [m1, hip, hk])
        (by
          intro x hx
          rw [hea, m1]
          exact hnx x hx)
        (fun _ => lt_of_le_of_lt e3 hp_pos)
      refine ⟨u, v, ?_, ?_⟩
      · rw [k1, hlp, m2, indelKind_congr m1]
      · rw [k2]
        have hqa := indelEnd_eq a
        rw [hp']
        simp only
        cases hai : a.insertion
        · simp only [hai, Bool.false_eq_true, if_false] at hqa ⊢
          push_cast
          omega
        · simp only [hai, if_true] at hqa ⊢
          omega
/-! ## Soft clips kept by the extraction -/

/-- When at most one SoftClip operation is met after a read base has been consumed and no
SoftClip operation is longer than the read, the captured prefix and suffix have together the
length of all SoftClip operations. -/
theorem extract_clip_total {read ref : List Char} : ∀ (cs : Cigar) (st st' : Extraction)
    (rp : Nat), extract read ref st cs = .ok st' → st.rp = (rp : Int) →
    lateClips rp cs ≤ 1 → (∀ op ∈ cs, op.2 = 'S' → op.1 ≤ read.length) →
    read.length ≤ st.alignmentAlignedBases.length → (rp = 0 → st.softBegin = []) →
    (st.softEnd ≠ [] → lateClips rp cs = 0) →
    st'.softBegin.length + st'.softEnd.length
      = st.softBegin.length + st.softEnd.length + kindTotal 'S' cs := by
  intro cs
  induction cs with
  | nil =>
    intro st st' rp h _ _ _ _ _ _
    simp only [extract] at h
    cases h
    simp [kindTotal]
  | cons op rest ih =>
    intro st st' rp h hrp hlate hfit haab hsb hse
    obtain ⟨l, t⟩ := op
    simp only [extract] at h
    rw [bind_ok] at h
    obtain ⟨s1, h1, h2⟩ := h
    have hfit' : ∀ o ∈ rest, o.2 = 'S' → o.1 ≤ read.length :=
      fun o ho => hfit o (List.mem_cons_of_mem _ ho)
    have hk : kindTotal 'S' ((l, t) :: rest) = kindTotal 'S' [(l, t)] + kindTotal 'S' rest :=
      kindTotal_cons _ _ _
    by_cases hS : t = 'S'
    · subst hS
      have hl : l ≤ read.length := hfit (l, 'S') (by simp) rfl
      simp only [lateClips, true_and, true_or, or_true, if_true] at hlate hse
      rw [extractOp_clip] at h1
      rw [hk, kindTotal_single, if_pos rfl]
      by_cases h0 : rp = 0
      · subst h0
        have hst0 : st.rp = 0 := by simpa using hrp
        rw [if_pos hst0, bind_ok] at h1
        obtain ⟨sb, hsbok, h1⟩ := h1
        obtain ⟨-, -, hsbeq⟩ := substr_eq_ok hsbok
        cases h1
        simp only [ne_eq, not_true_eq_false, if_false, Nat.zero_add] at hlate hse
        have := ih _ st' l h2 (by simp only; rw [hst0]; simp) hlate hfit' haab
          (by
            intro hl0
            subst hl0
            simp only
            rw [hsbeq]
            simp)
          (by
            intro hne
            have := hse hne
            omega)
        simp only at this
        rw [this, hsbeq, hsb rfl]
        simp only [List.length_take, List.length_drop, List.length_nil]
        simp
        omega
      · have hstn : st.rp ≠ 0 := by
          rw [hrp]
          exact_mod_cast h0
        rw [if_neg hstn, bind_ok] at h1
        obtain ⟨se, hseok, h1⟩ := h1
        obtain ⟨q1, -, hseeq⟩ := substr_eq_ok hseok
        cases h1
        simp only [ne_eq, h0, not_false_eq_true, if_true] at hlate hse
        have hold : st.softEnd = [] := by
          by_contra hne
          have := hse hne
          omega
        have := ih _ st' (rp + l) h2 (by simp only; rw [hrp]; push_cast; ring) (by omega)
          hfit' haab (by intro hc; omega) (by intro _; omega)
        simp only at this
        rw [this, hseeq, hold]
        simp only [List.length_take, List.length_drop, List.length_nil]
        omega
    · obtain ⟨n1, n2, n3⟩ := @extractOp_noClip read ref st s1 (l, t) hS h1
      obtain ⟨-, r2, -⟩ := extractOp_spec h1
      simp only [lateClips, hS, false_and, if_false, or_false, Nat.zero_add] at hlate hse
      rw [hk, kindTotal_single, if_neg hS]
      simp only [kindTotal_single, hS, if_false] at r2
      have hrp1 : s1.rp = ((rp + (if t = 'M' ∨ t = 'I' then l else 0) : Nat) : Int) := by
        rw [r2, hrp]
        by_cases hM : t = 'M'
        · subst hM
          simp
        · by_cases hI : t = 'I'
          · subst hI
            simp
          · simp [hM, hI]
      have := ih s1 st' _ h2 hrp1 hlate hfit' (le_trans haab n3)
        (by
          intro hz
          rw [n1]
          exact hsb (by omega))
        (by
          intro hne
          rw [n2] at hne
          exact hse hne)
      rw [this, n1, n2]
      omega

/-- C3 fails as stated.  On `1M1N1D1M` (read `AT`, reference `ACGT`) the pass writes
`2M1D1M`: the Skip is absorbed into the Match, and the read-consuming length grows from 2 to
3.  On `1M1D1M1S1S` (read `ATGG`, reference `ACT`) the pass writes `1M1D1M1S`: both soft
clips are met after read bases, only the last is kept, and the read-consuming length falls
from 4 to 3.  On `1D5S` (read `A`, reference `T`) the pass writes `2S1D`: the soft clip is
longer than the read and is cut to the padded read, and the read-consuming length falls from
5 to 2. -/
theorem leftAlign_skip_counterexample :
    (leftAlign "AT".toList [(1, 'M'), (1, 'N'), (1, 'D'), (1, 'M')] "ACGT".toList
        = .ok (true, [(2, 'M'), (1, 'D'), (1, 'M')]) ∧
      readLength [(2, 'M'), (1, 'D'), (1, 'M')]
        ≠ readLength [(1, 'M'), (1, 'N'), (1, 'D'), (1, 'M')]) ∧
    (leftAlign "ATGG".toList [(1, 'M'), (1, 'D'), (1, 'M'), (1, 'S'), (1, 'S')] "ACT".toList
        = .ok (true, [(1, 'M'), (1, 'D'), (1, 'M'), (1, 'S')]) ∧
      readLength [(1, 'M'), (1, 'D'), (1, 'M'), (1, 'S')]
        ≠ readLength [(1, 'M'), (1, 'D'), (1, 'M'), (1, 'S'), (1, 'S')]) ∧
    (leftAlign "A".toList [(1, 'D'), (5, 'S')] "T".toList = .ok (true, [(2, 'S'), (1, 'D')]) ∧
      readLength [(2, 'S'), (1, 'D')] ≠ readLength [(1, 'D'), (5, 'S')]) := by
  decide

/-- C3, amended: for every pass of `leftAlign` that returns, the Match+Deletion+Skip length
of the output equals that of the input; and when the input has no Skip operation, at most
one of its SoftClip operations is met after a read base has been consumed, and none of its
SoftClip operations is longer than the read, the Match+Insertion+SoftClip length of the
output equals that of the input. -/
theorem leftAlign_conservation (read ref : List Char) (cigar c' : Cigar) (b : Bool)
    (h : leftAlign read cigar ref = .ok (b, c')) :
    refLength c' = refLength cigar ∧
    ((∀ op ∈ cigar, op.2 ≠ 'N') → lateClips 0 cigar ≤ 1 →
      (∀ op ∈ cigar, op.2 = 'S' → op.1 ≤ read.length) →
      readLength c' = readLength cigar) := by
  rw [leftAlign_ok_iff] at h
  obtain ⟨st, h1, h⟩ := h
  rcases h with ⟨-, -, hc⟩ | ⟨hne, shifted, merged, h2, h3, h4, -⟩
  · subst hc
    exact ⟨rfl, fun _ _ _ => rfl⟩
  · obtain ⟨tM, tD, tI, tS, tO⟩ := leftAlign_totals h1 hne h2 h3 h4
    constructor
    · unfold refLength
      rw [tM, tD, tO 'N' (by decide) (by decide) (by decide) (by decide)]
      omega
    · intro hN hlate hfit
      have hclip := extract_clip_total cigar (Extraction.start read ref) st 0 h1 rfl hlate hfit
        (le_refl _) (fun _ => rfl) (fun hne' => absurd rfl hne')
      have e0 : (Extraction.start read ref).softBegin.length = 0 := rfl
      have e1 : (Extraction.start read ref).softEnd.length = 0 := rfl
      rw [e0, e1] at hclip
      unfold readLength
      rw [tM, tI, tS, hclip, kindTotal_eq_zero hN]
      omega

/-- Instance of the amended C3: the pass on `1H1S3M1D2M1S1H` (read `GACAATC`, reference
`ACAAAT`) writes `1S2M1D3M1S`; both lengths are conserved. -/
theorem leftAlign_conservation_witness :
    leftAlign "GACAATC".toList
        [(1, 'H'), (1, 'S'), (3, 'M'), (1, 'D'), (2, 'M'), (1, 'S'), (1, 'H')] "ACAAAT".toList
      = .ok (true, [(1, 'S'), (2, 'M'), (1, 'D'), (3, 'M'), (1, 'S')]) ∧
    refLength [(1, 'S'), (2, 'M'), (1, 'D'), (3, 'M'), (1, 'S')]
      = refLength [(1, 'H'), (1, 'S'), (3, 'M'), (1, 'D'), (2, 'M'), (1, 'S'), (1, 'H')] ∧
    readLength [(1, 'S'), (2, 'M'), (1, 'D'), (3, 'M'), (1, 'S')]
      = readLength [(1, 'H'), (1, 'S'), (3, 'M'), (1, 'D'), (2, 'M'), (1, 'S'), (1, 'H')] :=
  ⟨by decide,
    (leftAlign_conservation "GACAATC".toList "ACAAAT".toList
      [(1, 'H'), (1, 'S'), (3, 'M'), (1, 'D'), (2, 'M'), (1, 'S'), (1, 'H')]
      [(1, 'S'), (2, 'M'), (1, 'D'), (3, 'M'), (1, 'S')] true (by decide)).1,
    (leftAlign_conservation "GACAATC".toList "ACAAAT".toList
      [(1, 'H'), (1, 'S'), (3, 'M'), (1, 'D'), (2, 'M'), (1, 'S'), (1, 'H')]
      [(1, 'S'), (2, 'M'), (1, 'D'), (3, 'M'), (1, 'S')] true (by decide)).2
      (by decide) (by decide) (by decide)⟩

/-- C11, amended: merge across a homopolymer gap, for deletions.  On an input on which the
pass returns, let `p` and `a` be consecutive deletions after the left-shift phase, `p` a
homopolymer of the base `c`, the gap of `g >= 1` bases between them a run of `c` in the
reference and in the read.  Then the right-shift phase moves `p` so that it ends where `a`
starts.  If moreover `a` keeps its position in the right-shift phase and the indel after
`a`, as that phase leaves it, is not a deletion starting at the end of `a`, the cigar left
by `leftAlign` has, in place of the two, one Deletion operation whose length is the sum of
the two lengths and which ends on the reference where `a` ends. -/
theorem leftAlign_homopolymer_merge (read ref : List Char) (cigar c' : Cigar) (b : Bool)
    (st : Extraction) (shifted merged pre post pre' post' : List VCFIndelAllele)
    (p a p' a' : VCFIndelAllele) (c : Char) (g : Nat)
    (h : leftAlign read cigar ref = .ok (b, c'))
    (h1 : extract read ref (Extraction.start read ref) cigar = .ok st)
    (h2 : leftShift read ref none st.indels = .ok shifted)
    (h3 : rightShift read ref shifted = .ok merged)
    (hs : shifted = pre ++ p :: a :: post)
    (hm : merged = pre' ++ p' :: a' :: post') (hlen : pre'.length = pre.length)
    (hp : p.insertion = false) (ha : a.insertion = false) (hne : p.sequence ≠ [])
    (hhomo : ∀ x ∈ p.sequence, x = c) (hg : 1 ≤ g)
    (hpos : a.position = p.position + p.length + g)
    (hrp : a.readPosition = p.readPosition + g)
    (href : ∀ j : Nat, j < g → getAt ref (p.position + p.length + j) = some c)
    (hread : ∀ j : Nat, j < g → getAt read (p.readPosition + j) = some c) :
    p' = { p with position := a.position - p.length } ∧
    p'.position + p'.length = a.position ∧
    (a'.position = a.position →
      (∀ x ∈ post'.head?, ¬ (x.position = a.position + a.length ∧ x.insertion = false)) →
      ∃ u v, c' = u ++ (p.length + a.length, 'D') :: v ∧
        (refLength u : Int) + ((p.length + a.length : Nat) : Int)
          = a.position + a.length) := by
  have e1 : indelEnd p = p.position + p.length := by simp [indelEnd, hp]
  have e2 : insLength p = 0 := by simp [insLength, hp]
  have e3 : indelEnd a = a.position + a.length := by simp [indelEnd, ha]
  have e4 : indelKind a = 'D' := by simp [indelKind, ha]
  obtain ⟨t1, t2, t3⟩ := homopolymer_merge_guarded read ref cigar c' b st shifted merged pre
    post pre' post' p a p' a' c g h h1 h2 h3 hs hm hlen (hp.trans ha.symm) hne hhomo hg
    (by rw [e1]; exact hpos) (by rw [e2]; simpa using hrp) (by rw [e1]; exact href)
    (by rw [e2]; simpa using hread) (fun hai => by rw [ha] at hai; cases hai)
  simp only [ha, Bool.false_eq_true, if_false] at t1 t3
  refine ⟨t1, ?_, ?_⟩
  · rw [t1]
    simp only
    omega
  · intro hpa hnx
    obtain ⟨u, v, k1, k2⟩ := t3 hpa (by
      intro x hx
      rw [e3]
      exact hnx x hx)
    rw [e4] at k1
    rw [e3] at k2
    exact ⟨u, v, k1, k2⟩

/-- Instance of the amended C11: read `AAT`, reference `AAACGT`, cigar `1D2M2D1M`.  The
deletion `A` at offset 0 and the deletion `CG` at offset 3 are separated by the gap `AA`;
the right shift moves the first to offset 2 and the pass writes `2M3D1M`. -/
theorem leftAlign_homopolymer_merge_witness :
    leftAlign "AAT".toList [(1, 'D'), (2, 'M'), (2, 'D'), (1, 'M')] "AAACGT".toList
      = .ok (true, [(2, 'M'), (3, 'D'), (1, 'M')]) ∧
    rightShift "AAT".toList "AAACGT".toList
        [⟨false, 1, 0, 0, "A".toList⟩, ⟨false, 2, 3, 2, "CG".toList⟩]
      = .ok [⟨false, 1, 2, 0, "A".toList⟩, ⟨false, 2, 3, 2, "CG".toList⟩] ∧
    (2 : Int) + ((1 : Nat) : Int) = 3 ∧
    ∃ u v, ([(2, 'M'), (3, 'D'), (1, 'M')] : Cigar) = u ++ (1 + 2, 'D') :: v ∧
      (refLength u : Int) + ((1 + 2 : Nat) : Int) = 3 + ((2 : Nat) : Int) :=
  have T := leftAlign_homopolymer_merge "AAT".toList "AAACGT".toList
    [(1, 'D'), (2, 'M'), (2, 'D'), (1, 'M')] [(2, 'M'), (3, 'D'), (1, 'M')] true
    ⟨0, "AAACGT".toList, 3, "-AA--T".toList,
      [⟨false, 1, 0, 0, "A".toList⟩, ⟨false, 2, 3, 2, "CG".toList⟩], 3, 6, [], []⟩
    [⟨false, 1, 0, 0, "A".toList⟩, ⟨false, 2, 3, 2, "CG".toList⟩]
    [⟨false, 1, 2, 0, "A".toList⟩, ⟨false, 2, 3, 2, "CG".toList⟩]
    [] [] [] []
    ⟨false, 1, 0, 0, "A".toList⟩ ⟨false, 2, 3, 2, "CG".toList⟩
    ⟨false, 1, 2, 0, "A".toList⟩ ⟨false, 2, 3, 2, "CG".toList⟩ 'A' 2
    (by decide) (by decide) (by decide) (by decide) rfl rfl rfl rfl rfl (by decide)
    (by decide) (by decide) (by decide) (by decide) (by decide) (by decide)
  ⟨by decide, by decide, T.2.1, T.2.2 rfl (fun x hx => by cases hx)⟩
/-! ## Indels that meet at one boundary -/

/-- The reconstruction loop never shortens the last operation it starts from. -/
theorem rebuild_grows : ∀ (rest : List VCFIndelAllele) (pre : Cigar) (n : Nat) (k : Char)
    (last : VCFIndelAllele) (c : Cigar) (e : Int),
    rebuild (pre ++ [(n, k)]) last rest = .ok (c, e) →
    ∃ n' tail, c = pre ++ (n', k) :: tail ∧ n ≤ n' := by
  intro rest
  induction rest with
  | nil =>
    intro pre n k last c e h
    simp only [rebuild] at h
    cases h
    exact ⟨n, [], by simp, le_refl _⟩
  | cons a rest ih =>
    intro pre n k last c e h
    unfold rebuild at h
    split at h
    · cases h
    · split at h
      · rw [extendBack_concat] at h
        obtain ⟨n', tail, h1, h2⟩ := ih pre (n + a.length) k a c e h
        exact ⟨n', tail, h1, by omega⟩
      · split at h
        · have e1 : pre ++ [(n, k)] ++ [((a.position - indelEnd last).toNat, 'M'),
              (a.length, indelKind a)]
              = (pre ++ [(n, k), ((a.position - indelEnd last).toNat, 'M')])
                ++ [(a.length, indelKind a)] := by simp
          rw [e1] at h
          obtain ⟨n', tail, h1, -⟩ := ih _ a.length (indelKind a) a c e h
          exact ⟨n, ((a.position - indelEnd last).toNat, 'M') :: (n', indelKind a) :: tail,
            by rw [h1]; simp, le_refl _⟩
        · omega

/-- The part of an ordered list after a prefix lies in order from the end of the prefix
on. -/
theorem Ordered.suffix {m : List VCFIndelAllele} :
    ∀ (l : List VCFIndelAllele) (e : Int), Ordered e (l ++ m) → Ordered (endOf e l) m := by
  intro l
  induction l with
  | nil =>
    intro e h
    simpa [endOf] using h
  | cons x xs ih =>
    intro e h
    simp only [endOf]
    exact ih _ h.2

/-- An indel of an ordered list starts at or after the bound of the list. -/
theorem Ordered.le_position {a : VCFIndelAllele} {post : List VCFIndelAllele} :
    ∀ (l : List VCFIndelAllele) (e : Int), Ordered e (l ++ a :: post) → e ≤ a.position := by
  intro l
  induction l with
  | nil =>
    intro e h
    exact h.1
  | cons q l ih =>
    intro e h
    have h1 := ih (indelEnd q) h.2
    have h2 := position_le_indelEnd q
    exact le_trans h.1 (le_trans h2 h1)

/-- In an ordered list, the indels listed before an indel that starts at the bound of the
list all start and end at that bound. -/
theorem Ordered.between {a : VCFIndelAllele} {post : List VCFIndelAllele} :
    ∀ (mid : List VCFIndelAllele) (e : Int), Ordered e (mid ++ a :: post) → a.position ≤ e →
      ∀ q ∈ mid, q.position = e ∧ indelEnd q = e := by
  intro mid
  induction mid with
  | nil =>
    intro e _ _ q hq
    cases hq
  | cons x mid ih =>
    intro e h ha q hq
    have h1 := Ordered.le_position mid (indelEnd x) h.2
    have h2 := position_le_indelEnd x
    have h3 := h.1
    have hx : x.position = e ∧ indelEnd x = e := ⟨by omega, by omega⟩
    rcases List.mem_cons.1 hq with rfl | hq
    · exact hx
    · have h4 := h.2
      rw [hx.2] at h4
      exact ih e h4 ha q hq

/-- The reconstruction loop on indels of one kind that all start where the indel `last`
ends: they are all added to the operation of `last`. -/
theorem rebuild_absorbs (B : Int) (ins : Bool) (k : Char) {a : VCFIndelAllele}
    {post : List VCFIndelAllele} (hap : a.position = B) (hai : a.insertion = ins) :
    ∀ (mid : List VCFIndelAllele) (init : Cigar) (n : Nat) (last : VCFIndelAllele) (c : Cigar)
      (e : Int),
    indelEnd last = B → last.insertion = ins →
    (∀ q ∈ mid, q.position = B ∧ indelEnd q = B ∧ q.insertion = ins) →
    rebuild (init ++ [(n, k)]) last (mid ++ a :: post) = .ok (c, e) →
    ∃ n' tail, c = init ++ (n', k) :: tail ∧
      n + (mid.map fun q => q.length).sum + a.length ≤ n' := by
  intro mid
  induction mid with
  | nil =>
    intro init n last c e hB hi _ h
    simp only [List.nil_append] at h
    unfold rebuild at h
    rw [if_neg (by omega), if_pos ⟨by omega, by rw [hai, hi]⟩, extendBack_concat] at h
    obtain ⟨n', tail, h1, h2⟩ := rebuild_grows post _ _ _ a c e h
    refine ⟨n', tail, h1, ?_⟩
    simp only [List.map_nil, List.sum_nil]
    simp only at h2
    omega
  | cons x mid ih =>
    intro init n last c e hB hi hmid h
    have hx := hmid x (List.mem_cons_self _ _)
    simp only [List.cons_append] at h
    unfold rebuild at h
    rw [if_neg (by omega), if_pos ⟨by omega, by rw [hx.2.2, hi]⟩, extendBack_concat] at h
    simp only at h
    obtain ⟨n', tail, h1, h2⟩ := ih init (n + x.length) x c e hx.2.1 hx.2.2
      (fun q hq => hmid q (List.mem_cons_of_mem _ hq)) h
    refine ⟨n', tail, h1, ?_⟩
    simp only [List.map_cons, List.sum_cons]
    omega

/-- The reconstruction loop on a list in which the indel `a` starts where the earlier indel
`p` ends, with the same kind as `p` and as every indel listed between them: the cigar has
one operation of that kind, at least as long as all of them together, that starts at or
before `p` and ends at or after `a` on the reference. -/
theorem rebuild_covers_run {p a : VCFIndelAllele} {mid post : List VCFIndelAllele}
    (hadj : a.position = indelEnd p) (hkind : a.insertion = p.insertion)
    (hmid : ∀ q ∈ mid, q.position = indelEnd p ∧ indelEnd q = indelEnd p ∧
      q.insertion = p.insertion) :
    ∀ (pre : List VCFIndelAllele) (init : Cigar) (n : Nat) (last : VCFIndelAllele) (c : Cigar)
      (e : Int),
    rebuild (init ++ [(n, indelKind last)]) last (pre ++ p :: (mid ++ a :: post))
      = .ok (c, e) →
    (refLength (init ++ [(n, indelKind last)]) : Int) = indelEnd last →
    (refLength init : Int) ≤ last.position →
    ∃ u v m, c = u ++ (m, indelKind a) :: v ∧
      p.length + (mid.map fun q => q.length).sum + a.length ≤ m ∧
      (refLength u : Int) ≤ p.position ∧
      indelEnd a ≤ (refLength u : Int) + (if a.insertion then 0 else (m : Int)) := by
  have hpe := indelEnd_eq p
  have hae := indelEnd_eq a
  intro pre
  induction pre with
  | nil =>
    intro init n last c e h hinv hle
    have hlast := position_le_indelEnd last
    simp only [List.nil_append] at h
    unfold rebuild at h
    split at h
    · cases h
    · split at h
      · rename_i hm
        rw [extendBack_concat] at h
        simp only at h
        obtain ⟨m, tail, h1, h2⟩ := rebuild_absorbs (indelEnd p) p.insertion (indelKind last)
          hadj hkind mid init (n + p.length) p c e rfl rfl hmid h
        refine ⟨init, tail, m, ?_, by omega, by omega, ?_⟩
        · rw [h1, indelKind_congr (hkind.trans hm.2)]
        · rw [refLength_append, refLength_indel] at hinv
          have hm1 := hm.1
          have hli : last.insertion = a.insertion := (hkind.trans hm.2).symm
          have hpi : p.insertion = a.insertion := hkind.symm
          cases hai : a.insertion
          · rw [hai] at hli hpi
            simp only [hai, hli, hpi, Bool.false_eq_true, if_false] at hinv hpe hae ⊢
            push_cast at hinv
            omega
          · rw [hai] at hli hpi
            simp only [hai, hli, hpi, if_true] at hinv hpe hae ⊢
            push_cast at hinv
            omega
      · split at h
        · rename_i hge
          have e1 : init ++ [(n, indelKind last)] ++ [((p.position - indelEnd last).toNat, 'M'),
              (p.length, indelKind p)]
              = (init ++ [(n, indelKind last)] ++ [((p.position - indelEnd last).toNat, 'M')])
                ++ [(p.length, indelKind p)] := by simp
          rw [e1] at h
          obtain ⟨m, tail, h1, h2⟩ := rebuild_absorbs (indelEnd p) p.insertion (indelKind p)
            hadj hkind mid _ p.length p c e rfl rfl hmid h
          have hu : (refLength (init ++ [(n, indelKind last)]
              ++ [((p.position - indelEnd last).toNat, 'M')]) : Int) = p.position := by
            rw [refLength_append, refLength_match]
            push_cast
            omega
          refine ⟨_, tail, m, ?_, by omega, le_of_eq hu, ?_⟩
          · rw [h1, indelKind_congr hkind]
          · rw [hu]
            have hpi : p.insertion = a.insertion := hkind.symm
            cases hai : a.insertion
            · rw [hai] at hpi
              simp only [hai, hpi, Bool.false_eq_true, if_false] at hpe hae ⊢
              omega
            · rw [hai] at hpi
              simp only [hai, hpi, if_true] at hpe hae ⊢
              omega
        · omega
  | cons q pre2 ih =>
    intro init n last c e h hinv hle
    have hlast := position_le_indelEnd last
    simp only [List.cons_append] at h
    unfold rebuild at h
    split at h
    · cases h
    · split at h
      · rename_i hm
        rw [extendBack_concat] at h
        simp only at h
        rw [indelKind_congr hm.2.symm] at h hinv
        refine ih init (n + q.length) q c e h ?_ (by omega)
        rw [refLength_append, refLength_indel] at hinv ⊢
        have hq := indelEnd_eq q
        have hm1 := hm.1
        cases hqi : q.insertion
        · simp only [hqi, Bool.false_eq_true, if_false] at hinv hq ⊢
          push_cast at hinv ⊢
          omega
        · simp only [hqi, if_true] at hinv hq ⊢
          push_cast at hinv ⊢
          omega
      · split at h
        · rename_i hge
          have e1 : init ++ [(n, indelKind last)] ++ [((q.position - indelEnd last).toNat, 'M'),
              (q.length, indelKind q)]
              = (init ++ [(n, indelKind last)] ++ [((q.position - indelEnd last).toNat, 'M')])
                ++ [(q.length, indelKind q)] := by simp
          rw [e1] at h
          refine ih _ q.length q c e h ?_ ?_
          · rw [refLength_append, refLength_append, refLength_match, refLength_indel]
            have hq := indelEnd_eq q
            cases hqi : q.insertion
            · simp only [hqi, Bool.false_eq_true, if_false] at hq ⊢
              push_cast
              omega
            · simp only [hqi, if_true] at hq ⊢
              push_cast
              omega
          · rw [refLength_append, refLength_match]
            push_cast
            omega
        · omega

/-- The reconstruction of an ordered list in which the indel `a` starts where the earlier
indel `p` ends, with the same kind as `p` and as every indel listed between them: the cigar
has one operation of that kind, at least as long as all of them together, that starts at or
before `p` and ends at or after `a` on the reference. -/
theorem reconstruct_covers_run {sb se : List Char} {al : Int}
    {pre mid post : List VCFIndelAllele} {p a : VCFIndelAllele} {c : Cigar}
    (h : reconstruct sb se al (pre ++ p :: (mid ++ a :: post)) = .ok c)
    (ho : Ordered 0 (pre ++ p :: (mid ++ a :: post)))
    (hadj : a.position = indelEnd p) (hkind : a.insertion = p.insertion)
    (hmk : ∀ q ∈ mid, q.insertion = p.insertion) :
    ∃ u v m, c = u ++ (m, indelKind a) :: v ∧
      p.length + (mid.map fun q => q.length).sum + a.length ≤ m ∧
      (refLength u : Int) ≤ p.position ∧
      indelEnd a ≤ (refLength u : Int) + (if a.insertion then 0 else (m : Int)) := by
  have hop : ∀ e : Int, Ordered e (p :: (mid ++ a :: post)) →
      ∀ q ∈ mid, q.position = indelEnd p ∧ indelEnd q = indelEnd p ∧
        q.insertion = p.insertion := by
    intro e he q hq
    obtain ⟨k1, k2⟩ := Ordered.between mid (indelEnd p) he.2 (le_of_eq hadj) q hq
    exact ⟨k1, k2, hmk q hq⟩
  cases pre with
  | nil =>
    simp only [List.nil_append] at h ho
    have hmid := hop 0 ho
    obtain ⟨init, c2, w, e, h1, h2, h3⟩ := reconstruct_split h ho.1
    obtain ⟨m, tail, k1, k2⟩ := rebuild_absorbs (indelEnd p) p.insertion (indelKind p)
      hadj hkind mid init p.length p c2 e rfl rfl hmid h1
    refine ⟨init, tail ++ w, m, ?_, k2, le_of_eq h3, ?_⟩
    · rw [h2, k1, indelKind_congr hkind]
      simp
    · rw [h3]
      have hpe := indelEnd_eq p
      have hae := indelEnd_eq a
      have hpi : p.insertion = a.insertion := hkind.symm
      cases hai : a.insertion
      · rw [hai] at hpi
        simp only [hai, hpi, Bool.false_eq_true, if_false] at hpe hae ⊢
        omega
      · rw [hai] at hpi
        simp only [hai, hpi, if_true] at hpe hae ⊢
        omega
  | cons q pre2 =>
    simp only [List.cons_append] at h ho
    have hsplit : Ordered (endOf (indelEnd q) pre2) (p :: (mid ++ a :: post)) :=
      Ordered.suffix pre2 (indelEnd q) ho.2
    have hmid := hop _ hsplit
    obtain ⟨init, c2, w, e, h1, h2, h3⟩ := reconstruct_split h ho.1
    obtain ⟨u, v, m, k1, k2, k3, k4⟩ := rebuild_covers_run hadj hkind hmid pre2 init q.length q
      c2 e h1
      (by
        rw [refLength_append, refLength_indel]
        have hq := indelEnd_eq q
        cases hqi : q.insertion
        · simp only [hqi, Bool.false_eq_true, if_false] at hq ⊢
          push_cast
          omega
        · simp only [hqi, if_true] at hq ⊢
          push_cast
          omega) (le_of_eq h3)
    refine ⟨u, v ++ w, m, ?_, k2, k3, k4⟩
    rw [h2, k1]
    simp

/-- C20, amended: for every input that contains at least one Insertion or Deletion and on
which the pass returns, no two consecutive operations of the cigar left by `leftAlign` have
the same kind; and whenever, in the list of indels after the right shift, an indel `a`
starts where an earlier indel `p` of the same kind ends and no indel of the other kind is
listed between them, the cigar has one operation of that kind that holds both: it is at
least as long as `p`, `a` and the indels between them together, it starts at or before `p`
and it ends at or after `a` on the reference. -/
theorem leftAlign_compact (read ref : List Char) (cigar c' : Cigar) (b : Bool)
    (h : leftAlign read cigar ref = .ok (b, c'))
    (hi : ∃ op ∈ cigar, op.2 = 'I' ∨ op.2 = 'D') :
    List.Chain' (fun x y : Nat × Char => x.2 ≠ y.2) c' ∧
    ∀ (st : Extraction) (shifted merged pre mid post : List VCFIndelAllele)
      (p a : VCFIndelAllele),
      extract read ref (Extraction.start read ref) cigar = .ok st →
      leftShift read ref none st.indels = .ok shifted →
      rightShift read ref shifted = .ok merged →
      merged = pre ++ p :: (mid ++ a :: post) →
      (∀ q ∈ mid, q.insertion = p.insertion) →
      a.insertion = p.insertion → a.position = indelEnd p →
      ∃ u v m, c' = u ++ (m, indelKind a) :: v ∧
        p.length + (mid.map fun q => q.length).sum + a.length ≤ m ∧
        (refLength u : Int) ≤ p.position ∧
        indelEnd a ≤ (refLength u : Int) + (if a.insertion then 0 else (m : Int)) := by
  refine ⟨leftAlign_kinds_alternate read ref cigar c' b h hi, ?_⟩
  intro st shifted merged pre mid post p a h1 h2 h3 hm hmk hkind hadj
  rw [leftAlign_ok_iff] at h
  obtain ⟨st0, g1, g⟩ := h
  rw [h1] at g1
  cases g1
  have hne := extract_hasIndel cigar _ st h1 (Or.inr hi)
  rcases g with ⟨hnil, -, -⟩ | ⟨-, shifted0, merged0, g2, g3, g4, -⟩
  · exact absurd hnil hne
  · rw [h2] at g2
    cases g2
    rw [h3] at g3
    cases g3
    obtain ⟨-, -, ho, -, -, -⟩ := phases_ordered h1 h2 h3
    rw [hm] at g4 ho
    exact reconstruct_covers_run g4 ho hadj hkind hmk

/-- Counterexample to C20 as stated: read `AAT`, reference `ACGT`, cigar `1M1D1I1D1M`.  After
the right shift the deletion `C` ends at reference offset 2, where the insertion `A` lies
and the deletion `G` starts.  The pass writes `1M1D0M1I0M1D1M`: the two deletions meet at
one boundary and are two operations, no Deletion of the output is longer than 1. -/
theorem leftAlign_compact_counterexample :
    leftAlign "AAT".toList [(1, 'M'), (1, 'D'), (1, 'I'), (1, 'D'), (1, 'M')] "ACGT".toList
      = .ok (true,
          [(1, 'M'), (1, 'D'), (0, 'M'), (1, 'I'), (0, 'M'), (1, 'D'), (1, 'M')]) ∧
    ((extract "AAT".toList "ACGT".toList (Extraction.start "AAT".toList "ACGT".toList)
        [(1, 'M'), (1, 'D'), (1, 'I'), (1, 'D'), (1, 'M')]) >>= fun st =>
      leftShift "AAT".toList "ACGT".toList none st.indels >>= fun s =>
      rightShift "AAT".toList "ACGT".toList s)
      = .ok [⟨false, 1, 1, 1, "C".toList⟩, ⟨true, 1, 2, 1, "A".toList⟩,
          ⟨false, 1, 2, 2, "G".toList⟩] ∧
    (⟨false, 1, 2, 2, "G".toList⟩ : VCFIndelAllele).position
      = indelEnd ⟨false, 1, 1, 1, "C".toList⟩ ∧
    ([(1, 'M'), (1, 'D'), (0, 'M'), (1, 'I'), (0, 'M'), (1, 'D'), (1, 'M')] : Cigar).filter
        (fun op => op.2 = 'D') = [(1, 'D'), (1, 'D')] ∧
    ¬ ∃ u v m, ([(1, 'M'), (1, 'D'), (0, 'M'), (1, 'I'), (0, 'M'), (1, 'D'), (1, 'M')] : Cigar)
        = u ++ (m, 'D') :: v ∧ 1 + 1 ≤ m := by
  refine ⟨by decide, by decide, by decide, by decide, ?_⟩
  rintro ⟨u, v, m, h1, h2⟩
  have hmem : (m, 'D') ∈
      ([(1, 'M'), (1, 'D'), (0, 'M'), (1, 'I'), (0, 'M'), (1, 'D'), (1, 'M')] : Cigar) := by
    rw [h1]
    simp
  have hall : ∀ op ∈
      ([(1, 'M'), (1, 'D'), (0, 'M'), (1, 'I'), (0, 'M'), (1, 'D'), (1, 'M')] : Cigar),
      op.2 = 'D' → op.1 = 1 := by decide
  have := hall _ hmem rfl
  simp only at this
  omega

/-- Instance of the amended C20: read `ACGTA`, reference `AA`, cigar `1M1I1I1I1M`.  The
three insertions lie at reference offset 1; the pass writes `1M3I1M`, and the one Insertion
holds the first, the third and the one between them. -/
theorem leftAlign_compact_witness :
    leftAlign "ACGTA".toList [(1, 'M'), (1, 'I'), (1, 'I'), (1, 'I'), (1, 'M')] "AA".toList
      = .ok (true, [(1, 'M'), (3, 'I'), (1, 'M')]) ∧
    List.Chain' (fun x y : Nat × Char => x.2 ≠ y.2)
      ([(1, 'M'), (3, 'I'), (1, 'M')] : Cigar) ∧
    ∃ u v m, ([(1, 'M'), (3, 'I'), (1, 'M')] : Cigar)
        = u ++ (m, indelKind ⟨true, 1, 1, 3, "T".toList⟩) :: v ∧
      1 + ([(⟨true, 1, 1, 2, "G".toList⟩ : VCFIndelAllele)].map fun q => q.length).sum + 1
        ≤ m ∧
      (refLength u : Int) ≤ 1 ∧
      indelEnd ⟨true, 1, 1, 3, "T".toList⟩ ≤ (refLength u : Int)
        + (if (⟨true, 1, 1, 3, "T".toList⟩ : VCFIndelAllele).insertion then 0
            else (m : Int)) :=
  have T := leftAlign_compact "ACGTA".toList "AA".toList
    [(1, 'M'), (1, 'I'), (1, 'I'), (1, 'I'), (1, 'M')] [(1, 'M'), (3, 'I'), (1, 'M')] true
    (by decide) ⟨(1, 'I'), by decide, Or.inl rfl⟩
  ⟨by decide, T.1,
    T.2 ⟨3, "A---A".toList, 0, "ACGTA".toList,
        [⟨true, 1, 1, 1, "C".toList⟩, ⟨true, 1, 1, 2, "G".toList⟩,
          ⟨true, 1, 1, 3, "T".toList⟩], 5, 2, [], []⟩
      [⟨true, 1, 1, 1, "C".toList⟩, ⟨true, 1, 1, 2, "G".toList⟩, ⟨true, 1, 1, 3, "T".toList⟩]
      [⟨true, 1, 1, 1, "C".toList⟩, ⟨true, 1, 1, 2, "G".toList⟩, ⟨true, 1, 1, 3, "T".toList⟩]
      [] [⟨true, 1, 1, 2, "G".toList⟩] []
      ⟨true, 1, 1, 1, "C".toList⟩ ⟨true, 1, 1, 3, "T".toList⟩
      (by decide) (by decide) (by decide) rfl
      (fun q hq => by
        rcases List.mem_singleton.1 hq with rfl
        rfl)
      rfl (by decide)⟩
end vcflib
